import Mathlib

/-!
# Bank queue simulator (`bank_simulator.c`)

A shallow embedding of the C program and proofs of properties of it.

Modelling conventions.

* `int` is modelled by `Int`.  The quantities of the simulation (minutes,
  counters, wait times) stay far below `2^31` and are computed without
  wrap-around.  The statistics functions take arbitrary arrays, so their `int`
  arithmetic (the difference in `compare_ints`, the sum of the two middle
  elements in `calculate_median`) is reduced modulo `2^32` by `wrap_int`.
* In the simulation run and in the report, `double` is modelled by an
  arbitrary linear ordered field `F` and the library functions `exp` and `sqrt`
  are parameters: what is proved of them holds for every draw stream and every
  `exp`, and the comparisons of the report are with the constants 0, 5 and 10.
  Definitions stay executable (take `F := ℚ`).
* The values that `calculate_std_dev` and `generate_arrivals` compute depend
  on rounding, so they are studied on `Double`, a model of IEEE 754 binary64
  with round-to-nearest-even, overflow to infinity, gradual underflow and NaN
  (`calculate_std_dev_double`, `generate_arrivals_double`); every operation is
  rounded once, as the C code evaluates it in `double` (no extended precision,
  no fused multiply-add).  `round_double_spec`, `sqrt_round_spec` and
  `fsqrt_square` state what the roundings guarantee.
* `rand()` is a stream `rand : Nat → Nat` of non-negative draws together with
  the number of draws consumed so far (`rng`); `RAND_MAX` is a parameter.
* The heap cells that hold the queue nodes are a list indexed by address;
  `malloc` returns the first address past the end and `free` empties a cell.
  A pointer is an `Option Nat` (`none` is `NULL`).
* Loops that may not terminate (`do ... while` in `generate_arrivals`, the
  drain loop of `run_simulation`) take a `fuel` bound and return `none` when
  it runs out.
* `qsort` is the C library routine; it is a parameter of the functions that
  call it.
-/

namespace BankSimulator

/-! ## Data model -/

/-- The C struct `Customer`. -/
structure Customer where
  arrival_time : Int
  service_start_time : Int
  wait_time : Int
deriving DecidableEq

/-- The C struct `QueueNode`; `next` is a pointer to a heap cell. -/
structure QueueNode where
  customer : Customer
  next : Option Nat
deriving DecidableEq

/-- The C struct `Queue` together with the heap cells of its nodes. -/
structure Queue where
  heap : List (Option QueueNode)
  front : Option Nat
  rear : Option Nat
  size : Int
deriving DecidableEq

/-- Read the node stored at an address (a cell that is not allocated reads as a
fixed junk node; the invariants below show the program never does this). -/
def load (heap : List (Option QueueNode)) (a : Nat) : QueueNode :=
  (heap.getD a none).getD ⟨⟨0, 0, 0⟩, none⟩

/-- Overwrite the node stored at an address. -/
def store (heap : List (Option QueueNode)) (a : Nat) (n : QueueNode) :
    List (Option QueueNode) :=
  heap.set a (some n)

/-- Release the cell at an address (`free`). -/
def release (heap : List (Option QueueNode)) (a : Nat) : List (Option QueueNode) :=
  heap.set a none

/-! ## Queue operations -/

/-- `create_queue`: front and rear are `NULL`, size is 0. -/
def create_queue : Queue :=
  { heap := [], front := none, rear := none, size := 0 }

/-- `enqueue`: allocate a node holding the customer, link it after the rear
node (or make it the only node), and increment the size. -/
def enqueue (q : Queue) (customer : Customer) : Queue :=
  let new_node := q.heap.length
  let heap1 := q.heap ++ [some { customer := customer, next := none }]
  match q.rear with
  | none =>
    { heap := heap1, front := some new_node, rear := some new_node, size := q.size + 1 }
  | some r =>
    { heap := store heap1 r { load heap1 r with next := some new_node },
      front := q.front, rear := some new_node, size := q.size + 1 }

/-- `dequeue`: on `front == NULL` return the customer `{-1, -1, -1}` and leave
the queue alone; otherwise unlink and free the front node, decrement the size
and return its customer. -/
def dequeue (q : Queue) : Customer × Queue :=
  match q.front with
  | none => (⟨-1, -1, -1⟩, q)
  | some temp =>
    let customer := (load q.heap temp).customer
    let front1 := (load q.heap temp).next
    let rear1 := if front1 = none then none else q.rear
    (customer,
      { heap := release q.heap temp, front := front1, rear := rear1, size := q.size - 1 })

/-- `is_empty`: `q->front == NULL`. -/
def is_empty (q : Queue) : Bool :=
  decide (q.front = none)

/-! ## Teller helpers -/

/-- Loop of `has_busy_teller`: `n` indices remain, starting at `i`. -/
def has_busy_teller_loop (teller_busy : List Int) : Nat → Nat → Bool
  | 0, _ => false
  | n + 1, i =>
    if teller_busy.getD i 0 > 0 then true else has_busy_teller_loop teller_busy n (i + 1)

/-- `has_busy_teller`: is some timer of index `< num_tellers` positive. -/
def has_busy_teller (teller_busy : List Int) (num_tellers : Int) : Bool :=
  has_busy_teller_loop teller_busy num_tellers.toNat 0

/-- The loop `for t < num_tellers: if (teller_busy[t] > 0) teller_busy[t]--`
(it occurs twice in `run_simulation`, with the same text); `n` indices remain,
starting at `t`. -/
def update_tellers_loop : Nat → Nat → List Int → List Int
  | 0, _, teller_busy => teller_busy
  | n + 1, t, teller_busy =>
    update_tellers_loop n (t + 1)
      (if teller_busy.getD t 0 > 0 then teller_busy.set t (teller_busy.getD t 0 - 1)
       else teller_busy)

/-- Decrement every positive timer of index `< num_tellers`. -/
def update_tellers (num_tellers : Int) (teller_busy : List Int) : List Int :=
  update_tellers_loop num_tellers.toNat 0 teller_busy

/-! ## Random variates -/

section Sampling

variable {F : Type} [LinearOrderedField F]

/-- The `do ... while (p > L)` loop of `generate_arrivals`; returns `k` and the
number of draws consumed, or `none` when the fuel runs out. -/
def generate_arrivals_loop (RAND_MAX : Nat) (rand : Nat → Nat) (L : F) :
    Nat → F → Int → Nat → Option (Int × Nat)
  | 0, _, _, _ => none
  | fuel + 1, p, k, rng =>
    let k1 := k + 1
    let p1 := p * ((rand rng : F) / (RAND_MAX : F))
    if p1 > L then generate_arrivals_loop RAND_MAX rand L fuel p1 k1 (rng + 1)
    else some (k1, rng + 1)

/-- `generate_arrivals`: Knuth's multiplicative Poisson sampler; returns
`k - 1` and the new draw counter.  This is the function as the run uses it,
over an ordered field; `generate_arrivals_double` is the same code on doubles. -/
def generate_arrivals (exp : F → F) (RAND_MAX : Nat) (rand : Nat → Nat) (fuel : Nat)
    (lambda : F) (rng : Nat) : Option (Int × Nat) :=
  let L := exp (-lambda)
  match generate_arrivals_loop RAND_MAX rand L fuel 1 0 rng with
  | none => none
  | some (k, rng1) => some (k - 1, rng1)

end Sampling

/-! ## Simulation state -/

/-- The local variables of `run_simulation`, plus the draw counter. -/
structure SimState where
  customer_queue : Queue
  wait_times : List Int
  wait_times_count : Int
  wait_times_capacity : Int
  teller_busy : List Int
  total_customers_arrived : Int
  total_customers_served : Int
  max_queue_size : Int
  extra_time : Int
  rng : Nat
deriving DecidableEq

/-- The state of `run_simulation` when the main loop is entered. -/
def init_state (num_tellers : Int) : SimState :=
  { customer_queue := create_queue
    wait_times := []
    wait_times_count := 0
    wait_times_capacity := 100
    teller_busy := List.replicate num_tellers.toNat 0
    total_customers_arrived := 0
    total_customers_served := 0
    max_queue_size := 0
    extra_time := 0
    rng := 0 }

/-- The inner loop of step 1: enqueue `n` customers that arrive at `minute`. -/
def arrivals_loop (minute : Int) : Nat → SimState → SimState
  | 0, st => st
  | n + 1, st =>
    arrivals_loop minute n
      { st with
        customer_queue :=
          enqueue st.customer_queue
            { arrival_time := minute, service_start_time := -1, wait_time := 0 }
        total_customers_arrived := st.total_customers_arrived + 1 }

/-- Track the maximum queue size. -/
def track_max (st : SimState) : SimState :=
  if st.customer_queue.size > st.max_queue_size then
    { st with max_queue_size := st.customer_queue.size }
  else st

/-- Store a wait time in the dynamic array, doubling the capacity when full. -/
def record_wait (st : SimState) (wait_time : Int) : SimState :=
  { st with
    wait_times_capacity :=
      if st.wait_times_count >= st.wait_times_capacity then st.wait_times_capacity * 2
      else st.wait_times_capacity
    wait_times := st.wait_times ++ [wait_time]
    wait_times_count := st.wait_times_count + 1 }

/-- Body of the assignment loop of the main loop (step 3) for teller `t`. -/
def serve_teller (rand : Nat → Nat) (minute : Int) (t : Nat) (st : SimState) : SimState :=
  if st.teller_busy.getD t 0 = 0 ∧ is_empty st.customer_queue = false then
    let customer0 := (dequeue st.customer_queue).1
    let customer : Customer :=
      { customer0 with
        service_start_time := minute
        wait_time := minute - customer0.arrival_time }
    let st1 := record_wait { st with customer_queue := (dequeue st.customer_queue).2 }
      customer.wait_time
    let service_time : Int := 2 + ((rand st1.rng : Int) % 3)
    { st1 with
      teller_busy := st1.teller_busy.set t service_time
      rng := st1.rng + 1
      total_customers_served := st1.total_customers_served + 1 }
  else st

/-- The assignment loop of the main loop: `n` tellers remain, starting at `t`. -/
def serve_loop (rand : Nat → Nat) (minute : Int) : Nat → Nat → SimState → SimState
  | 0, _, st => st
  | n + 1, t, st => serve_loop rand minute n (t + 1) (serve_teller rand minute t st)

/-- Body of the assignment loop of the drain loop for teller `t`. -/
def drain_serve_teller (rand : Nat → Nat) (t : Nat) (st : SimState) : SimState :=
  if st.teller_busy.getD t 0 = 0 ∧ is_empty st.customer_queue = false then
    let customer0 := (dequeue st.customer_queue).1
    let customer : Customer :=
      { customer0 with
        service_start_time := 480 + st.extra_time
        wait_time := (480 + st.extra_time) - customer0.arrival_time }
    let st1 := record_wait { st with customer_queue := (dequeue st.customer_queue).2 }
      customer.wait_time
    let service_time : Int := 2 + ((rand st1.rng : Int) % 3)
    { st1 with
      teller_busy := st1.teller_busy.set t service_time
      rng := st1.rng + 1
      total_customers_served := st1.total_customers_served + 1 }
  else st

/-- The assignment loop of the drain loop: `n` tellers remain, starting at `t`. -/
def drain_serve_loop (rand : Nat → Nat) : Nat → Nat → SimState → SimState
  | 0, _, st => st
  | n + 1, t, st => drain_serve_loop rand n (t + 1) (drain_serve_teller rand t st)

section Simulation

variable {F : Type} [LinearOrderedField F]

/-- Step 1 of a minute of the main loop: sample the arrivals and enqueue them. -/
def arrive (exp : F → F) (RAND_MAX : Nat) (rand : Nat → Nat) (fuel : Nat) (lambda : F)
    (minute : Int) (st : SimState) : Option SimState :=
  match generate_arrivals exp RAND_MAX rand fuel lambda st.rng with
  | none => none
  | some (arrivals, rng1) => some (arrivals_loop minute arrivals.toNat { st with rng := rng1 })

/-- The rest of a minute of the main loop, after the arrivals are enqueued:
track the maximum queue size, update the tellers, assign customers. -/
def serve_minute (rand : Nat → Nat) (num_tellers : Int) (minute : Int) (st : SimState) :
    SimState :=
  let st1 := track_max st
  let st2 := { st1 with teller_busy := update_tellers num_tellers st1.teller_busy }
  serve_loop rand minute num_tellers.toNat 0 st2

/-- One iteration of the main loop of `run_simulation`. -/
def horizon_tick (exp : F → F) (RAND_MAX : Nat) (rand : Nat → Nat) (fuel : Nat) (lambda : F)
    (num_tellers : Int) (minute : Int) (st : SimState) : Option SimState :=
  match arrive exp RAND_MAX rand fuel lambda minute st with
  | none => none
  | some st1 => some (serve_minute rand num_tellers minute st1)

/-- The main loop `for (minute = ...; minute < ...; minute++)` with `n`
iterations remaining. -/
def main_loop (exp : F → F) (RAND_MAX : Nat) (rand : Nat → Nat) (fuel : Nat) (lambda : F)
    (num_tellers : Int) : Nat → Int → SimState → Option SimState
  | 0, _, st => some st
  | n + 1, minute, st =>
    match horizon_tick exp RAND_MAX rand fuel lambda num_tellers minute st with
    | none => none
    | some st1 => main_loop exp RAND_MAX rand fuel lambda num_tellers n (minute + 1) st1

end Simulation

/-- The condition of the drain loop. -/
def drain_cond (num_tellers : Int) (st : SimState) : Bool :=
  !is_empty st.customer_queue || has_busy_teller st.teller_busy num_tellers

/-- One iteration of the drain loop. -/
def drain_tick (rand : Nat → Nat) (num_tellers : Int) (st : SimState) : SimState :=
  let st1 := { st with extra_time := st.extra_time + 1 }
  let st2 := { st1 with teller_busy := update_tellers num_tellers st1.teller_busy }
  drain_serve_loop rand num_tellers.toNat 0 st2

/-- The drain loop `while (!is_empty(q) || has_busy_teller(...))`; `none` when
the fuel runs out before the condition becomes false. -/
def drain_loop (rand : Nat → Nat) (num_tellers : Int) : Nat → SimState → Option SimState
  | 0, st => if drain_cond num_tellers st then none else some st
  | fuel + 1, st =>
    if drain_cond num_tellers st then
      drain_loop rand num_tellers fuel (drain_tick rand num_tellers st)
    else some st

/-- The state after `j` iterations of the drain loop; `none` when the loop has
left before. -/
def drain_iter (rand : Nat → Nat) (num_tellers : Int) : Nat → SimState → Option SimState
  | 0, st => some st
  | j + 1, st =>
    if drain_cond num_tellers st then
      drain_iter rand num_tellers j (drain_tick rand num_tellers st)
    else none

section Run

variable {F : Type} [LinearOrderedField F]

/-- The state when the main loop of `run_simulation` has finished and
`extra_time` is declared. -/
def horizon_end (exp : F → F) (RAND_MAX : Nat) (rand : Nat → Nat) (fuel : Nat) (lambda : F)
    (num_tellers : Int) : Option SimState :=
  match main_loop exp RAND_MAX rand fuel lambda num_tellers 480 0 (init_state num_tellers) with
  | none => none
  | some st => some { st with extra_time := 0 }

/-- `run_simulation` up to the point where the results are printed: the state
after the main loop and the drain loop. -/
def run_simulation (exp : F → F) (RAND_MAX : Nat) (rand : Nat → Nat) (fuel : Nat) (lambda : F)
    (num_tellers : Int) : Option SimState :=
  match horizon_end exp RAND_MAX rand fuel lambda num_tellers with
  | none => none
  | some st => drain_loop rand num_tellers fuel st

end Run

/-! ## Statistics -/

/-- The value an `int` operation leaves when its exact result is `x`: `x`
itself when it fits in 32 bits, and otherwise `x` reduced modulo `2^32` into
`[-2^31, 2^31)` (the wrap-around of two-complement hardware; C leaves signed
overflow undefined). -/
def wrap_int (x : Int) : Int := (x + 2147483648) % 4294967296 - 2147483648

/-- `compare_ints`: the comparison function handed to `qsort`, the `int`
difference `*a - *b`. -/
def compare_ints (a b : Int) : Int := wrap_int (a - b)

/-- The subtraction of `compare_ints` does not overflow on any two elements of
the array. -/
def NoOverflow (l : List Int) : Prop :=
  ∀ x ∈ l, ∀ y ∈ l, -2147483648 ≤ x - y ∧ x - y ≤ 2147483647

instance (l : List Int) : Decidable (NoOverflow l) := by
  unfold NoOverflow
  infer_instance

/-- The contract of the C library routine `qsort` for the comparison
`compare_ints`, on the arrays on which `compare_ints` does not overflow (there
it is a consistent ordering, which `qsort` requires): the result is a
rearrangement of the array in which `compare_ints x y <= 0` for every `x`
placed before `y`. -/
def QsortSpec (qsort : List Int → (Int → Int → Int) → List Int) : Prop :=
  ∀ l : List Int, NoOverflow l → (qsort l compare_ints).Perm l ∧
    (qsort l compare_ints).Pairwise (fun a b => compare_ints a b ≤ 0)

/-- An executable `qsort`: insertion sort by the sign of the comparison. -/
def demo_qsort (l : List Int) (cmp : Int → Int → Int) : List Int :=
  l.insertionSort (fun a b => cmp a b ≤ 0)

/-- The loop `for (i = 1; i < count; i++)` of `calculate_mode`; `n` indices
remain, starting at `i`; the state is `(mode, max_frequency, current_frequency)`. -/
def mode_loop (sorted : List Int) : Nat → Nat → Int → Int → Int → Int × Int × Int
  | 0, _, mode, max_frequency, current_frequency => (mode, max_frequency, current_frequency)
  | n + 1, i, mode, max_frequency, current_frequency =>
    if sorted.getD i 0 = sorted.getD (i - 1) 0 then
      mode_loop sorted n (i + 1) mode max_frequency (current_frequency + 1)
    else if current_frequency > max_frequency then
      mode_loop sorted n (i + 1) (sorted.getD (i - 1) 0) current_frequency 1
    else
      mode_loop sorted n (i + 1) mode max_frequency 1

/-- `calculate_mode`: copy the first `count` elements, sort them, scan the
runs of equal values, then check the last run. -/
def calculate_mode (qsort : List Int → (Int → Int → Int) → List Int) (data : List Int)
    (count : Int) : Int :=
  let sorted := qsort (data.take count.toNat) compare_ints
  let out := mode_loop sorted (count - 1).toNat 1 (sorted.getD 0 0) 1 1
  if out.2.2 > out.2.1 then sorted.getD (count - 1).toNat 0 else out.1

/-- The invariant of the loop of `calculate_mode` after the sorted prefix `p`,
whose last element is `prev`, has been scanned. -/
def ModeInv (p : List Int) (prev mode max_frequency current_frequency : Int) : Prop :=
  current_frequency = p.count prev ∧ prev ∈ p ∧ mode ∈ p ∧ (∀ v ∈ p, v ≤ prev) ∧
    (∀ v ∈ p, v ≠ prev →
      (p.count v : Int) ≤ max_frequency ∧ ((p.count v : Int) = max_frequency → mode ≤ v)) ∧
    ((mode ≠ prev ∧ (p.count mode : Int) = max_frequency) ∨ (mode = prev ∧ max_frequency = 1))

section Doubles

variable {F : Type} [Field F]

/-- `calculate_median`: copy the first `count` elements, sort them, and take
the middle element, or the mean of the two middle elements for an even count
(their sum is an `int` sum). -/
def calculate_median (qsort : List Int → (Int → Int → Int) → List Int) (data : List Int)
    (count : Int) : F :=
  let sorted := qsort (data.take count.toNat) compare_ints
  if count % 2 = 0 then
    ((wrap_int (sorted.getD (count / 2 - 1).toNat 0 + sorted.getD (count / 2).toNat 0) : Int) : F)
      / 2
  else
    ((sorted.getD (count / 2).toNat 0 : Int) : F)

/-- The loop of `calculate_std_dev`; `n` indices remain, starting at `i`. -/
def sum_squared_diff_loop (data : List Int) (mean : F) : Nat → Nat → F → F
  | 0, _, sum_squared_diff => sum_squared_diff
  | n + 1, i, sum_squared_diff =>
    let diff : F := ((data.getD i 0 : Int) : F) - mean
    sum_squared_diff_loop data mean n (i + 1) (sum_squared_diff + diff * diff)

/-- `calculate_std_dev`: the square root of the sum of squared differences
from `mean` divided by `count`.  This is the function as the report uses it,
over a field; `calculate_std_dev_double` is the same code on doubles. -/
def calculate_std_dev (sqrt : F → F) (data : List Int) (count : Int) (mean : F) : F :=
  let sum_squared_diff := sum_squared_diff_loop data mean count.toNat 0 0
  let variance := sum_squared_diff / (count : F)
  sqrt variance

end Doubles

section Main

variable {F : Type} [LinearOrderedField F]

/-- What `main` hands back: its exit code, and the state reached by
`run_simulation` when `main` called it. -/
structure MainResult where
  exit_code : Int
  simulation : Option SimState
deriving DecidableEq

/-- `main`: read `lambda`, reject `lambda <= 0` with exit code 1, otherwise run
the simulation with one teller and return 0 (`none` when the simulation does
not finish within the fuel). -/
def main (exp : F → F) (RAND_MAX : Nat) (rand : Nat → Nat) (fuel : Nat) (lambda : F) :
    Option MainResult :=
  let num_tellers : Int := 1
  if lambda ≤ 0 then some { exit_code := 1, simulation := none }
  else
    match run_simulation exp RAND_MAX rand fuel lambda num_tellers with
    | none => none
    | some st => some { exit_code := 0, simulation := some st }

end Main

/-! ## Representation of the linked list -/

/-- The heap cells from pointer `p` up to pointer `e` hold the given addresses
and customers, each cell linked to the next. -/
def lseg (heap : List (Option QueueNode)) :
    Option Nat → List (Nat × Customer) → Option Nat → Prop
  | p, [], e => p = e
  | p, (a, c) :: rest, e =>
    p = some a ∧ ∃ nxt, heap.getD a none = some ⟨c, nxt⟩ ∧ lseg heap nxt rest e

/-- The queue is a well-formed singly linked list whose cells, from the front,
are at the addresses and hold the customers of `l`. -/
def Represents (q : Queue) (l : List (Nat × Customer)) : Prop :=
  lseg q.heap q.front l none ∧ (l.map Prod.fst).Nodup ∧
    q.rear = (l.getLast?).map Prod.fst ∧ q.size = l.length

/-- The queue is well formed and holds the customers `cs`, oldest first. -/
def Holds (q : Queue) (cs : List Customer) : Prop :=
  ∃ l, Represents q l ∧ l.map Prod.snd = cs

/-- The invariant of the simulation state at time `now`: the queue is a
well-formed list of customers that arrived no later than `now`, the counters
agree with the queue and with the wait-time array, and no timer is negative. -/
structure Inv (num_tellers : Int) (now : Int) (st : SimState) : Prop where
  queue : ∃ cs, Holds st.customer_queue cs ∧ (∀ c ∈ cs, c.arrival_time ≤ now) ∧
    st.total_customers_arrived = st.total_customers_served + cs.length
  count : st.wait_times_count = st.total_customers_served
  length : (st.wait_times.length : Int) = st.wait_times_count
  waits : ∀ w ∈ st.wait_times, 0 ≤ w
  tellers : ∀ b ∈ st.teller_busy, 0 ≤ b
  tlen : st.teller_busy.length = num_tellers.toNat

/-- Decrement of one timer, as done by the update loop. -/
def dec_timer (b : Int) : Int := if b > 0 then b - 1 else b

/-- The termination measure of the drain loop. -/
def drain_measure (st : SimState) : Int :=
  5 * st.customer_queue.size + st.teller_busy.sum

section Boundaries

variable {F : Type} [LinearOrderedField F]

/-- The state after the first `k` iterations of the main loop. -/
def horizon_boundary (exp : F → F) (RAND_MAX : Nat) (rand : Nat → Nat) (fuel : Nat)
    (lambda : F) (num_tellers : Int) (k : Nat) : Option SimState :=
  main_loop exp RAND_MAX rand fuel lambda num_tellers k 0 (init_state num_tellers)

/-- The state of `run_simulation` at the `k`-th tick boundary: after `k`
iterations of the main loop for `k < 480`, and after the whole main loop and
`k - 480` iterations of the drain loop otherwise (`none` when the run does not
get that far). -/
def tick_boundary (exp : F → F) (RAND_MAX : Nat) (rand : Nat → Nat) (fuel : Nat)
    (lambda : F) (num_tellers : Int) (k : Nat) : Option SimState :=
  if k < 480 then horizon_boundary exp RAND_MAX rand fuel lambda num_tellers k
  else
    match horizon_end exp RAND_MAX rand fuel lambda num_tellers with
    | none => none
    | some st => drain_iter rand num_tellers (k - 480) st

end Boundaries

section Peak

variable {F : Type} [LinearOrderedField F]

/-- The queue size of minute `m` of the main loop, measured right after the
arrivals of that minute are enqueued and before any customer is dequeued. -/
def peak_queue_size (exp : F → F) (RAND_MAX : Nat) (rand : Nat → Nat) (fuel : Nat)
    (lambda : F) (num_tellers : Int) (m : Nat) : Option Int :=
  match horizon_boundary exp RAND_MAX rand fuel lambda num_tellers m with
  | none => none
  | some st =>
    match arrive exp RAND_MAX rand fuel lambda (m : Int) st with
    | none => none
    | some st1 => some st1.customer_queue.size

end Peak

/-! ## A concrete run

One teller, `exp (-lambda)` taken as `1/2`, and a draw stream under which three
customers arrive in minute 479 and nobody arrives before. -/

/-- A stand-in for `exp` on the rationals. -/
def demo_exp : ℚ → ℚ := fun _ => 1 / 2

/-- The draw stream of the concrete run. -/
def demo_rand : Nat → Nat := fun i => if 479 ≤ i ∧ i < 482 then 32767 else i % 3

/-- The customer that arrives in minute 479. -/
def demo_customer : Customer :=
  { arrival_time := 479, service_start_time := -1, wait_time := 0 }

/-- The state of the concrete run when the main loop has finished. -/
def demo_horizon_end : SimState :=
  { customer_queue :=
      { heap := [none, some ⟨demo_customer, some 2⟩, some ⟨demo_customer, none⟩]
        front := some 1, rear := some 2, size := 2 }
    wait_times := [0]
    wait_times_count := 1
    wait_times_capacity := 100
    teller_busy := [2]
    total_customers_arrived := 3
    total_customers_served := 1
    max_queue_size := 3
    extra_time := 0
    rng := 484 }

/-- The state of the concrete run after three iterations of the drain loop. -/
def demo_drain_3 : SimState :=
  { customer_queue :=
      { heap := [none, none, some ⟨demo_customer, none⟩]
        front := some 2, rear := some 2, size := 1 }
    wait_times := [0, 3]
    wait_times_count := 2
    wait_times_capacity := 100
    teller_busy := [2]
    total_customers_arrived := 3
    total_customers_served := 2
    max_queue_size := 3
    extra_time := 3
    rng := 485 }

/-- The final state of the concrete run. -/
def demo_final : SimState :=
  { customer_queue := { heap := [none, none, none], front := none, rear := none, size := 0 }
    wait_times := [0, 3, 6]
    wait_times_count := 3
    wait_times_capacity := 100
    teller_busy := [0]
    total_customers_arrived := 3
    total_customers_served := 3
    max_queue_size := 3
    extra_time := 9
    rng := 486 }

/-! ## A run without tellers -/

/-- A draw stream under which two customers arrive in minute 0. -/
def demo_rand_early : Nat → Nat := fun i => if i < 2 then 32767 else i % 3

/-- The customer that arrives in minute 0. -/
def demo_customer_0 : Customer :=
  { arrival_time := 0, service_start_time := -1, wait_time := 0 }

/-- The state after the first minute of the main loop under `demo_rand_early`
when `num_tellers` is 0. -/
def demo_no_teller_tick : SimState :=
  { customer_queue :=
      { heap := [some ⟨demo_customer_0, some 1⟩, some ⟨demo_customer_0, none⟩]
        front := some 0, rear := some 1, size := 2 }
    wait_times := []
    wait_times_count := 0
    wait_times_capacity := 100
    teller_busy := []
    total_customers_arrived := 2
    total_customers_served := 0
    max_queue_size := 2
    extra_time := 0
    rng := 3 }

/-! ## The queue as a FIFO list -/

/-- An operation applied to a queue: `enqueue` of a customer, or `dequeue`. -/
inductive QueueOp where
  | enq (customer : Customer)
  | deq
deriving DecidableEq

/-- Apply one operation to the linked-list queue. -/
def apply_op (q : Queue) : QueueOp → Queue
  | QueueOp.enq customer => enqueue q customer
  | QueueOp.deq => (dequeue q).2

/-- Apply a sequence of operations to the linked-list queue, first to last. -/
def apply_ops (q : Queue) (ops : List QueueOp) : Queue :=
  ops.foldl apply_op q

/-- The FIFO list of the data model: `enqueue` appends at the tail, `dequeue`
removes the head (and does nothing to an empty list). -/
def fifo_op (l : List Customer) : QueueOp → List Customer
  | QueueOp.enq customer => l ++ [customer]
  | QueueOp.deq => l.tail

/-- Apply a sequence of operations to the FIFO list, first to last. -/
def fifo_ops (l : List Customer) (ops : List QueueOp) : List Customer :=
  ops.foldl fifo_op l

/-- Follow the `next` pointers from `p` for at most `n` nodes and collect the
customers. -/
def walk (heap : List (Option QueueNode)) : Nat → Option Nat → List Customer
  | 0, _ => []
  | _ + 1, none => []
  | n + 1, some a => (load heap a).customer :: walk heap n (load heap a).next

/-- The customers stored in the queue, read from the front node along the
`next` pointers. -/
def contents (q : Queue) : List Customer :=
  walk q.heap q.heap.length q.front

/-! ## The report -/

/-- The loop of `find_max`; `n` indices remain, starting at `i`. -/
def find_max_loop (data : List Int) : Nat → Nat → Int → Int
  | 0, _, max => max
  | n + 1, i, max =>
    find_max_loop data n (i + 1) (if data.getD i 0 > max then data.getD i 0 else max)

/-- `find_max`: linear scan for the largest element. -/
def find_max (data : List Int) (count : Int) : Int :=
  find_max_loop data (count - 1).toNat 1 (data.getD 0 0)

/-- The loop of `find_min`; `n` indices remain, starting at `i`. -/
def find_min_loop (data : List Int) : Nat → Nat → Int → Int
  | 0, _, min => min
  | n + 1, i, min =>
    find_min_loop data n (i + 1) (if data.getD i 0 < min then data.getD i 0 else min)

/-- `find_min`: linear scan for the smallest element. -/
def find_min (data : List Int) (count : Int) : Int :=
  find_min_loop data (count - 1).toNat 1 (data.getD 0 0)

/-- The recommendation printed by `calculate_statistics`: "Consider hiring
additional tellers" (understaffed), "Wait times are moderate" (moderate), or
"Current staffing is adequate" (adequate). -/
inductive Recommendation where
  | understaffed
  | moderate
  | adequate
deriving DecidableEq

/-- What `calculate_statistics` prints: the six statistics, the recommendation,
and whether the warning "Some customers waited over 30 minutes" is printed. -/
structure Report (F : Type) where
  mean : F
  median : F
  mode : Int
  std_dev : F
  max_wait : Int
  min_wait : Int
  recommendation : Recommendation
  extreme_wait : Bool

section Statistics

variable {F : Type} [LinearOrderedField F]

/-- The loop of `calculate_mean`; `n` indices remain, starting at `i`. -/
def calculate_mean_loop (data : List Int) : Nat → Nat → F → F
  | 0, _, sum => sum
  | n + 1, i, sum => calculate_mean_loop data n (i + 1) (sum + ((data.getD i 0 : Int) : F))

/-- `calculate_mean`: the sum of the first `count` elements divided by `count`. -/
def calculate_mean (data : List Int) (count : Int) : F :=
  calculate_mean_loop data count.toNat 0 0 / (count : F)

/-- `calculate_statistics`: compute the statistics, choose the recommendation
from the mean and the warning from the maximum wait. -/
def calculate_statistics (qsort : List Int → (Int → Int → Int) → List Int) (sqrt : F → F)
    (wait_times : List Int) (count : Int) : Report F :=
  let mean : F := calculate_mean wait_times count
  let median : F := calculate_median qsort wait_times count
  let mode := calculate_mode qsort wait_times count
  let std_dev := calculate_std_dev sqrt wait_times count mean
  let max_wait := find_max wait_times count
  let min_wait := find_min wait_times count
  { mean := mean
    median := median
    mode := mode
    std_dev := std_dev
    max_wait := max_wait
    min_wait := min_wait
    recommendation :=
      if mean > 10 then Recommendation.understaffed
      else if mean > 5 then Recommendation.moderate
      else Recommendation.adequate
    extreme_wait := decide (max_wait > 30) }

end Statistics

/-- A state in which teller 0 is idle and one customer waits. -/
def demo_waiting : SimState :=
  { init_state 1 with customer_queue := enqueue create_queue demo_customer_0 }

/-! ## Assignments made in a tick -/

/-- One pass through the body of an assignment loop that takes a customer: the
teller, the queue `dequeue` is called on, the local `customer` after its
service start time and wait time are set, and the service time drawn. -/
structure Assignment where
  teller : Nat
  queue_before : Queue
  customer : Customer
  service_time : Int
deriving DecidableEq

/-- The assignment made by the body of the assignment loop of the main loop for
teller `t` (none when the teller is busy or the queue is empty). -/
def serve_teller_events (rand : Nat → Nat) (minute : Int) (t : Nat) (st : SimState) :
    List Assignment :=
  if st.teller_busy.getD t 0 = 0 ∧ is_empty st.customer_queue = false then
    let customer0 := (dequeue st.customer_queue).1
    [{ teller := t
       queue_before := st.customer_queue
       customer :=
        { customer0 with
          service_start_time := minute
          wait_time := minute - customer0.arrival_time }
       service_time := 2 + ((rand st.rng : Int) % 3) }]
  else []

/-- The assignments made by the assignment loop of the main loop, in order. -/
def serve_loop_events (rand : Nat → Nat) (minute : Int) :
    Nat → Nat → SimState → List Assignment
  | 0, _, _ => []
  | n + 1, t, st =>
    serve_teller_events rand minute t st ++
      serve_loop_events rand minute n (t + 1) (serve_teller rand minute t st)

/-- The assignment made by the body of the assignment loop of the drain loop
for teller `t`. -/
def drain_serve_teller_events (rand : Nat → Nat) (t : Nat) (st : SimState) :
    List Assignment :=
  if st.teller_busy.getD t 0 = 0 ∧ is_empty st.customer_queue = false then
    let customer0 := (dequeue st.customer_queue).1
    [{ teller := t
       queue_before := st.customer_queue
       customer :=
        { customer0 with
          service_start_time := 480 + st.extra_time
          wait_time := (480 + st.extra_time) - customer0.arrival_time }
       service_time := 2 + ((rand st.rng : Int) % 3) }]
  else []

/-- The assignments made by the assignment loop of the drain loop, in order. -/
def drain_serve_loop_events (rand : Nat → Nat) : Nat → Nat → SimState → List Assignment
  | 0, _, _ => []
  | n + 1, t, st =>
    drain_serve_teller_events rand t st ++
      drain_serve_loop_events rand n (t + 1) (drain_serve_teller rand t st)

section Ticks

variable {F : Type} [LinearOrderedField F]

/-- The state in tick `k` of `run_simulation` right before its assignment
loop, after the timers are decremented: in minute `k` of the main loop for
`k < 480`, in iteration `k - 480` of the drain loop otherwise (`none` when the
run has no such tick). -/
def tick_assign_state (exp : F → F) (RAND_MAX : Nat) (rand : Nat → Nat) (fuel : Nat)
    (lambda : F) (num_tellers : Int) (k : Nat) : Option SimState :=
  if k < 480 then
    match horizon_boundary exp RAND_MAX rand fuel lambda num_tellers k with
    | none => none
    | some st =>
      match arrive exp RAND_MAX rand fuel lambda (k : Int) st with
      | none => none
      | some st1 =>
        some { track_max st1 with
               teller_busy := update_tellers num_tellers (track_max st1).teller_busy }
  else
    match tick_boundary exp RAND_MAX rand fuel lambda num_tellers k with
    | none => none
    | some st =>
      if drain_cond num_tellers st then
        some { st with
               extra_time := st.extra_time + 1
               teller_busy := update_tellers num_tellers st.teller_busy }
      else none

/-- The state at the end of the assignment loop of tick `k`. -/
def tick_assign_end (exp : F → F) (RAND_MAX : Nat) (rand : Nat → Nat) (fuel : Nat)
    (lambda : F) (num_tellers : Int) (k : Nat) : Option SimState :=
  match tick_assign_state exp RAND_MAX rand fuel lambda num_tellers k with
  | none => none
  | some st2 =>
    if k < 480 then some (serve_loop rand (k : Int) num_tellers.toNat 0 st2)
    else some (drain_serve_loop rand num_tellers.toNat 0 st2)

/-- The assignments made in tick `k` of `run_simulation`, in order. -/
def tick_events (exp : F → F) (RAND_MAX : Nat) (rand : Nat → Nat) (fuel : Nat)
    (lambda : F) (num_tellers : Int) (k : Nat) : Option (List Assignment) :=
  match tick_assign_state exp RAND_MAX rand fuel lambda num_tellers k with
  | none => none
  | some st2 =>
    if k < 480 then some (serve_loop_events rand (k : Int) num_tellers.toNat 0 st2)
    else some (drain_serve_loop_events rand num_tellers.toNat 0 st2)

end Ticks

/-- The loop of `free_queue`: dequeue until the queue is empty; returns the
emptied queue, or `none` when the fuel runs out. -/
def free_queue_loop : Nat → Queue → Option Queue
  | 0, q => if is_empty q = false then none else some q
  | fuel + 1, q => if is_empty q = false then free_queue_loop fuel (dequeue q).2 else some q

/-- The queues on which the loop of `free_queue` calls `dequeue`, in order. -/
def free_queue_calls : Nat → Queue → List Queue
  | 0, _ => []
  | fuel + 1, q =>
    if is_empty q = false then q :: free_queue_calls fuel (dequeue q).2 else []

/-- Every customer in the queue has a non-negative arrival time. -/
def QueueNonneg (st : SimState) : Prop :=
  ∃ cs, Holds st.customer_queue cs ∧ ∀ c ∈ cs, 0 ≤ c.arrival_time

/-! ## Concrete ticks -/

/-- The queue of the two customers that arrive in minute 0 under
`demo_rand_early`. -/
def demo_queue_2 : Queue :=
  { heap := [some ⟨demo_customer_0, some 1⟩, some ⟨demo_customer_0, none⟩]
    front := some 0, rear := some 1, size := 2 }

/-- The state before the assignment loop of minute 0 under `demo_rand_early`
with two tellers. -/
def demo_assign_0 : SimState :=
  { customer_queue := demo_queue_2
    wait_times := []
    wait_times_count := 0
    wait_times_capacity := 100
    teller_busy := [0, 0]
    total_customers_arrived := 2
    total_customers_served := 0
    max_queue_size := 2
    extra_time := 0
    rng := 3 }

/-- The assignments of minute 0 under `demo_rand_early` with two tellers. -/
def demo_events_0 : List Assignment :=
  [{ teller := 0
     queue_before := demo_queue_2
     customer := { arrival_time := 0, service_start_time := 0, wait_time := 0 }
     service_time := 2 },
   { teller := 1
     queue_before :=
      { heap := [none, some ⟨demo_customer_0, none⟩], front := some 1, rear := some 1, size := 1 }
     customer := { arrival_time := 0, service_start_time := 0, wait_time := 0 }
     service_time := 3 }]

/-- The assignment of the second drain iteration of the concrete run. -/
def demo_event_481 : Assignment :=
  { teller := 0
    queue_before := demo_horizon_end.customer_queue
    customer := { arrival_time := 479, service_start_time := 482, wait_time := 3 }
    service_time := 3 }

/-- The state before the assignment loop of the second drain iteration of the
concrete run. -/
def demo_assign_481 : SimState :=
  { demo_horizon_end with teller_busy := [0], extra_time := 2 }

/-! ## Service capacity -/

/-- An upper bound on the number of services a teller can have started in the
first `k` minutes when its timer is `b` after them: a service sets the timer to
at least 2, so two services are at least two minutes apart. -/
def service_cap (k b : Int) : Int :=
  if k - 1 + (if b < 2 then b else 2) < 0 then 0
  else (k - 1 + (if b < 2 then b else 2)) / 2

/-- A draw stream under which 241 customers arrive in minute 0 and nobody
arrives later; every service takes 2 minutes. -/
def demo_rand_heavy : Nat → Nat := fun i => if i < 241 then 32767 else 0

/-- The state at the end of the main loop under `demo_rand_heavy` with one
teller. -/
def demo_heavy_end : SimState :=
  { customer_queue :=
      { heap := List.replicate 240 none ++ [some ⟨demo_customer_0, none⟩]
        front := some 240, rear := some 240, size := 1 }
    wait_times := (List.range 240).map (fun i => 2 * (i : Int))
    wait_times_count := 240
    wait_times_capacity := 400
    teller_busy := [1]
    total_customers_arrived := 241
    total_customers_served := 240
    max_queue_size := 241
    extra_time := 0
    rng := 961 }

/-! ## Double-precision arithmetic -/

/-- A value of the C type `double` (IEEE 754 binary64): a finite value, an
infinity, or a NaN.  The two zeros are not distinguished. -/
inductive Double where
  | finite (value : ℚ)
  | inf (negative : Bool)
  | nan
deriving DecidableEq

/-- The power `2^e` for an integer exponent. -/
def pow2 (e : Int) : ℚ :=
  if 0 ≤ e then ((2 ^ e.toNat : Nat) : ℚ) else 1 / ((2 ^ (-e).toNat : Nat) : ℚ)

/-- Halve `n` until it is below 2, at most `fuel` times, and count the halvings. -/
def bit_length_loop : Nat → Nat → Nat
  | 0, _ => 0
  | fuel + 1, n => if n < 2 then 0 else bit_length_loop fuel (n / 2) + 1

/-- The position of the leading bit of `n`: the `e` with `2^e <= n < 2^(e+1)`
(0 when `n = 0`). -/
def leading_bit (n : Nat) : Nat := bit_length_loop n n

/-- The exponent of a positive rational: the `e` with `2^e <= a < 2^(e+1)`. -/
def ilog2 (a : ℚ) : Int :=
  let e0 : Int := (leading_bit a.num.natAbs : Int) - (leading_bit a.den : Int)
  if a < pow2 e0 then e0 - 1 else e0

/-- Round a non-negative rational to the nearest integer, a tie to the even one. -/
def round_half_even (m : ℚ) : Int :=
  let f := Rat.floor m
  let r := m - (f : ℚ)
  if r < 1 / 2 then f
  else if 1 / 2 < r then f + 1
  else if f % 2 = 0 then f else f + 1

/-- Round a rational to `double` in the default rounding mode (to nearest, ties
to even): 53 significant bits, least exponent -1022 (below it the spacing stays
`2^-1074`, and values under half of that become 0), overflow to an infinity from
`2^1024` on. -/
def round_double (q : ℚ) : Double :=
  if q = 0 then Double.finite 0
  else
    let a := |q|
    let e := max (ilog2 a) (-1022)
    let ulp := pow2 (e - 52)
    let r := (round_half_even (a / ulp) : ℚ) * ulp
    if pow2 1024 ≤ r then Double.inf (decide (q < 0))
    else Double.finite (if q < 0 then -r else r)

/-- Conversion of an `int` to `double`. -/
def of_int (i : Int) : Double := round_double (i : ℚ)

/-- Negation of a `double`. -/
def fneg : Double → Double
  | Double.finite a => Double.finite (-a)
  | Double.inf n => Double.inf (!n)
  | Double.nan => Double.nan

/-- Addition of two `double`s. -/
def fadd : Double → Double → Double
  | Double.finite a, Double.finite b => round_double (a + b)
  | Double.finite _, Double.inf n => Double.inf n
  | Double.inf n, Double.finite _ => Double.inf n
  | Double.inf n1, Double.inf n2 => if n1 = n2 then Double.inf n1 else Double.nan
  | _, _ => Double.nan

/-- Subtraction of two `double`s. -/
def fsub (x y : Double) : Double := fadd x (fneg y)

/-- Multiplication of two `double`s. -/
def fmul : Double → Double → Double
  | Double.finite a, Double.finite b => round_double (a * b)
  | Double.finite a, Double.inf n =>
    if a = 0 then Double.nan else Double.inf (xor (decide (a < 0)) n)
  | Double.inf n, Double.finite a =>
    if a = 0 then Double.nan else Double.inf (xor n (decide (a < 0)))
  | Double.inf n1, Double.inf n2 => Double.inf (xor n1 n2)
  | _, _ => Double.nan

/-- Division of two `double`s; a zero divisor is `+0` (the divisors of the
program are converted from `int`). -/
def fdiv : Double → Double → Double
  | Double.finite a, Double.finite b =>
    if b = 0 then (if a = 0 then Double.nan else Double.inf (decide (a < 0)))
    else round_double (a / b)
  | Double.finite _, Double.inf _ => Double.finite 0
  | Double.inf n, Double.finite b => Double.inf (xor n (decide (b < 0)))
  | _, _ => Double.nan

/-- The comparison `x > y` of two `double`s (false when either is a NaN). -/
def fgt : Double → Double → Bool
  | Double.finite a, Double.finite b => decide (b < a)
  | Double.finite _, Double.inf n => n
  | Double.inf n, Double.finite _ => !n
  | Double.inf n1, Double.inf n2 => !n1 && n2
  | _, _ => false

/-- The bits `b - 1, ..., 0` of the integer square root of `n`, added to the
higher bits `r`: each bit is set when the square stays at or below `n`. -/
def isqrt_bits (n : Nat) : Nat → Nat → Nat
  | 0, r => r
  | b + 1, r =>
    match decide ((r + 2 ^ b) * (r + 2 ^ b) ≤ n) with
    | true => isqrt_bits n b (r + 2 ^ b)
    | false => isqrt_bits n b r

/-- The integer square root: the largest `r` with `r * r <= n`. -/
def isqrt (n : Nat) : Nat := isqrt_bits n (leading_bit n / 2 + 1) 0

/-- The correctly rounded square root of a positive rational, 53 significant
bits. -/
def sqrt_round (q : ℚ) : ℚ :=
  let e := ilog2 q / 2
  let ulp := pow2 (e - 52)
  let t := q / (ulp * ulp)
  let f := isqrt (Rat.floor t).toNat
  let h : ℚ := (f : ℚ) + 1 / 2
  let n : Nat :=
    if t < h * h then f
    else if h * h < t then f + 1
    else if f % 2 = 0 then f else f + 1
  (n : ℚ) * ulp

/-- The `sqrt` of the C library (correctly rounded, as IEEE 754 requires). -/
def fsqrt : Double → Double
  | Double.finite a =>
    if a < 0 then Double.nan
    else if a = 0 then Double.finite 0
    else Double.finite (sqrt_round a)
  | Double.inf n => if n then Double.nan else Double.inf false
  | Double.nan => Double.nan

/-- The loop of `calculate_std_dev` on doubles; `n` indices remain, starting
at `i`. -/
def sum_squared_diff_double (data : List Int) (mean : Double) : Nat → Nat → Double → Double
  | 0, _, sum_squared_diff => sum_squared_diff
  | n + 1, i, sum_squared_diff =>
    let diff := fsub (of_int (data.getD i 0)) mean
    sum_squared_diff_double data mean n (i + 1) (fadd sum_squared_diff (fmul diff diff))

/-- `calculate_std_dev` on doubles: the square root of the sum of squared
differences from `mean` divided by `count`, every operation rounded. -/
def calculate_std_dev_double (data : List Int) (count : Int) (mean : Double) : Double :=
  let sum_squared_diff := sum_squared_diff_double data mean count.toNat 0 (Double.finite 0)
  let variance := fdiv sum_squared_diff (of_int count)
  fsqrt variance

/-- The sum of the squared differences from `mean` as `calculate_std_dev`
accumulates it, element by element from the left, every operation rounded. -/
def squared_diff_sum (mean : Double) (data : List Int) : Double :=
  data.foldl (fun s x => fadd s (fmul (fsub (of_int x) mean) (fsub (of_int x) mean)))
    (Double.finite 0)

/-- No operation of the loop of `calculate_std_dev` rounds on the elements
`data`, the mean `m` and the sum `s` so far: every difference, square and sum
is a double. -/
def exact_sum (m : ℚ) : List Int → ℚ → Bool
  | [], _ => true
  | x :: xs, s =>
    decide (round_double ((x : ℚ) - m) = Double.finite ((x : ℚ) - m)) &&
      decide (round_double (((x : ℚ) - m) * ((x : ℚ) - m)) =
        Double.finite (((x : ℚ) - m) * ((x : ℚ) - m))) &&
      decide (round_double (s + ((x : ℚ) - m) * ((x : ℚ) - m)) =
        Double.finite (s + ((x : ℚ) - m) * ((x : ℚ) - m))) &&
      exact_sum m xs (s + ((x : ℚ) - m) * ((x : ℚ) - m))

/-- The body of the `do ... while (p > L)` loop of `generate_arrivals` on
doubles, iterated. -/
def generate_arrivals_double_loop (RAND_MAX : Nat) (rand : Nat → Nat) (L : Double) :
    Nat → Double → Int → Nat → Option (Int × Nat)
  | 0, _, _, _ => none
  | fuel + 1, p, k, rng =>
    let k1 := k + 1
    let p1 := fmul p (fdiv (of_int (rand rng)) (of_int RAND_MAX))
    if fgt p1 L then generate_arrivals_double_loop RAND_MAX rand L fuel p1 k1 (rng + 1)
    else some (k1, rng + 1)

/-- `generate_arrivals` on doubles (Knuth): returns `k - 1` and the new draw
counter; `exp` is the C library function. -/
def generate_arrivals_double (exp : Double → Double) (RAND_MAX : Nat) (rand : Nat → Nat)
    (fuel : Nat) (lambda : Double) (rng : Nat) : Option (Int × Nat) :=
  let L := exp (fneg lambda)
  match generate_arrivals_double_loop RAND_MAX rand L fuel (Double.finite 1) 0 rng with
  | none => none
  | some (k, rng1) => some (k - 1, rng1)

/-- The value of `p` in `generate_arrivals` after `j` draws made from position
`rng` on: each quotient `rand() / RAND_MAX` and each product is rounded. -/
def double_product (RAND_MAX : Nat) (rand : Nat → Nat) (rng : Nat) : Nat → Double
  | 0 => Double.finite 1
  | j + 1 =>
    fmul (double_product RAND_MAX rand rng j)
      (fdiv (of_int (rand (rng + j))) (of_int RAND_MAX))

/-- The C library `exp` where its result underflows: for `x <= -746` the value
`e^x` is less than half of the least positive double `2^-1074`, and `exp`
returns 0.  Only that range is used; elsewhere this stand-in returns 1. -/
def exp_underflow (x : Double) : Double :=
  match x with
  | Double.finite a => if a ≤ -746 then Double.finite 0 else Double.finite 1
  | Double.inf n => if n then Double.finite 0 else Double.inf false
  | Double.nan => Double.nan

/-- A stand-in for `exp` on doubles that returns 1/2 everywhere. -/
def demo_exp_double (_ : Double) : Double := Double.finite (1 / 2)

/-- The double nearest to `1 / 2147483647`, the draw made from `rand() = 1`. -/
def draw_of_one : ℚ := (2 ^ 31 + 1) / 2 ^ 62

/-- The double `1.0 / 64 + 0.1`. -/
def demo_mean : ℚ := 4165829655317709 / 2 ^ 55

/-! ## Queue lemmas -/

theorem getD_some_lt {heap : List (Option QueueNode)} {a : Nat} {n : QueueNode}
    (h : heap.getD a none = some n) : a < heap.length := by
  by_contra hlt
  rw [List.getD_eq_default _ _ (not_lt.mp hlt)] at h
  cases h

theorem load_of_getD {heap : List (Option QueueNode)} {a : Nat} {n : QueueNode}
    (h : heap.getD a none = some n) : load heap a = n := by
  unfold load
  rw [h]
  rfl

theorem getD_set_ne (heap : List (Option QueueNode)) {a b : Nat} (v : Option QueueNode)
    (h : a ≠ b) : (heap.set a v).getD b none = heap.getD b none := by
  simp [List.getD_eq_getElem?_getD, List.getElem?_set_ne h]

theorem getD_set_self (heap : List (Option QueueNode)) {a : Nat} (v : Option QueueNode)
    (h : a < heap.length) : (heap.set a v).getD a none = v := by
  simp [List.getD_eq_getElem?_getD, List.getElem?_set_self, h]

theorem getD_append_lt (heap : List (Option QueueNode)) (x : Option QueueNode) {a : Nat}
    (h : a < heap.length) : (heap ++ [x]).getD a none = heap.getD a none := by
  simp [List.getD_eq_getElem?_getD, List.getElem?_append_left h]

theorem getD_append_length (heap : List (Option QueueNode)) (x : Option QueueNode) :
    (heap ++ [x]).getD heap.length none = x := by
  simp [List.getD_eq_getElem?_getD]

theorem lseg_addr_lt {heap : List (Option QueueNode)} :
    ∀ {l : List (Nat × Customer)} {p e : Option Nat}, lseg heap p l e →
      ∀ a ∈ l.map Prod.fst, a < heap.length
  | [], _, _, _ => by simp
  | (b, c) :: rest, p, e, h => by
    obtain ⟨_, nxt, hb, hrest⟩ := h
    intro a ha
    simp only [List.map_cons, List.mem_cons] at ha
    rcases ha with rfl | ha
    · exact getD_some_lt hb
    · exact lseg_addr_lt hrest a ha

theorem lseg_frame {heap heap1 : List (Option QueueNode)} :
    ∀ {l : List (Nat × Customer)} {p e : Option Nat},
      (∀ a ∈ l.map Prod.fst, heap1.getD a none = heap.getD a none) →
      lseg heap p l e → lseg heap1 p l e
  | [], _, _, _, h => h
  | (b, c) :: rest, p, e, hfr, h => by
    obtain ⟨hp, nxt, hb, hrest⟩ := h
    refine ⟨hp, nxt, ?_, lseg_frame (fun a ha => hfr a ?_) hrest⟩
    · rw [hfr b (by simp), hb]
    · simp only [List.map_cons, List.mem_cons]; exact Or.inr ha

theorem lseg_append {heap : List (Option QueueNode)} :
    ∀ {l1 l2 : List (Nat × Customer)} {p m e : Option Nat},
      lseg heap p l1 m → lseg heap m l2 e → lseg heap p (l1 ++ l2) e
  | [], _, _, _, _, h1, h2 => by
    have : _ = _ := h1
    subst this
    simpa using h2
  | (b, c) :: rest, l2, p, m, e, h1, h2 => by
    obtain ⟨hp, nxt, hb, hrest⟩ := h1
    exact ⟨hp, nxt, hb, lseg_append hrest h2⟩

theorem lseg_snoc_inv {heap : List (Option QueueNode)} :
    ∀ {l : List (Nat × Customer)} {p : Option Nat} {r : Nat} {x : Customer},
      lseg heap p (l ++ [(r, x)]) none →
        lseg heap p l (some r) ∧ heap.getD r none = some ⟨x, none⟩
  | [], p, r, x, h => by
    obtain ⟨hp, nxt, hb, hrest⟩ := h
    have hn : nxt = none := hrest
    subst hn
    exact ⟨hp, hb⟩
  | (b, c) :: rest, p, r, x, h => by
    obtain ⟨hp, nxt, hb, hrest⟩ := h
    obtain ⟨h1, h2⟩ := lseg_snoc_inv hrest
    exact ⟨⟨hp, nxt, hb, h1⟩, h2⟩

theorem represents_create_queue : Represents create_queue [] := by
  simp [Represents, create_queue, lseg]

theorem represents_front {q : Queue} {l : List (Nat × Customer)} (h : Represents q l) :
    q.front = none ↔ l = [] := by
  obtain ⟨hl, _, _, _⟩ := h
  cases l with
  | nil => simpa [lseg] using hl
  | cons x rest =>
    obtain ⟨a, c⟩ := x
    obtain ⟨hp, _⟩ := hl
    simp [hp]

theorem represents_enqueue {q : Queue} {l : List (Nat × Customer)} (h : Represents q l)
    (c : Customer) : Represents (enqueue q c) (l ++ [(q.heap.length, c)]) := by
  obtain ⟨hl, hnd, hrear, hsize⟩ := h
  have hfresh : q.heap.length ∉ l.map Prod.fst := fun hm =>
    lt_irrefl _ (lseg_addr_lt hl _ hm)
  have hnd1 : ((l ++ [(q.heap.length, c)]).map Prod.fst).Nodup := by
    rw [List.map_append, List.nodup_append]
    refine ⟨hnd, by simp, ?_⟩
    intro a ha hb
    simp only [List.map_cons, List.map_nil, List.mem_singleton] at hb
    exact hfresh (hb ▸ ha)
  rcases List.eq_nil_or_concat l with hnil | ⟨init, last, hcat⟩
  · subst hnil
    have hr : q.rear = none := by simpa using hrear
    have hf : q.front = none := by simpa [lseg] using hl
    refine ⟨?_, hnd1, ?_, ?_⟩
    · simp only [enqueue, hr, List.nil_append]
      exact ⟨rfl, none, getD_append_length _ _, rfl⟩
    · simp [enqueue, hr]
    · simp [enqueue, hr, hsize]
  · obtain ⟨r, x⟩ := last
    rw [List.concat_eq_append] at hcat
    subst hcat
    have hr : q.rear = some r := by simpa using hrear
    obtain ⟨hinit, hlast⟩ := lseg_snoc_inv hl
    have hrlt : r < q.heap.length := getD_some_lt hlast
    have hrlt1 : r < (q.heap ++ [some (QueueNode.mk c none)]).length := by
      simp; omega
    have hload : load (q.heap ++ [some (QueueNode.mk c none)]) r = ⟨x, none⟩ :=
      load_of_getD (by rw [getD_append_lt _ _ hrlt]; exact hlast)
    have hrnot : r ∉ init.map Prod.fst := by
      intro hm
      rw [List.map_append, List.nodup_append] at hnd
      exact hnd.2.2 hm (by simp)
    refine ⟨?_, hnd1, ?_, ?_⟩
    · simp only [enqueue, hr, store, hload]
      rw [List.append_assoc]
      refine lseg_append (m := some r) (lseg_frame ?_ hinit) ?_
      · intro a ha
        have hne : r ≠ a := fun e => hrnot (e ▸ ha)
        rw [getD_set_ne _ _ hne, getD_append_lt _ _ (lseg_addr_lt hinit a ha)]
      · refine ⟨rfl, some q.heap.length, getD_set_self _ _ hrlt1, rfl, none, ?_, rfl⟩
        rw [getD_set_ne _ _ (Nat.ne_of_lt hrlt), getD_append_length]
    · simp [enqueue, hr]
    · simp only [enqueue, hr, hsize, List.length_append, List.length_singleton]
      push_cast
      ring

theorem represents_dequeue {q : Queue} {a : Nat} {c : Customer} {rest : List (Nat × Customer)}
    (h : Represents q ((a, c) :: rest)) :
    (dequeue q).1 = c ∧ Represents (dequeue q).2 rest := by
  obtain ⟨hl, hnd, hrear, hsize⟩ := h
  obtain ⟨hp, nxt, ha, hrest⟩ := hl
  have hload : load q.heap a = ⟨c, nxt⟩ := load_of_getD ha
  simp only [List.map_cons, List.nodup_cons] at hnd
  refine ⟨by simp [dequeue, hp, hload], ?_, hnd.2, ?_, ?_⟩
  · simp only [dequeue, hp, hload, release]
    refine lseg_frame (fun b hb => ?_) hrest
    exact getD_set_ne _ _ (fun e => hnd.1 (e ▸ hb))
  · simp only [dequeue, hp, hload]
    cases rest with
    | nil =>
      have hn : nxt = none := hrest
      simp [hn]
    | cons y ys =>
      obtain ⟨hn, _⟩ := hrest
      simp [hn, hrear]
  · simp only [dequeue, hp, hload, hsize, List.length_cons]
    push_cast
    ring

theorem holds_create_queue : Holds create_queue [] :=
  ⟨[], represents_create_queue, rfl⟩

theorem holds_enqueue {q : Queue} {cs : List Customer} (h : Holds q cs) (c : Customer) :
    Holds (enqueue q c) (cs ++ [c]) := by
  obtain ⟨l, hl, hcs⟩ := h
  exact ⟨_, represents_enqueue hl c, by simp [hcs]⟩

theorem holds_is_empty {q : Queue} {cs : List Customer} (h : Holds q cs) :
    is_empty q = true ↔ cs = [] := by
  obtain ⟨l, hl, hcs⟩ := h
  subst hcs
  simp [is_empty, represents_front hl]

theorem holds_size {q : Queue} {cs : List Customer} (h : Holds q cs) :
    q.size = cs.length := by
  obtain ⟨l, hl, hcs⟩ := h
  subst hcs
  simpa using hl.2.2.2

theorem holds_dequeue {q : Queue} {cs : List Customer} (h : Holds q cs)
    (hne : is_empty q = false) :
    ∃ c cs1, cs = c :: cs1 ∧ (dequeue q).1 = c ∧ Holds (dequeue q).2 cs1 := by
  have hcs : cs ≠ [] := fun e => by
    rw [(holds_is_empty h).mpr e] at hne
    cases hne
  obtain ⟨l, hl, hmap⟩ := h
  cases l with
  | nil => exact absurd hmap.symm hcs
  | cons x rest =>
    obtain ⟨a, c⟩ := x
    obtain ⟨h1, h2⟩ := represents_dequeue hl
    exact ⟨c, rest.map Prod.snd, hmap.symm, h1, rest, h2, rfl⟩

/-! ## Teller lemmas -/

theorem getD_append_cons (pre : List Int) (x : Int) (xs : List Int) :
    (pre ++ x :: xs).getD pre.length 0 = x := by
  induction pre with
  | nil => rfl
  | cons y ys ih => simpa using ih

theorem update_tellers_loop_append :
    ∀ (rest pre : List Int),
      update_tellers_loop rest.length pre.length (pre ++ rest) = pre ++ rest.map dec_timer
  | [], pre => by simp [update_tellers_loop]
  | x :: xs, pre => by
    have hget : (pre ++ x :: xs).getD pre.length 0 = x := getD_append_cons pre x xs
    have hset : ∀ v : Int, (pre ++ x :: xs).set pre.length v = (pre ++ [v]) ++ xs := by
      intro v
      simp [List.set_append]
    have ih := update_tellers_loop_append xs (pre ++ [dec_timer x])
    simp only [List.length_append, List.length_singleton] at ih
    simp only [List.length_cons, update_tellers_loop, hget, List.map_cons]
    by_cases hx : x > 0
    · rw [if_pos hx, hset]
      have : dec_timer x = x - 1 := by simp [dec_timer, hx]
      rw [this] at ih
      rw [ih, this]
      simp
    · rw [if_neg hx]
      have : dec_timer x = x := by simp [dec_timer, hx]
      rw [this] at ih
      have hsame : pre ++ x :: xs = (pre ++ [x]) ++ xs := by simp
      rw [hsame, ih, this]
      simp

theorem update_tellers_eq_map {num_tellers : Int} {tb : List Int}
    (h : tb.length = num_tellers.toNat) : update_tellers num_tellers tb = tb.map dec_timer := by
  have := update_tellers_loop_append tb []
  simpa [update_tellers, h] using this

theorem has_busy_teller_loop_append (tb : List Int) :
    ∀ (rest pre : List Int), tb = pre ++ rest →
      has_busy_teller_loop tb rest.length pre.length = rest.any (fun b => decide (b > 0))
  | [], pre, _ => by simp [has_busy_teller_loop]
  | x :: xs, pre, h => by
    have hget : tb.getD pre.length 0 = x := by
      rw [h]
      exact getD_append_cons pre x xs
    have ih := has_busy_teller_loop_append tb xs (pre ++ [x]) (by simp [h])
    simp only [List.length_append, List.length_singleton] at ih
    simp only [List.length_cons, has_busy_teller_loop, hget, List.any_cons]
    by_cases hx : x > 0
    · simp [hx]
    · simp [hx, ih]

theorem has_busy_teller_eq_any {num_tellers : Int} {tb : List Int}
    (h : tb.length = num_tellers.toNat) :
    has_busy_teller tb num_tellers = tb.any (fun b => decide (b > 0)) := by
  have := has_busy_teller_loop_append tb tb [] rfl
  simpa [has_busy_teller, h] using this

theorem dec_timer_nonneg {b : Int} (h : 0 ≤ b) : 0 ≤ dec_timer b := by
  unfold dec_timer
  split <;> omega

theorem dec_timer_le (b : Int) : dec_timer b ≤ b := by
  unfold dec_timer
  split <;> omega

theorem sum_map_dec_timer_le : ∀ tb : List Int, (tb.map dec_timer).sum ≤ tb.sum
  | [] => by simp
  | x :: xs => by
    have := sum_map_dec_timer_le xs
    have := dec_timer_le x
    simp only [List.map_cons, List.sum_cons]
    omega

theorem sum_map_dec_timer_lt :
    ∀ tb : List Int, tb.any (fun b => decide (b > 0)) = true →
      (tb.map dec_timer).sum < tb.sum
  | [], h => by simp at h
  | x :: xs, h => by
    simp only [List.any_cons, Bool.or_eq_true, decide_eq_true_eq] at h
    simp only [List.map_cons, List.sum_cons]
    have hle := sum_map_dec_timer_le xs
    rcases h with hx | hxs
    · have : dec_timer x = x - 1 := by simp [dec_timer, hx]
      omega
    · have := sum_map_dec_timer_lt xs hxs
      have := dec_timer_le x
      omega

theorem sum_set_le : ∀ (l : List Int) (t : Nat) (v : Int), l.getD t 0 = 0 → 0 ≤ v →
    (l.set t v).sum ≤ l.sum + v
  | [], t, v, _, hv => by simpa using hv
  | x :: xs, 0, v, h, _ => by
    simp only [List.getD_cons_zero] at h
    simp [List.set, h]
    omega
  | x :: xs, t + 1, v, h, hv => by
    simp only [List.getD_cons_succ] at h
    have := sum_set_le xs t v h hv
    simp only [List.set_cons_succ, List.sum_cons]
    omega

theorem sum_nonneg_of_forall : ∀ l : List Int, (∀ b ∈ l, 0 ≤ b) → 0 ≤ l.sum
  | [], _ => by simp
  | x :: xs, h => by
    have h1 := h x (by simp)
    have h2 := sum_nonneg_of_forall xs (fun b hb => h b (by simp [hb]))
    simp only [List.sum_cons]
    omega

/-! ## Preservation of the invariant -/

theorem Inv.mono {n now now1 : Int} {st : SimState} (h : Inv n now st) (hle : now ≤ now1) :
    Inv n now1 st := by
  obtain ⟨cs, h1, h2, h3⟩ := h.queue
  exact ⟨⟨cs, h1, fun c hc => le_trans (h2 c hc) hle, h3⟩, h.count, h.length, h.waits,
    h.tellers, h.tlen⟩

theorem inv_init (n now : Int) : Inv n now (init_state n) := by
  refine ⟨⟨[], holds_create_queue, by simp, by simp [init_state]⟩, rfl, rfl, ?_, ?_, ?_⟩
  · simp [init_state]
  · intro b hb
    simp only [init_state] at hb
    rw [List.eq_of_mem_replicate hb]
  · simp [init_state]

theorem inv_arrivals_loop {n minute : Int} :
    ∀ (k : Nat) {st : SimState}, Inv n minute st → Inv n minute (arrivals_loop minute k st)
  | 0, _, h => h
  | k + 1, st, h => by
    obtain ⟨cs, h1, h2, h3⟩ := h.queue
    refine inv_arrivals_loop k ⟨⟨cs ++ [⟨minute, -1, 0⟩], holds_enqueue h1 _, ?_, ?_⟩,
      h.count, h.length, h.waits, h.tellers, h.tlen⟩
    · intro c hc
      rcases List.mem_append.mp hc with hc | hc
      · exact h2 c hc
      · rw [List.mem_singleton.mp hc]
    · simp only [List.length_append, List.length_singleton, h3]
      push_cast
      ring

theorem inv_track_max {n now : Int} {st : SimState} (h : Inv n now st) :
    Inv n now (track_max st) := by
  unfold track_max
  split
  · exact ⟨h.queue, h.count, h.length, h.waits, h.tellers, h.tlen⟩
  · exact h

theorem inv_update_tellers {n now : Int} {st : SimState} (h : Inv n now st) :
    Inv n now { st with teller_busy := update_tellers n st.teller_busy } := by
  refine ⟨h.queue, h.count, h.length, h.waits, ?_, ?_⟩
  · intro b hb
    simp only [update_tellers_eq_map h.tlen, List.mem_map] at hb
    obtain ⟨a, ha, rfl⟩ := hb
    exact dec_timer_nonneg (h.tellers a ha)
  · simp only [update_tellers_eq_map h.tlen, List.length_map]
    exact h.tlen

theorem service_time_bounds (r : Nat) : 2 ≤ 2 + ((r : Int) % 3) ∧ 2 + ((r : Int) % 3) ≤ 4 := by
  omega

theorem inv_serve_teller {n now : Int} (rand : Nat → Nat) (t : Nat) {st : SimState}
    (h : Inv n now st) : Inv n now (serve_teller rand now t st) := by
  unfold serve_teller
  split
  · rename_i hc
    obtain ⟨cs, h1, h2, h3⟩ := h.queue
    obtain ⟨c, cs1, hcs, hd1, hd2⟩ := holds_dequeue h1 hc.2
    subst hcs
    refine ⟨⟨cs1, hd2, fun x hx => h2 x (List.mem_cons_of_mem _ hx), ?_⟩, ?_, ?_, ?_, ?_, ?_⟩
    · simp only [record_wait, h3, List.length_cons]
      push_cast
      ring
    · simp only [record_wait, h.count]
    · simp only [record_wait, List.length_append, List.length_singleton]
      push_cast
      rw [h.length]
    · intro w hw
      simp only [record_wait] at hw
      rcases List.mem_append.mp hw with hw | hw
      · exact h.waits w hw
      · rw [List.mem_singleton.mp hw, hd1]
        have := h2 c (List.mem_cons_self _ _)
        omega
    · intro b hb
      simp only [record_wait] at hb
      rcases List.mem_or_eq_of_mem_set hb with hb | hb
      · exact h.tellers b hb
      · rw [hb]
        have := (service_time_bounds (rand st.rng)).1
        omega
    · simp only [record_wait, List.length_set]
      exact h.tlen
  · exact h

theorem inv_serve_loop {n now : Int} (rand : Nat → Nat) :
    ∀ (k t : Nat) {st : SimState}, Inv n now st → Inv n now (serve_loop rand now k t st)
  | 0, _, _, h => h
  | k + 1, t, _, h => inv_serve_loop rand k (t + 1) (inv_serve_teller rand t h)

theorem serve_teller_extra_time (rand : Nat → Nat) (now : Int) (t : Nat) (st : SimState) :
    (serve_teller rand now t st).extra_time = st.extra_time := by
  unfold serve_teller
  split <;> rfl

theorem serve_loop_extra_time (rand : Nat → Nat) (now : Int) :
    ∀ (k t : Nat) (st : SimState), (serve_loop rand now k t st).extra_time = st.extra_time
  | 0, _, _ => rfl
  | k + 1, t, st => by
    rw [serve_loop, serve_loop_extra_time rand now k (t + 1), serve_teller_extra_time]

theorem drain_serve_teller_eq (rand : Nat → Nat) (t : Nat) (st : SimState) :
    drain_serve_teller rand t st = serve_teller rand (480 + st.extra_time) t st := rfl

theorem drain_serve_loop_eq (rand : Nat → Nat) :
    ∀ (k t : Nat) (st : SimState),
      drain_serve_loop rand k t st = serve_loop rand (480 + st.extra_time) k t st
  | 0, _, _ => rfl
  | k + 1, t, st => by
    rw [drain_serve_loop, drain_serve_loop_eq rand k (t + 1), drain_serve_teller_eq,
      serve_teller_extra_time, serve_loop]

theorem drain_tick_extra_time (rand : Nat → Nat) (n : Int) (st : SimState) :
    (drain_tick rand n st).extra_time = st.extra_time + 1 := by
  simp only [drain_tick, drain_serve_loop_eq, serve_loop_extra_time]

theorem inv_serve_minute {n minute : Int} (rand : Nat → Nat) {st : SimState}
    (h : Inv n minute st) : Inv n minute (serve_minute rand n minute st) :=
  inv_serve_loop rand _ _ (inv_update_tellers (inv_track_max h))

theorem inv_arrive {F : Type} [LinearOrderedField F] {exp : F → F} {RAND_MAX : Nat}
    {rand : Nat → Nat} {fuel : Nat} {lambda : F} {n minute : Int} {st st1 : SimState}
    (h : Inv n minute st) (hs : arrive exp RAND_MAX rand fuel lambda minute st = some st1) :
    Inv n minute st1 := by
  unfold arrive at hs
  split at hs
  · cases hs
  · cases hs
    exact inv_arrivals_loop _ ⟨h.queue, h.count, h.length, h.waits, h.tellers, h.tlen⟩

theorem inv_horizon_tick {F : Type} [LinearOrderedField F] {exp : F → F} {RAND_MAX : Nat}
    {rand : Nat → Nat} {fuel : Nat} {lambda : F} {n minute : Int} {st st1 : SimState}
    (h : Inv n minute st)
    (hs : horizon_tick exp RAND_MAX rand fuel lambda n minute st = some st1) :
    Inv n minute st1 := by
  unfold horizon_tick at hs
  split at hs
  · cases hs
  · rename_i st0 h0
    cases hs
    exact inv_serve_minute rand (inv_arrive h h0)

theorem inv_main_loop {F : Type} [LinearOrderedField F] {exp : F → F} {RAND_MAX : Nat}
    {rand : Nat → Nat} {fuel : Nat} {lambda : F} {n : Int} :
    ∀ (k : Nat) {minute : Int} {st st1 : SimState}, Inv n minute st →
      main_loop exp RAND_MAX rand fuel lambda n k minute st = some st1 →
      Inv n (minute + k) st1
  | 0, minute, st, st1, h, hs => by
    simp only [main_loop, Option.some.injEq] at hs
    subst hs
    simpa using h
  | k + 1, minute, st, st1, h, hs => by
    rw [main_loop] at hs
    split at hs
    · cases hs
    · rename_i st0 h0
      have h1 := (inv_horizon_tick h h0).mono (show minute ≤ minute + 1 by omega)
      have h2 := inv_main_loop k h1 hs
      have e : minute + 1 + (k : Int) = minute + ((k + 1 : Nat) : Int) := by
        push_cast
        ring
      rwa [e] at h2

theorem inv_drain_tick {n : Int} (rand : Nat → Nat) {st : SimState}
    (h : Inv n (480 + st.extra_time) st) :
    Inv n (480 + (drain_tick rand n st).extra_time) (drain_tick rand n st) := by
  rw [drain_tick_extra_time]
  have h1 : Inv n (480 + (st.extra_time + 1)) { st with extra_time := st.extra_time + 1 } :=
    (show Inv n (480 + st.extra_time) { st with extra_time := st.extra_time + 1 } from
      ⟨h.queue, h.count, h.length, h.waits, h.tellers, h.tlen⟩).mono (by omega)
  have h2 := inv_serve_loop rand n.toNat 0 (inv_update_tellers h1)
  simpa only [drain_tick, drain_serve_loop_eq] using h2

theorem inv_drain_iter {n : Int} (rand : Nat → Nat) :
    ∀ (j : Nat) {st st1 : SimState}, Inv n (480 + st.extra_time) st →
      drain_iter rand n j st = some st1 → Inv n (480 + st1.extra_time) st1
  | 0, st, st1, h, hs => by
    simp only [drain_iter, Option.some.injEq] at hs
    subst hs
    exact h
  | j + 1, st, st1, h, hs => by
    rw [drain_iter] at hs
    split at hs
    · exact inv_drain_iter rand j (inv_drain_tick rand h) hs
    · cases hs

theorem inv_horizon_end {F : Type} [LinearOrderedField F] {exp : F → F} {RAND_MAX : Nat}
    {rand : Nat → Nat} {fuel : Nat} {lambda : F} {n : Int} {st : SimState}
    (hs : horizon_end exp RAND_MAX rand fuel lambda n = some st) :
    Inv n (480 + st.extra_time) st := by
  unfold horizon_end at hs
  split at hs
  · cases hs
  · rename_i st0 h0
    cases hs
    have h := inv_main_loop 480 (inv_init n 0) h0
    exact (show Inv n (0 + ((480 : Nat) : Int)) { st0 with extra_time := 0 } from
      ⟨h.queue, h.count, h.length, h.waits, h.tellers, h.tlen⟩).mono (by simp)

/-! ## The drain loop -/

theorem drain_loop_iter (rand : Nat → Nat) (n : Int) :
    ∀ (fuel : Nat) {st st1 : SimState}, drain_loop rand n fuel st = some st1 →
      ∃ j, j ≤ fuel ∧ drain_iter rand n j st = some st1 ∧ drain_cond n st1 = false
  | 0, st, st1, h => by
    rw [drain_loop] at h
    split at h
    · cases h
    · rename_i hc
      cases h
      exact ⟨0, le_refl _, rfl, by simpa using hc⟩
  | fuel + 1, st, st1, h => by
    rw [drain_loop] at h
    split at h
    · rename_i hc
      obtain ⟨j, hj, h1, h2⟩ := drain_loop_iter rand n fuel h
      exact ⟨j + 1, by omega, by rw [drain_iter, if_pos hc]; exact h1, h2⟩
    · rename_i hc
      cases h
      exact ⟨0, by omega, rfl, by simpa using hc⟩

theorem drain_iter_loop (rand : Nat → Nat) (n : Int) :
    ∀ (j : Nat) {st st1 : SimState}, drain_iter rand n j st = some st1 →
      drain_cond n st1 = false → ∀ fuel, j ≤ fuel → drain_loop rand n fuel st = some st1
  | 0, st, st1, h, hc, fuel, _ => by
    simp only [drain_iter, Option.some.injEq] at h
    subst h
    cases fuel <;> simp [drain_loop, hc]
  | j + 1, st, st1, h, hc, fuel, hf => by
    rw [drain_iter] at h
    split at h
    · rename_i hc0
      obtain ⟨fuel1, rfl⟩ : ∃ f, fuel = f + 1 := ⟨fuel - 1, by omega⟩
      rw [drain_loop, if_pos hc0]
      exact drain_iter_loop rand n j h hc fuel1 (by omega)
    · cases h

theorem dequeue_size {q : Queue} (h : is_empty q = false) : (dequeue q).2.size = q.size - 1 := by
  unfold is_empty at h
  unfold dequeue
  cases hf : q.front with
  | none => simp [hf] at h
  | some a => rfl

theorem serve_teller_measure (rand : Nat → Nat) (now : Int) (t : Nat) (st : SimState) :
    drain_measure (serve_teller rand now t st) ≤ drain_measure st ∧
      (st.teller_busy.getD t 0 = 0 ∧ is_empty st.customer_queue = false →
        drain_measure (serve_teller rand now t st) < drain_measure st) := by
  unfold serve_teller
  split
  · rename_i hc
    have hb := service_time_bounds (rand st.rng)
    have hsum := sum_set_le st.teller_busy t (2 + ((rand st.rng : Int) % 3)) hc.1 (by omega)
    have hsz := dequeue_size hc.2
    have hlt : drain_measure
        { record_wait { st with customer_queue := (dequeue st.customer_queue).2 }
            (now - (dequeue st.customer_queue).1.arrival_time) with
          teller_busy := st.teller_busy.set t (2 + ((rand st.rng : Int) % 3))
          rng := st.rng + 1
          total_customers_served := st.total_customers_served + 1 } < drain_measure st := by
      simp only [drain_measure, record_wait, hsz]
      omega
    exact ⟨le_of_lt hlt, fun _ => hlt⟩
  · rename_i hc
    exact ⟨le_refl _, fun h => absurd h hc⟩

theorem serve_loop_measure (rand : Nat → Nat) (now : Int) :
    ∀ (k t : Nat) (st : SimState),
      drain_measure (serve_loop rand now k t st) ≤ drain_measure st
  | 0, _, _ => le_refl _
  | k + 1, t, st => by
    rw [serve_loop]
    exact le_trans (serve_loop_measure rand now k (t + 1) _) (serve_teller_measure rand now t st).1

theorem getD_of_all_zero (l : List Int) (t : Nat) (h : ∀ b ∈ l, b = 0) : l.getD t 0 = 0 := by
  rw [List.getD_eq_getElem?_getD]
  cases ht : l[t]? with
  | none => rfl
  | some b => exact h b (List.getElem?_mem ht)

theorem drain_tick_measure_lt {n now : Int} (rand : Nat → Nat) {st : SimState}
    (h : Inv n now st) (hn : 1 ≤ n) (hc : drain_cond n st = true) :
    drain_measure (drain_tick rand n st) < drain_measure st := by
  have hmap := update_tellers_eq_map h.tlen
  have hloop : drain_tick rand n st =
      serve_loop rand (480 + (st.extra_time + 1)) n.toNat 0
        { st with extra_time := st.extra_time + 1, teller_busy := st.teller_busy.map dec_timer } := by
    simp only [drain_tick, drain_serve_loop_eq, hmap]
  rw [hloop]
  by_cases hb : has_busy_teller st.teller_busy n = true
  · rw [has_busy_teller_eq_any h.tlen] at hb
    have hlt := sum_map_dec_timer_lt st.teller_busy hb
    refine lt_of_le_of_lt (serve_loop_measure rand _ _ _ _) ?_
    simp only [drain_measure]
    omega
  · have hne : is_empty st.customer_queue = false := by
      cases he : is_empty st.customer_queue with
      | false => rfl
      | true =>
        rw [drain_cond, he] at hc
        exact absurd (by simpa using hc) hb
    rw [has_busy_teller_eq_any h.tlen] at hb
    have hzero : ∀ b ∈ st.teller_busy, b = 0 := by
      intro b hbm
      have h1 := h.tellers b hbm
      have h2 : ¬ b > 0 := by
        intro hpos
        exact hb (List.any_eq_true.mpr ⟨b, hbm, by simpa using hpos⟩)
      omega
    have hzero1 : ∀ b ∈ st.teller_busy.map dec_timer, b = 0 := by
      intro b hbm
      obtain ⟨a, ha, rfl⟩ := List.mem_map.mp hbm
      rw [hzero a ha]
      rfl
    obtain ⟨k, hk⟩ : ∃ k, n.toNat = k + 1 := ⟨n.toNat - 1, by omega⟩
    rw [hk, serve_loop]
    refine lt_of_le_of_lt (serve_loop_measure rand _ _ _ _) ?_
    refine lt_of_lt_of_le ((serve_teller_measure rand _ 0 _).2
      ⟨getD_of_all_zero _ 0 hzero1, hne⟩) ?_
    have := sum_map_dec_timer_le st.teller_busy
    simp only [drain_measure]
    omega

theorem drain_measure_nonneg {n now : Int} {st : SimState} (h : Inv n now st) :
    0 ≤ drain_measure st := by
  obtain ⟨cs, h1, _, _⟩ := h.queue
  have := holds_size h1
  have := sum_nonneg_of_forall _ h.tellers
  simp only [drain_measure]
  omega

theorem drain_reaches_exit {n : Int} (rand : Nat → Nat) (hn : 1 ≤ n) :
    ∀ (m : Nat) (st : SimState), Inv n (480 + st.extra_time) st →
      drain_measure st ≤ m →
      ∃ j st1, j ≤ m ∧ drain_iter rand n j st = some st1 ∧ drain_cond n st1 = false
  | 0, st, h, hm => by
    refine ⟨0, st, le_refl _, rfl, ?_⟩
    by_contra hc
    have hc1 : drain_cond n st = true := by simpa using hc
    have h1 := drain_tick_measure_lt rand h hn hc1
    have h2 := drain_measure_nonneg (inv_drain_tick rand h)
    omega
  | m + 1, st, h, hm => by
    by_cases hc : drain_cond n st = true
    · have h1 := drain_tick_measure_lt rand h hn hc
      obtain ⟨j, st1, hj, hi, hc1⟩ :=
        drain_reaches_exit rand hn m (drain_tick rand n st) (inv_drain_tick rand h)
          (by push_cast at hm; omega)
      exact ⟨j + 1, st1, by omega, by rw [drain_iter, if_pos hc]; exact hi, hc1⟩
    · exact ⟨0, st, by omega, rfl, by simpa using hc⟩

/-! ## Tick boundaries -/

theorem inv_tick_boundary {F : Type} [LinearOrderedField F] {exp : F → F} {RAND_MAX : Nat}
    {rand : Nat → Nat} {fuel : Nat} {lambda : F} {n : Int} {k : Nat} {st : SimState}
    (h : tick_boundary exp RAND_MAX rand fuel lambda n k = some st) : ∃ now, Inv n now st := by
  unfold tick_boundary at h
  split at h
  · exact ⟨_, inv_main_loop k (inv_init n 0) h⟩
  · split at h
    · cases h
    · rename_i st0 h0
      exact ⟨_, inv_drain_iter rand _ (inv_horizon_end h0) h⟩

/-! ## The maximum queue size -/

theorem main_loop_succ {F : Type} [LinearOrderedField F] (exp : F → F) (RAND_MAX : Nat)
    (rand : Nat → Nat) (fuel : Nat) (lambda : F) (n : Int) :
    ∀ (k : Nat) (minute : Int) (st : SimState),
      main_loop exp RAND_MAX rand fuel lambda n (k + 1) minute st =
        (main_loop exp RAND_MAX rand fuel lambda n k minute st).bind
          (horizon_tick exp RAND_MAX rand fuel lambda n (minute + k))
  | 0, minute, st => by
    cases h : horizon_tick exp RAND_MAX rand fuel lambda n minute st <;>
      simp [main_loop, h]
  | k + 1, minute, st => by
    rw [main_loop]
    cases h : horizon_tick exp RAND_MAX rand fuel lambda n minute st with
    | none => simp [main_loop, h]
    | some s1 =>
      have e : minute + 1 + (k : Int) = minute + ((k + 1 : Nat) : Int) := by
        push_cast
        ring
      simp only [main_loop_succ exp RAND_MAX rand fuel lambda n k (minute + 1) s1, e]
      conv_rhs => rw [main_loop, h]

theorem serve_teller_max (rand : Nat → Nat) (now : Int) (t : Nat) (st : SimState) :
    (serve_teller rand now t st).max_queue_size = st.max_queue_size := by
  unfold serve_teller
  split <;> rfl

theorem serve_teller_size_le (rand : Nat → Nat) (now : Int) (t : Nat) (st : SimState) :
    (serve_teller rand now t st).customer_queue.size ≤ st.customer_queue.size := by
  unfold serve_teller
  split
  · rename_i hc
    have := dequeue_size hc.2
    simp only [record_wait]
    omega
  · exact le_refl _

theorem serve_loop_max (rand : Nat → Nat) (now : Int) :
    ∀ (k t : Nat) (st : SimState),
      (serve_loop rand now k t st).max_queue_size = st.max_queue_size
  | 0, _, _ => rfl
  | k + 1, t, st => by
    rw [serve_loop, serve_loop_max rand now k (t + 1), serve_teller_max]

theorem serve_loop_size_le (rand : Nat → Nat) (now : Int) :
    ∀ (k t : Nat) (st : SimState),
      (serve_loop rand now k t st).customer_queue.size ≤ st.customer_queue.size
  | 0, _, _ => le_refl _
  | k + 1, t, st => by
    rw [serve_loop]
    exact le_trans (serve_loop_size_le rand now k (t + 1) _) (serve_teller_size_le rand now t st)

theorem arrivals_loop_max (minute : Int) :
    ∀ (k : Nat) (st : SimState),
      (arrivals_loop minute k st).max_queue_size = st.max_queue_size
  | 0, _ => rfl
  | k + 1, st => by rw [arrivals_loop, arrivals_loop_max minute k]

theorem arrive_max {F : Type} [LinearOrderedField F] {exp : F → F} {RAND_MAX : Nat}
    {rand : Nat → Nat} {fuel : Nat} {lambda : F} {minute : Int} {st st1 : SimState}
    (hs : arrive exp RAND_MAX rand fuel lambda minute st = some st1) :
    st1.max_queue_size = st.max_queue_size := by
  unfold arrive at hs
  split at hs
  · cases hs
  · cases hs
    rw [arrivals_loop_max]

theorem serve_minute_max (rand : Nat → Nat) (n minute : Int) (st : SimState) :
    (serve_minute rand n minute st).max_queue_size = max st.max_queue_size st.customer_queue.size ∧
      (serve_minute rand n minute st).customer_queue.size ≤ st.customer_queue.size := by
  unfold serve_minute
  constructor
  · rw [serve_loop_max]
    unfold track_max
    split
    · rename_i h
      exact (max_eq_right (le_of_lt h)).symm
    · rename_i h
      exact (max_eq_left (not_lt.mp h)).symm
  · refine le_trans (serve_loop_size_le _ _ _ _ _) ?_
    unfold track_max
    split <;> exact le_refl _

theorem drain_tick_max (rand : Nat → Nat) (n : Int) (st : SimState) :
    (drain_tick rand n st).max_queue_size = st.max_queue_size ∧
      (drain_tick rand n st).customer_queue.size ≤ st.customer_queue.size := by
  simp only [drain_tick, drain_serve_loop_eq]
  exact ⟨serve_loop_max _ _ _ _ _, serve_loop_size_le _ _ _ _ _⟩

theorem drain_iter_max (rand : Nat → Nat) (n : Int) :
    ∀ (j : Nat) {st st1 : SimState}, drain_iter rand n j st = some st1 →
      st1.max_queue_size = st.max_queue_size ∧ st1.customer_queue.size ≤ st.customer_queue.size
  | 0, st, st1, h => by
    simp only [drain_iter, Option.some.injEq] at h
    subst h
    exact ⟨rfl, le_refl _⟩
  | j + 1, st, st1, h => by
    rw [drain_iter] at h
    split at h
    · obtain ⟨h1, h2⟩ := drain_iter_max rand n j h
      obtain ⟨h3, h4⟩ := drain_tick_max rand n st
      exact ⟨h1.trans h3, le_trans h2 h4⟩
    · cases h

theorem inv_size_nonneg {n now : Int} {st : SimState} (h : Inv n now st) :
    0 ≤ st.customer_queue.size := by
  obtain ⟨cs, h1, _, _⟩ := h.queue
  rw [holds_size h1]
  exact Int.natCast_nonneg _

theorem horizon_boundary_max {F : Type} [LinearOrderedField F] (exp : F → F) (RAND_MAX : Nat)
    (rand : Nat → Nat) (fuel : Nat) (lambda : F) (n : Int) :
    ∀ (k : Nat) (st : SimState),
      horizon_boundary exp RAND_MAX rand fuel lambda n k = some st →
      (∀ m, m < k → ∃ p, peak_queue_size exp RAND_MAX rand fuel lambda n m = some p ∧
        p ≤ st.max_queue_size) ∧
      ((k = 0 ∧ st.max_queue_size = 0) ∨
        ∃ m, m < k ∧ peak_queue_size exp RAND_MAX rand fuel lambda n m = some st.max_queue_size) ∧
      st.customer_queue.size ≤ st.max_queue_size
  | 0, st, h => by
    simp only [horizon_boundary, main_loop, Option.some.injEq] at h
    subst h
    exact ⟨fun m hm => absurd hm (Nat.not_lt_zero m), Or.inl ⟨rfl, rfl⟩, le_refl _⟩
  | k + 1, st, h => by
    unfold horizon_boundary at h
    rw [main_loop_succ] at h
    cases hk : main_loop exp RAND_MAX rand fuel lambda n k 0 (init_state n) with
    | none => simp [hk] at h
    | some s0 =>
      simp only [hk, Option.some_bind, zero_add] at h
      obtain ⟨ha, hb, hc⟩ := horizon_boundary_max exp RAND_MAX rand fuel lambda n k s0 hk
      have hinv0 : Inv n (0 + (k : Int)) s0 := inv_main_loop k (inv_init n 0) hk
      rw [zero_add] at hinv0
      unfold horizon_tick at h
      cases ha1 : arrive exp RAND_MAX rand fuel lambda (k : Int) s0 with
      | none => simp [ha1] at h
      | some s1 =>
        simp only [ha1, Option.some.injEq] at h
        subst h
        have hpeak : peak_queue_size exp RAND_MAX rand fuel lambda n k =
            some s1.customer_queue.size := by
          simp only [peak_queue_size, horizon_boundary, hk, ha1]
        have hpos := inv_size_nonneg (inv_arrive hinv0 ha1)
        obtain ⟨hmax, hsize⟩ := serve_minute_max rand n (k : Int) s1
        rw [arrive_max ha1] at hmax
        refine ⟨?_, ?_, ?_⟩
        · intro m hm
          rcases Nat.lt_succ_iff_lt_or_eq.mp hm with hlt | heq
          · obtain ⟨p, hp1, hp2⟩ := ha m hlt
            exact ⟨p, hp1, by rw [hmax]; exact le_trans hp2 (le_max_left _ _)⟩
          · subst heq
            exact ⟨_, hpeak, by rw [hmax]; exact le_max_right _ _⟩
        · right
          rcases le_total s0.max_queue_size s1.customer_queue.size with hle | hle
          · exact ⟨k, Nat.lt_succ_self k, by rw [hmax, max_eq_right hle]; exact hpeak⟩
          · rw [hmax, max_eq_left hle]
            rcases hb with ⟨hk0, hz⟩ | ⟨m, hm, hp⟩
            · have : s1.customer_queue.size = s0.max_queue_size := by omega
              exact ⟨k, Nat.lt_succ_self k, by rw [← this]; exact hpeak⟩
            · exact ⟨m, Nat.lt_succ_of_lt hm, hp⟩
        · rw [hmax]
          exact le_trans hsize (le_max_right _ _)

/-! ## The concrete run, evaluated -/

theorem demo_horizon_end_eq :
    horizon_end demo_exp 32767 demo_rand 10 1 1 = some demo_horizon_end := by
  decide!

theorem demo_run_eq : run_simulation demo_exp 32767 demo_rand 10 1 1 = some demo_final := by
  rw [run_simulation, demo_horizon_end_eq]
  decide

theorem demo_boundary_eq (j : Nat) (st : SimState)
    (h : drain_iter demo_rand 1 j demo_horizon_end = some st) :
    tick_boundary demo_exp 32767 demo_rand 10 1 1 (480 + j) = some st := by
  rw [tick_boundary, if_neg (by omega), demo_horizon_end_eq]
  simpa using h

/-! ## Main results -/

/-- C1: for `lambda > 0` and at least one teller, whenever `run_simulation`
finishes (main loop of 480 minutes, then the drain loop), the final
`total_customers_served` equals the final `total_customers_arrived`. -/
theorem served_eq_arrived {F : Type} [LinearOrderedField F] (exp : F → F) (RAND_MAX : Nat)
    (rand : Nat → Nat) (fuel : Nat) (lambda : F) (num_tellers : Int) (r : SimState)
    (_hl : 0 < lambda) (_hn : 1 ≤ num_tellers)
    (h : run_simulation exp RAND_MAX rand fuel lambda num_tellers = some r) :
    r.total_customers_served = r.total_customers_arrived := by
  unfold run_simulation at h
  split at h
  · cases h
  · rename_i st0 h0
    obtain ⟨j, _, hi, hc⟩ := drain_loop_iter rand num_tellers fuel h
    have hr := inv_drain_iter rand j (inv_horizon_end h0) hi
    obtain ⟨cs, h1, _, h3⟩ := hr.queue
    have he : is_empty r.customer_queue = true := by
      cases hq : is_empty r.customer_queue with
      | true => rfl
      | false => simp [drain_cond, hq] at hc
    have hcs := (holds_is_empty h1).mp he
    subst hcs
    simpa using h3.symm

theorem served_eq_arrived_witness :
    (0 : ℚ) < 1 ∧ (1 : Int) ≤ 1 ∧
      run_simulation demo_exp 32767 demo_rand 10 1 1 = some demo_final ∧
      demo_final.total_customers_served = demo_final.total_customers_arrived :=
  ⟨zero_lt_one, le_refl _, demo_run_eq,
    served_eq_arrived demo_exp 32767 demo_rand 10 1 1 demo_final zero_lt_one (le_refl _)
      demo_run_eq⟩

/-- C2: with at least one teller, from every state in which the main loop can
end and for every stream of service draws, the drain loop leaves after finitely
many iterations: some number `j` of iterations, bounded by five times the queue
size plus the sum of the timers, reaches a state where the loop condition is
false, and the loop returns that state for every fuel of at least `j`. -/
theorem drain_terminates {F : Type} [LinearOrderedField F] (exp : F → F) (RAND_MAX : Nat)
    (rand : Nat → Nat) (fuel : Nat) (lambda : F) (num_tellers : Int) (draws : Nat → Nat)
    (st0 : SimState) (hn : 1 ≤ num_tellers)
    (h : horizon_end exp RAND_MAX rand fuel lambda num_tellers = some st0) :
    ∃ (j : Nat) (st : SimState),
      (j : Int) ≤ 5 * st0.customer_queue.size + st0.teller_busy.sum ∧
      drain_iter draws num_tellers j st0 = some st ∧ drain_cond num_tellers st = false ∧
      ∀ fuel1, j ≤ fuel1 → drain_loop draws num_tellers fuel1 st0 = some st := by
  have hinv := inv_horizon_end h
  have hpos := drain_measure_nonneg hinv
  obtain ⟨j, st, hj, hi, hc⟩ :=
    drain_reaches_exit draws hn (drain_measure st0).toNat st0 hinv (by omega)
  refine ⟨j, st, ?_, hi, hc, drain_iter_loop draws num_tellers j hi hc⟩
  have h1 : ((drain_measure st0).toNat : Int) = drain_measure st0 := Int.toNat_of_nonneg hpos
  have h2 : (j : Int) ≤ ((drain_measure st0).toNat : Int) := by exact_mod_cast hj
  rw [h1] at h2
  exact h2

theorem drain_terminates_witness :
    (1 : Int) ≤ 1 ∧ horizon_end demo_exp 32767 demo_rand 10 1 1 = some demo_horizon_end ∧
      ∃ (j : Nat) (st : SimState), (j : Int) ≤
          5 * demo_horizon_end.customer_queue.size + demo_horizon_end.teller_busy.sum ∧
        drain_iter demo_rand 1 j demo_horizon_end = some st ∧ drain_cond 1 st = false ∧
        ∀ fuel1, j ≤ fuel1 → drain_loop demo_rand 1 fuel1 demo_horizon_end = some st :=
  ⟨le_refl _, demo_horizon_end_eq,
    drain_terminates demo_exp 32767 demo_rand 10 1 1 demo_rand demo_horizon_end (le_refl _)
      demo_horizon_end_eq⟩

/-- C3: at every tick boundary of `run_simulation`, in the main loop and in the
drain loop, `wait_times_count` (which is also the number of entries stored in
the wait-time array) equals `total_customers_served`. -/
theorem wait_times_count_eq_served {F : Type} [LinearOrderedField F] (exp : F → F)
    (RAND_MAX : Nat) (rand : Nat → Nat) (fuel : Nat) (lambda : F) (num_tellers : Int)
    (k : Nat) (st : SimState)
    (h : tick_boundary exp RAND_MAX rand fuel lambda num_tellers k = some st) :
    st.wait_times_count = st.total_customers_served ∧
      (st.wait_times.length : Int) = st.total_customers_served := by
  obtain ⟨now, hinv⟩ := inv_tick_boundary h
  exact ⟨hinv.count, hinv.length.trans hinv.count⟩

theorem wait_times_count_eq_served_witness :
    tick_boundary demo_exp 32767 demo_rand 10 1 1 483 = some demo_drain_3 ∧
      demo_drain_3.wait_times_count = demo_drain_3.total_customers_served ∧
      (demo_drain_3.wait_times.length : Int) = demo_drain_3.total_customers_served :=
  ⟨demo_boundary_eq 3 demo_drain_3 (by decide),
    wait_times_count_eq_served demo_exp 32767 demo_rand 10 1 1 483 demo_drain_3
      (demo_boundary_eq 3 demo_drain_3 (by decide))⟩

/-- C4: every wait time stored in the wait-time array is `>= 0`, at every tick
boundary of the main loop and of the drain loop, for every `lambda`, every
`num_tellers` and every stream of draws. -/
theorem wait_times_nonneg {F : Type} [LinearOrderedField F] (exp : F → F)
    (RAND_MAX : Nat) (rand : Nat → Nat) (fuel : Nat) (lambda : F) (num_tellers : Int)
    (k : Nat) (st : SimState) (w : Int)
    (h : tick_boundary exp RAND_MAX rand fuel lambda num_tellers k = some st)
    (hw : w ∈ st.wait_times) : 0 ≤ w := by
  obtain ⟨now, hinv⟩ := inv_tick_boundary h
  exact hinv.waits w hw

theorem wait_times_nonneg_witness :
    tick_boundary demo_exp 32767 demo_rand 10 1 1 489 = some demo_final ∧
      (6 : Int) ∈ demo_final.wait_times ∧ (0 : Int) ≤ 6 :=
  ⟨demo_boundary_eq 9 demo_final (by decide), by decide,
    wait_times_nonneg demo_exp 32767 demo_rand 10 1 1 489 demo_final 6
      (demo_boundary_eq 9 demo_final (by decide)) (by decide)⟩

theorem enqueue_size (q : Queue) (c : Customer) : (enqueue q c).size = q.size + 1 := by
  unfold enqueue
  cases q.rear <;> rfl

theorem arrivals_loop_size (minute : Int) :
    ∀ (i : Nat) (st : SimState),
      (arrivals_loop minute i st).customer_queue.size = st.customer_queue.size + i
  | 0, st => by simp [arrivals_loop]
  | i + 1, st => by
    rw [arrivals_loop, arrivals_loop_size minute i, enqueue_size]
    push_cast
    ring

theorem track_max_size (st : SimState) :
    (track_max st).customer_queue.size = st.customer_queue.size := by
  unfold track_max
  split <;> rfl

/-- C5: when `run_simulation` finishes, `max_queue_size` is `>= 0`, it is the
maximum over the minutes `0..479` of the queue size measured right after the
arrivals of the minute are enqueued and before any customer is dequeued (every
such size is at most `max_queue_size`, and one of them equals it), and it is at
least the queue size at every point of the run: at every tick boundary of the
main loop and of the drain loop, after any number of the enqueues of a minute,
and after any number of iterations of the assignment loop of a minute or of a
drain iteration. -/
theorem max_queue_size_is_peak {F : Type} [LinearOrderedField F] (exp : F → F)
    (RAND_MAX : Nat) (rand : Nat → Nat) (fuel : Nat) (lambda : F) (num_tellers : Int)
    (r : SimState) (h : run_simulation exp RAND_MAX rand fuel lambda num_tellers = some r) :
    0 ≤ r.max_queue_size ∧
      (∀ m, m < 480 → ∃ p,
        peak_queue_size exp RAND_MAX rand fuel lambda num_tellers m = some p ∧
          p ≤ r.max_queue_size) ∧
      (∃ m, m < 480 ∧
        peak_queue_size exp RAND_MAX rand fuel lambda num_tellers m = some r.max_queue_size) ∧
      (∀ k st, tick_boundary exp RAND_MAX rand fuel lambda num_tellers k = some st →
        st.customer_queue.size ≤ r.max_queue_size) ∧
      (∀ (m : Nat) (st : SimState) (arrivals : Int) (rng1 i : Nat), m < 480 →
        horizon_boundary exp RAND_MAX rand fuel lambda num_tellers m = some st →
        generate_arrivals exp RAND_MAX rand fuel lambda st.rng = some (arrivals, rng1) →
        i ≤ arrivals.toNat →
        (arrivals_loop (m : Int) i { st with rng := rng1 }).customer_queue.size ≤
          r.max_queue_size) ∧
      (∀ (m : Nat) (st st1 : SimState) (t : Nat), m < 480 →
        horizon_boundary exp RAND_MAX rand fuel lambda num_tellers m = some st →
        arrive exp RAND_MAX rand fuel lambda (m : Int) st = some st1 →
        (serve_loop rand (m : Int) t 0
          { track_max st1 with
            teller_busy := update_tellers num_tellers (track_max st1).teller_busy
          }).customer_queue.size ≤ r.max_queue_size) ∧
      (∀ (k : Nat) (st : SimState) (t : Nat), 480 ≤ k →
        tick_boundary exp RAND_MAX rand fuel lambda num_tellers k = some st →
        (drain_serve_loop rand t 0
          { st with
            extra_time := st.extra_time + 1
            teller_busy := update_tellers num_tellers st.teller_busy
          }).customer_queue.size ≤ r.max_queue_size) := by
  unfold run_simulation at h
  cases h0 : horizon_end exp RAND_MAX rand fuel lambda num_tellers with
  | none => simp [h0] at h
  | some st0 =>
    simp only [h0] at h
    obtain ⟨j, _, hi, _⟩ := drain_loop_iter rand num_tellers fuel h
    obtain ⟨hrmax, _⟩ := drain_iter_max rand num_tellers j hi
    have h0copy := h0
    unfold horizon_end at h0
    cases h480 : main_loop exp RAND_MAX rand fuel lambda num_tellers 480 0
        (init_state num_tellers) with
    | none => simp [h480] at h0
    | some s480 =>
      simp only [h480, Option.some.injEq] at h0
      have hst0max : st0.max_queue_size = s480.max_queue_size := by rw [← h0]
      have hst0size : st0.customer_queue.size = s480.customer_queue.size := by rw [← h0]
      obtain ⟨ha, hb, hc⟩ :=
        horizon_boundary_max exp RAND_MAX rand fuel lambda num_tellers 480 s480 h480
      have hinv := inv_main_loop 480 (inv_init num_tellers 0) h480
      have hpos := inv_size_nonneg hinv
      have hr : r.max_queue_size = s480.max_queue_size := hrmax.trans hst0max
      rw [hr]
      have hbound : ∀ k st, tick_boundary exp RAND_MAX rand fuel lambda num_tellers k = some st →
          st.customer_queue.size ≤ s480.max_queue_size := by
        intro k st hk
        unfold tick_boundary at hk
        split at hk
        · rename_i hlt
          obtain ⟨_, hbk, hck⟩ :=
            horizon_boundary_max exp RAND_MAX rand fuel lambda num_tellers k st hk
          refine le_trans hck ?_
          rcases hbk with ⟨_, hz⟩ | ⟨m, hm, hp⟩
          · rw [hz]
            exact le_trans hpos hc
          · obtain ⟨p, hp1, hp2⟩ := ha m (lt_trans hm hlt)
            rw [hp] at hp1
            cases hp1
            exact hp2
        · rw [h0copy] at hk
          obtain ⟨_, hsz⟩ := drain_iter_max rand num_tellers _ hk
          rw [hst0size] at hsz
          exact le_trans hsz hc
      refine ⟨le_trans hpos hc, ha, ?_, hbound, ?_, ?_, ?_⟩
      · rcases hb with ⟨hk0, _⟩ | hb
        · exact absurd hk0 (by decide)
        · exact hb
      · intro m st arrivals rng1 i hm hst hgen hi
        obtain ⟨p, hp1, hp2⟩ := ha m hm
        simp only [peak_queue_size, hst, arrive, hgen, Option.some.injEq] at hp1
        rw [arrivals_loop_size] at hp1 ⊢
        have : (i : Int) ≤ (arrivals.toNat : Int) := by exact_mod_cast hi
        omega
      · intro m st st1 t hm hst harr
        obtain ⟨p, hp1, hp2⟩ := ha m hm
        simp only [peak_queue_size, hst, harr, Option.some.injEq] at hp1
        refine le_trans (serve_loop_size_le _ _ _ _ _) ?_
        have := track_max_size st1
        simp only [this]
        omega
      · intro k st t _ hk
        rw [drain_serve_loop_eq]
        exact le_trans (serve_loop_size_le _ _ _ _ _) (hbound k st hk)

theorem max_queue_size_is_peak_witness :
    run_simulation demo_exp 32767 demo_rand 10 1 1 = some demo_final ∧
      (0 ≤ demo_final.max_queue_size ∧
        (∃ m, m < 480 ∧
          peak_queue_size demo_exp 32767 demo_rand 10 1 1 m =
            some demo_final.max_queue_size) ∧
        (∀ k st, tick_boundary demo_exp 32767 demo_rand 10 1 1 k = some st →
          st.customer_queue.size ≤ demo_final.max_queue_size)) :=
  ⟨demo_run_eq,
    (max_queue_size_is_peak demo_exp 32767 demo_rand 10 1 1 demo_final demo_run_eq).1,
    (max_queue_size_is_peak demo_exp 32767 demo_rand 10 1 1 demo_final demo_run_eq).2.2.1,
    (max_queue_size_is_peak demo_exp 32767 demo_rand 10 1 1 demo_final demo_run_eq).2.2.2.1⟩

/-! ## Sorting and the mode -/

theorem wrap_int_eq (x : Int) (h : -2147483648 ≤ x ∧ x ≤ 2147483647) : wrap_int x = x := by
  unfold wrap_int
  omega

theorem compare_ints_le {a b : Int} (h : -2147483648 ≤ a - b ∧ a - b ≤ 2147483647) :
    compare_ints a b ≤ 0 ↔ a ≤ b := by
  unfold compare_ints
  rw [wrap_int_eq _ h]
  omega

theorem qsort_sorted {qsort : List Int → (Int → Int → Int) → List Int} (hq : QsortSpec qsort)
    (l : List Int) (hl : NoOverflow l) :
    (qsort l compare_ints).Perm l ∧ (qsort l compare_ints).Pairwise (fun a b => a ≤ b) := by
  obtain ⟨h1, h2⟩ := hq l hl
  refine ⟨h1, h2.imp_of_mem ?_⟩
  intro a b ha hb h
  exact (compare_ints_le (hl a (h1.subset ha) b (h1.subset hb))).mp h

theorem orderedInsert_compare_ints (x : Int) :
    ∀ l : List Int, (∀ y ∈ l, -2147483648 ≤ x - y ∧ x - y ≤ 2147483647) →
      l.orderedInsert (fun a b => compare_ints a b ≤ 0) x =
        l.orderedInsert (fun a b => a ≤ b) x
  | [], _ => rfl
  | y :: ys, h => by
    have hy := compare_ints_le (h y (List.mem_cons_self y ys))
    have ih := orderedInsert_compare_ints x ys (fun z hz => h z (List.mem_cons_of_mem y hz))
    simp only [List.orderedInsert, hy, ih]

theorem demo_qsort_eq :
    ∀ l : List Int, NoOverflow l →
      demo_qsort l compare_ints = l.insertionSort (fun a b => a ≤ b)
  | [], _ => rfl
  | x :: xs, h => by
    have hxs : NoOverflow xs := fun a ha b hb =>
      h a (List.mem_cons_of_mem x ha) b (List.mem_cons_of_mem x hb)
    have ih := demo_qsort_eq xs hxs
    unfold demo_qsort at ih ⊢
    rw [List.insertionSort, ih]
    apply orderedInsert_compare_ints
    intro y hy
    exact h x (List.mem_cons_self x xs) y
      (List.mem_cons_of_mem x ((List.perm_insertionSort _ xs).subset hy))

theorem demo_qsort_spec : QsortSpec demo_qsort := by
  intro l hl
  have hperm : (demo_qsort l compare_ints).Perm l := List.perm_insertionSort _ l
  refine ⟨hperm, ?_⟩
  have hs : (demo_qsort l compare_ints).Pairwise (fun a b => a ≤ b) := by
    rw [demo_qsort_eq l hl]
    exact List.sorted_insertionSort (fun a b : Int => a ≤ b) l
  refine hs.imp_of_mem ?_
  intro a b ha hb h
  exact (compare_ints_le (hl a (hperm.subset ha) b (hperm.subset hb))).mpr h

theorem count_snoc_self (p : List Int) (x : Int) : (p ++ [x]).count x = p.count x + 1 := by
  simp [List.count_append]

theorem count_snoc_ne (p : List Int) {x v : Int} (h : v ≠ x) :
    (p ++ [x]).count v = p.count v := by
  have : ¬ x = v := fun e => h e.symm
  simp [List.count_append, List.count_cons, this]

theorem modeInv_same {p : List Int} {prev mode maxf curf : Int}
    (h : ModeInv p prev mode maxf curf) : ModeInv (p ++ [prev]) prev mode maxf (curf + 1) := by
  obtain ⟨h1, h2, h3, h4, h5, h6⟩ := h
  refine ⟨?_, by simp, by simp [h3], ?_, ?_, ?_⟩
  · rw [count_snoc_self, h1]
    push_cast
    rfl
  · intro v hv
    rcases List.mem_append.mp hv with hv | hv
    · exact h4 v hv
    · rw [List.mem_singleton.mp hv]
  · intro v hv hne
    rw [count_snoc_ne p hne]
    rcases List.mem_append.mp hv with hv | hv
    · exact h5 v hv hne
    · exact absurd (List.mem_singleton.mp hv) hne
  · rcases h6 with ⟨ha, hb⟩ | ⟨ha, hb⟩
    · exact Or.inl ⟨ha, by rw [count_snoc_ne p ha]; exact hb⟩
    · exact Or.inr ⟨ha, hb⟩

theorem modeInv_new {p : List Int} {prev mode maxf curf x : Int}
    (h : ModeInv p prev mode maxf curf) (hx : prev ≤ x) (hne : x ≠ prev) :
    (curf > maxf → ModeInv (p ++ [x]) x prev curf 1) ∧
      (¬ curf > maxf → ModeInv (p ++ [x]) x mode maxf 1) := by
  obtain ⟨h1, h2, h3, h4, h5, h6⟩ := h
  have hlt : prev < x := lt_of_le_of_ne hx (fun e => hne e.symm)
  have hxnot : x ∉ p := fun hm => absurd (h4 x hm) (not_le.mpr hlt)
  have hcx : (p ++ [x]).count x = 1 := by
    rw [count_snoc_self, List.count_eq_zero_of_not_mem hxnot]
  have hmem : ∀ v ∈ p ++ [x], v ≠ x → v ∈ p := by
    intro v hv hvx
    rcases List.mem_append.mp hv with hv | hv
    · exact hv
    · exact absurd (List.mem_singleton.mp hv) hvx
  have hle : ∀ v ∈ p ++ [x], v ≤ x := by
    intro v hv
    rcases List.mem_append.mp hv with hv | hv
    · exact le_trans (h4 v hv) hx
    · rw [List.mem_singleton.mp hv]
  have hprevne : prev ≠ x := fun e => hne e.symm
  have hpos : 1 ≤ p.count prev := List.count_pos_iff.mpr h2
  constructor
  · intro hgt
    refine ⟨by rw [hcx]; rfl, by simp, by simp [h2], hle, ?_, ?_⟩
    · intro v hv hvx
      have hvp := hmem v hv hvx
      rw [count_snoc_ne p hvx]
      by_cases hvprev : v = prev
      · subst hvprev
        exact ⟨by omega, fun _ => le_refl _⟩
      · have := (h5 v hvp hvprev).1
        exact ⟨by omega, fun e => by omega⟩
    · exact Or.inl ⟨hprevne, by rw [count_snoc_ne p hprevne]; omega⟩
  · intro hngt
    refine ⟨by rw [hcx]; rfl, by simp, by simp [h3], hle, ?_, ?_⟩
    · intro v hv hvx
      have hvp := hmem v hv hvx
      rw [count_snoc_ne p hvx]
      by_cases hvprev : v = prev
      · subst hvprev
        exact ⟨by omega, fun _ => h4 mode h3⟩
      · exact h5 v hvp hvprev
    · have hmx : mode ≠ x := fun e => hxnot (e ▸ h3)
      refine Or.inl ⟨hmx, ?_⟩
      rw [count_snoc_ne p hmx]
      rcases h6 with ⟨_, hb⟩ | ⟨ha, hb⟩
      · exact hb
      · rw [ha]
        omega

theorem mode_loop_inv (s : List Int) (hs : s.Pairwise (fun a b => a ≤ b)) :
    ∀ (rest p : List Int) (prev mode maxf curf : Int), s = (p ++ [prev]) ++ rest →
      ModeInv (p ++ [prev]) prev mode maxf curf →
      ∃ last, s.getD (s.length - 1) 0 = last ∧
        ModeInv s last (mode_loop s rest.length (p.length + 1) mode maxf curf).1
          (mode_loop s rest.length (p.length + 1) mode maxf curf).2.1
          (mode_loop s rest.length (p.length + 1) mode maxf curf).2.2
  | [], p, prev, mode, maxf, curf, hs1, h => by
    refine ⟨prev, ?_, ?_⟩
    · rw [hs1]
      simp only [List.append_nil, List.length_append, List.length_singleton,
        Nat.add_sub_cancel]
      exact getD_append_cons p prev []
    · simp only [List.append_nil] at hs1
      rw [hs1]
      exact h
  | x :: xs, p, prev, mode, maxf, curf, hs1, h => by
    have hgx : s.getD (p.length + 1) 0 = x := by
      rw [hs1]
      have := getD_append_cons (p ++ [prev]) x xs
      simpa using this
    have hgp : s.getD (p.length + 1 - 1) 0 = prev := by
      rw [hs1, List.append_assoc, Nat.add_sub_cancel]
      exact getD_append_cons p prev ([] ++ x :: xs)
    have hpx : prev ≤ x := by
      rw [hs1] at hs
      exact (List.pairwise_append.mp hs).2.2 prev (by simp) x (by simp)
    have hs2 : s = ((p ++ [prev]) ++ [x]) ++ xs := by
      rw [hs1]
      simp
    have hlen : (p ++ [prev]).length + 1 = p.length + 1 + 1 := by simp
    simp only [List.length_cons, mode_loop, hgx, hgp]
    by_cases hxp : x = prev
    · rw [if_pos hxp]
      have := mode_loop_inv s hs xs (p ++ [prev]) x mode maxf (curf + 1) hs2
        (by rw [hxp]; exact modeInv_same h)
      rwa [hlen] at this
    · rw [if_neg hxp]
      obtain ⟨hA, hB⟩ := modeInv_new h hpx hxp
      by_cases hgt : curf > maxf
      · rw [if_pos hgt]
        have := mode_loop_inv s hs xs (p ++ [prev]) x prev curf 1 hs2 (hA hgt)
        rwa [hlen] at this
      · rw [if_neg hgt]
        have := mode_loop_inv s hs xs (p ++ [prev]) x mode maxf 1 hs2 (hB hgt)
        rwa [hlen] at this

theorem modeInv_result {s : List Int} {last mode maxf curf : Int}
    (h : ModeInv s last mode maxf curf) :
    (if curf > maxf then last else mode) ∈ s ∧
      (∀ v ∈ s, s.count v ≤ s.count (if curf > maxf then last else mode) ∧
        (s.count v = s.count (if curf > maxf then last else mode) →
          (if curf > maxf then last else mode) ≤ v)) := by
  obtain ⟨h1, h2, h3, h4, h5, h6⟩ := h
  have hpos : 1 ≤ s.count last := List.count_pos_iff.mpr h2
  by_cases hgt : curf > maxf
  · rw [if_pos hgt]
    refine ⟨h2, fun v hv => ?_⟩
    by_cases hvl : v = last
    · subst hvl
      exact ⟨le_refl _, fun _ => le_refl _⟩
    · have := (h5 v hv hvl).1
      exact ⟨by omega, fun e => by omega⟩
  · rw [if_neg hgt]
    refine ⟨h3, fun v hv => ?_⟩
    rcases h6 with ⟨ha, hb⟩ | ⟨ha, hb⟩
    · by_cases hvl : v = last
      · subst hvl
        exact ⟨by omega, fun _ => h4 mode h3⟩
      · obtain ⟨hc, hd⟩ := h5 v hv hvl
        exact ⟨by omega, fun e => hd (by omega)⟩
    · subst ha
      by_cases hvl : v = mode
      · subst hvl
        exact ⟨le_refl _, fun _ => le_refl _⟩
      · obtain ⟨hc, hd⟩ := h5 v hv hvl
        exact ⟨by omega, fun e => hd (by omega)⟩


theorem calculate_mode_correct {qsort : List Int → (Int → Int → Int) → List Int}
    (hq : QsortSpec qsort) (data : List Int) (hne : data ≠ []) (hr : NoOverflow data) :
    calculate_mode qsort data data.length ∈ data ∧
      ∀ v ∈ data, data.count v ≤ data.count (calculate_mode qsort data data.length) ∧
        (data.count v = data.count (calculate_mode qsort data data.length) →
          calculate_mode qsort data data.length ≤ v) := by
  obtain ⟨hperm, hsorted⟩ := qsort_sorted hq data hr
  have htake : data.take ((data.length : Int)).toNat = data := by simp
  unfold calculate_mode
  simp only [htake]
  generalize hsdef : qsort data compare_ints = s at hperm hsorted
  have hlen : s.length = data.length := hperm.length_eq
  cases hs : s with
  | nil =>
    rw [hs] at hlen
    exact absurd (List.length_eq_zero.mp hlen.symm) hne
  | cons x rest =>
    have hs1 : s = ([] ++ [x]) ++ rest := by simp [hs]
    have hinit : ModeInv ([] ++ [x]) x x 1 1 := by
      refine ⟨by simp, by simp, by simp, by simp, by simp, Or.inr ⟨rfl, rfl⟩⟩
    obtain ⟨last, hlast, hinv⟩ := mode_loop_inv s hsorted rest [] x x 1 1 hs1 hinit
    have hn : ((data.length : Int) - 1).toNat = rest.length := by
      rw [← hlen, hs]
      simp
    have hn2 : s.length - 1 = rest.length := by simp [hs]
    have hx0 : s.getD 0 0 = x := by simp [hs]
    rw [← hs, hn, hx0]
    rw [hn2] at hlast
    simp only [List.length_nil, zero_add] at hinv
    rw [hlast]
    obtain ⟨hr1, hr2⟩ := modeInv_result hinv
    refine ⟨hperm.subset hr1, fun v hv => ?_⟩
    have := hr2 v (hperm.symm.subset hv)
    simpa only [hperm.count_eq] using this

/-- On the arrays on which `compare_ints` does not overflow, and for a `qsort`
that meets its contract, `calculate_mode` returns a value of the array whose
number of occurrences is the highest, and it is the least of the values with
that number of occurrences; on `[1,1,2,3,3,3]` it returns 3. -/
theorem calculate_mode_in_range (qsort : List Int → (Int → Int → Int) → List Int)
    (hq : QsortSpec qsort) (data : List Int) (hne : data ≠ []) (hr : NoOverflow data) :
    (calculate_mode qsort data data.length ∈ data ∧
      (∀ v, data.count v ≤ data.count (calculate_mode qsort data data.length)) ∧
      (∀ v ∈ data, data.count v = data.count (calculate_mode qsort data data.length) →
        calculate_mode qsort data data.length ≤ v)) ∧
      calculate_mode qsort [1, 1, 2, 3, 3, 3] 6 = 3 := by
  obtain ⟨hm, hc⟩ := calculate_mode_correct hq data hne hr
  refine ⟨⟨hm, fun v => ?_, fun v hv => (hc v hv).2⟩, ?_⟩
  · by_cases hv : v ∈ data
    · exact (hc v hv).1
    · rw [List.count_eq_zero_of_not_mem hv]
      exact Nat.zero_le _
  · have h : calculate_mode qsort [1, 1, 2, 3, 3, 3] 6 ∈ ([1, 1, 2, 3, 3, 3] : List Int) ∧
        ∀ v ∈ ([1, 1, 2, 3, 3, 3] : List Int),
          ([1, 1, 2, 3, 3, 3] : List Int).count v ≤
              ([1, 1, 2, 3, 3, 3] : List Int).count
                (calculate_mode qsort [1, 1, 2, 3, 3, 3] 6) ∧
            (([1, 1, 2, 3, 3, 3] : List Int).count v =
                ([1, 1, 2, 3, 3, 3] : List Int).count
                  (calculate_mode qsort [1, 1, 2, 3, 3, 3] 6) →
              calculate_mode qsort [1, 1, 2, 3, 3, 3] 6 ≤ v) :=
      calculate_mode_correct hq [1, 1, 2, 3, 3, 3] (by simp) (by decide)
    obtain ⟨h1, h2⟩ := h
    have h3 := (h2 3 (by simp)).1
    generalize calculate_mode qsort [1, 1, 2, 3, 3, 3] 6 = r at h1 h3
    simp only [List.mem_cons, List.mem_singleton, List.not_mem_nil, or_false] at h1
    rcases h1 with rfl | rfl | rfl | rfl | rfl | rfl
    · exact absurd h3 (by decide)
    · exact absurd h3 (by decide)
    · exact absurd h3 (by decide)
    · rfl
    · rfl
    · rfl

/-- C6: the `int` subtraction of `compare_ints` overflows on values that lie
more than `2^31 - 1` apart and then orders them wrongly (2147483647 before -2,
and both 2147483647 before -1 and -1 before 2147483647), so the array handed to
the scan of `calculate_mode` is not sorted: on `[2147483647, -1, -1, 2147483647,
2147483647]` the sort leaves the array as it is and `calculate_mode` returns
-1, which occurs twice, although 2147483647 occurs three times; on
`[2147483647, -2]` it returns 2147483647, although -2 comes first in ascending
order. -/
theorem calculate_mode_comparator_overflow :
    compare_ints 2147483647 (-1) < 0 ∧ compare_ints (-1) 2147483647 < 0 ∧
      compare_ints 2147483647 (-2) < 0 ∧ 0 < compare_ints (-2) 2147483647 ∧
      demo_qsort [2147483647, -1, -1, 2147483647, 2147483647] compare_ints =
        [2147483647, -1, -1, 2147483647, 2147483647] ∧
      calculate_mode demo_qsort [2147483647, -1, -1, 2147483647, 2147483647] 5 = -1 ∧
      ([2147483647, -1, -1, 2147483647, 2147483647] : List Int).count (-1) = 2 ∧
      ([2147483647, -1, -1, 2147483647, 2147483647] : List Int).count 2147483647 = 3 ∧
      demo_qsort [2147483647, -2] compare_ints = [2147483647, -2] ∧
      calculate_mode demo_qsort [2147483647, -2] 2 = 2147483647 := by
  decide

/-! ## Median -/

theorem qsort_eq_of_sorted {qsort : List Int → (Int → Int → Int) → List Int}
    (hq : QsortSpec qsort) {data s : List Int} (hr : NoOverflow data) (hperm : s.Perm data)
    (hsorted : s.Pairwise (fun a b => a ≤ b)) : qsort data compare_ints = s := by
  obtain ⟨h1, h2⟩ := qsort_sorted hq data hr
  exact List.eq_of_perm_of_sorted (h1.trans hperm.symm) h2 hsorted

/-- On the arrays on which `compare_ints` does not overflow, and for a `qsort`
that meets its contract, with `s` the array sorted ascending and `n` its
length, `calculate_median` returns `s[n/2]` when `n` is odd and
`(s[n/2 - 1] + s[n/2]) / 2` when `n` is even and that sum fits in an `int`; it
returns 5/2 on `[1,2,3,4]` and 2 on `[1,2,3]`. -/
theorem calculate_median_in_range {F : Type} [Field F]
    (qsort : List Int → (Int → Int → Int) → List Int) (hq : QsortSpec qsort)
    (data s : List Int) (hne : data ≠ []) (hr : NoOverflow data) (hperm : s.Perm data)
    (hsorted : s.Pairwise (fun a b => a ≤ b)) :
    ((data.length % 2 = 1 →
        (calculate_median qsort data data.length : F) = ((s.getD (data.length / 2) 0 : Int) : F)) ∧
      (data.length % 2 = 0 →
        -2147483648 ≤ s.getD (data.length / 2 - 1) 0 + s.getD (data.length / 2) 0 →
        s.getD (data.length / 2 - 1) 0 + s.getD (data.length / 2) 0 ≤ 2147483647 →
        (calculate_median qsort data data.length : F) =
          ((s.getD (data.length / 2 - 1) 0 + s.getD (data.length / 2) 0 : Int) : F) / 2)) ∧
      (calculate_median qsort [1, 2, 3, 4] 4 : F) = 5 / 2 ∧
      (calculate_median qsort [1, 2, 3] 3 : F) = 2 := by
  have hpos : 0 < data.length := List.length_pos.mpr hne
  have hs := qsort_eq_of_sorted hq hr hperm hsorted
  have e1 : ((data.length : Int) / 2).toNat = data.length / 2 := by omega
  have e2 : ((data.length : Int) / 2 - 1).toNat = data.length / 2 - 1 := by omega
  refine ⟨⟨fun hodd => ?_, fun heven hlo hhi => ?_⟩, ?_, ?_⟩
  · have : ¬ (data.length : Int) % 2 = 0 := by omega
    simp only [calculate_median, Int.toNat_ofNat, List.take_length, hs, this, if_false, e1]
  · have : (data.length : Int) % 2 = 0 := by omega
    simp only [calculate_median, Int.toNat_ofNat, List.take_length, hs, this, if_true, e1, e2,
      wrap_int_eq _ ⟨hlo, hhi⟩]
  · have h4 : qsort [1, 2, 3, 4] compare_ints = [1, 2, 3, 4] :=
      qsort_eq_of_sorted hq (by decide) (List.Perm.refl _) (by decide)
    have e : List.take (Int.toNat 4) ([1, 2, 3, 4] : List Int) = [1, 2, 3, 4] := by decide
    have i1 : (4 : Int) % 2 = 0 := by decide
    have i2 : wrap_int (([1, 2, 3, 4] : List Int).getD ((4 : Int) / 2 - 1).toNat 0 +
        ([1, 2, 3, 4] : List Int).getD ((4 : Int) / 2).toNat 0) = 5 := by decide
    simp only [calculate_median, e, h4, i1, i2, if_true]
    norm_num
  · have h3 : qsort [1, 2, 3] compare_ints = [1, 2, 3] :=
      qsort_eq_of_sorted hq (by decide) (List.Perm.refl _) (by decide)
    have e : List.take (Int.toNat 3) ([1, 2, 3] : List Int) = [1, 2, 3] := by decide
    have i1 : ¬ (3 : Int) % 2 = 0 := by decide
    have i2 : ([1, 2, 3] : List Int).getD ((3 : Int) / 2).toNat 0 = 2 := by decide
    simp only [calculate_median, e, h3, i1, i2, if_false]
    norm_num

/-- C7: the `int` subtraction of `compare_ints` overflows on 2147483647 and -2
and orders 2147483647 before -2, so on `[2147483647, -2, 0]` the sort leaves
the array as it is and `calculate_median` returns the middle element -2 of the
unsorted array; the array sorted ascending is `[-2, 0, 2147483647]`, whose
middle element is 0. -/
theorem calculate_median_comparator_overflow :
    compare_ints 2147483647 (-2) < 0 ∧ compare_ints (-2) 0 < 0 ∧
      compare_ints 0 2147483647 < 0 ∧
      demo_qsort [2147483647, -2, 0] compare_ints = [2147483647, -2, 0] ∧
      (calculate_median demo_qsort [2147483647, -2, 0] 3 : ℚ) = -2 ∧
      ([-2, 0, 2147483647] : List Int).Perm [2147483647, -2, 0] ∧
      ([-2, 0, 2147483647] : List Int).Pairwise (fun a b => a ≤ b) ∧
      ([-2, 0, 2147483647] : List Int).getD (3 / 2) 0 = 0 := by
  decide!

/-! ## Standard deviation -/

theorem sum_squared_diff_loop_append {F : Type} [Field F] (data : List Int) (mean : F) :
    ∀ (rest pre : List Int) (acc : F), data = pre ++ rest →
      sum_squared_diff_loop data mean rest.length pre.length acc =
        acc + (rest.map (fun x : Int => ((x : F) - mean) ^ 2)).sum
  | [], pre, acc, _ => by simp [sum_squared_diff_loop]
  | x :: xs, pre, acc, h => by
    have hget : data.getD pre.length 0 = x := by
      rw [h]
      exact getD_append_cons pre x xs
    have ih := sum_squared_diff_loop_append data mean xs (pre ++ [x])
      (acc + ((x : F) - mean) * ((x : F) - mean)) (by simp [h])
    simp only [List.length_append, List.length_singleton] at ih
    simp only [List.length_cons, sum_squared_diff_loop, hget, ih, List.map_cons, List.sum_cons]
    ring

theorem calculate_std_dev_eq {F : Type} [Field F] (sqrt : F → F) (data : List Int) (mean : F) :
    calculate_std_dev sqrt data data.length mean =
      sqrt ((data.map (fun x : Int => ((x : F) - mean) ^ 2)).sum / (data.length : F)) := by
  have h := sum_squared_diff_loop_append data mean data [] 0 rfl
  simp only [List.length_nil, zero_add] at h
  simp only [calculate_std_dev, Int.toNat_ofNat, h, Int.cast_natCast]

/-! ## Double arithmetic -/

theorem bit_length_loop_spec :
    ∀ (fuel n : Nat), n ≤ fuel → n ≠ 0 →
      2 ^ bit_length_loop fuel n ≤ n ∧ n < 2 ^ (bit_length_loop fuel n + 1)
  | 0, n, h, hn => absurd (Nat.le_zero.mp h) hn
  | fuel + 1, n, h, hn => by
    rw [bit_length_loop]
    split
    · have : n = 1 := by omega
      subst this
      exact ⟨by decide, by decide⟩
    · obtain ⟨h1, h2⟩ := bit_length_loop_spec fuel (n / 2) (by omega) (by omega)
      simp only [pow_succ] at h2 ⊢
      omega

theorem leading_bit_spec (n : Nat) (hn : n ≠ 0) :
    2 ^ leading_bit n ≤ n ∧ n < 2 ^ (leading_bit n + 1) :=
  bit_length_loop_spec n n (le_refl n) hn

theorem pow2_natCast (k : Nat) : pow2 (k : Int) = ((2 ^ k : Nat) : ℚ) := by
  simp [pow2]

theorem pow2_neg_natCast (k : Nat) : pow2 (-(k : Int)) = 1 / ((2 ^ k : Nat) : ℚ) := by
  cases k with
  | zero => simp [pow2]
  | succ k =>
    have h : ¬ (0 : Int) ≤ -((k + 1 : Nat) : Int) := by omega
    simp only [pow2, h, if_false, neg_neg, Int.toNat_ofNat]

theorem pow2_nonneg (e : Int) : 0 ≤ pow2 e := by
  unfold pow2
  split
  · exact Nat.cast_nonneg _
  · exact div_nonneg zero_le_one (Nat.cast_nonneg _)

theorem round_half_even_natCast (k : Nat) : round_half_even (k : ℚ) = (k : Int) := by
  have hf : Rat.floor (k : ℚ) = (k : Int) := by
    show ⌊(k : ℚ)⌋ = (k : Int)
    exact Int.floor_natCast k
  unfold round_half_even
  simp only [hf]
  norm_num


theorem round_double_natCast (n : Nat) (hn : n < 2 ^ 53) :
    round_double (n : ℚ) = Double.finite (n : ℚ) := by
  by_cases h0 : n = 0
  · subst h0
    simp [round_double]
  have hq : (n : ℚ) ≠ 0 := Nat.cast_ne_zero.mpr h0
  have hpos : (0 : ℚ) < (n : ℚ) := by exact_mod_cast Nat.pos_of_ne_zero h0
  obtain ⟨h1, h2⟩ := leading_bit_spec n h0
  have he : leading_bit n ≤ 52 := by
    by_contra hc
    have : 2 ^ 53 ≤ 2 ^ leading_bit n := Nat.pow_le_pow_right (by decide) (by omega)
    omega
  have hlog : ilog2 (n : ℚ) = (leading_bit n : Int) := by
    have hone : leading_bit 1 = 0 := by decide
    have hlt : ¬ (n : ℚ) < ((2 ^ leading_bit n : Nat) : ℚ) := by
      rw [not_lt]
      exact_mod_cast h1
    simp only [ilog2, Rat.num_natCast, Rat.den_natCast, Int.natAbs_ofNat, hone, Nat.cast_zero,
      sub_zero, pow2_natCast, hlt, if_false]
  have hmax : max ((leading_bit n : Int)) (-1022) = (leading_bit n : Int) := by omega
  have hulp : pow2 ((leading_bit n : Int) - 52) = 1 / ((2 ^ (52 - leading_bit n) : Nat) : ℚ) := by
    have : ((leading_bit n : Int) - 52) = -((52 - leading_bit n : Nat) : Int) := by omega
    rw [this, pow2_neg_natCast]
  have hk : (0 : ℚ) < ((2 ^ (52 - leading_bit n) : Nat) : ℚ) := by
    exact_mod_cast Nat.pos_pow_of_pos _ (by decide)
  have hdiv : (n : ℚ) / (1 / ((2 ^ (52 - leading_bit n) : Nat) : ℚ)) =
      ((n * 2 ^ (52 - leading_bit n) : Nat) : ℚ) := by
    push_cast
    field_simp
  have hback : (((n * 2 ^ (52 - leading_bit n) : Nat) : Int) : ℚ) *
      (1 / ((2 ^ (52 - leading_bit n) : Nat) : ℚ)) = (n : ℚ) := by
    push_cast
    field_simp
  have hbig : ¬ pow2 1024 ≤ (n : ℚ) := by
    rw [not_le]
    have : pow2 1024 = ((2 ^ 1024 : Nat) : ℚ) := pow2_natCast 1024
    rw [this]
    have : n < 2 ^ 1024 := lt_trans hn (by norm_num)
    exact_mod_cast this
  have hneg : ¬ (n : ℚ) < 0 := not_lt.mpr (le_of_lt hpos)
  simp only [round_double, hq, if_false, abs_of_pos hpos, hlog, hmax, hulp, hdiv,
    round_half_even_natCast, hback, hbig, hneg]

theorem round_double_neg (q : ℚ) : round_double (-q) = fneg (round_double q) := by
  by_cases h0 : q = 0
  · subst h0
    simp [round_double, fneg]
  have hn0 : -q ≠ 0 := neg_ne_zero.mpr h0
  rcases lt_or_gt_of_ne h0 with hneg | hpos
  · have h1 : ¬ -q < 0 := by
      rw [not_lt]
      exact le_of_lt (neg_pos.mpr hneg)
    simp only [round_double, h0, hn0, if_false, abs_neg, hneg, h1, if_true]
    split <;> simp [fneg]
  · have h1 : -q < 0 := neg_neg_of_pos hpos
    have h2 : ¬ q < 0 := not_lt.mpr (le_of_lt hpos)
    simp only [round_double, h0, hn0, if_false, abs_neg, h1, h2, if_true]
    split <;> simp [fneg]

theorem of_int_exact (i : Int) (h : -2 ^ 53 < i ∧ i < 2 ^ 53) :
    of_int i = Double.finite (i : ℚ) := by
  unfold of_int
  rcases le_or_lt 0 i with hi | hi
  · obtain ⟨n, rfl⟩ := Int.eq_ofNat_of_zero_le hi
    have hn : n < 2 ^ 53 := by omega
    exact_mod_cast round_double_natCast n hn
  · obtain ⟨n, rfl⟩ := Int.exists_eq_neg_ofNat (le_of_lt hi)
    have hn : n < 2 ^ 53 := by omega
    have h1 : ((-(n : Int) : Int) : ℚ) = -((n : ℚ)) := by push_cast; rfl
    rw [h1, round_double_neg, round_double_natCast n hn]
    rfl

theorem isqrt_bits_spec (n : Nat) :
    ∀ (b r : Nat), r * r ≤ n → n < (r + 2 ^ b) * (r + 2 ^ b) →
      isqrt_bits n b r * isqrt_bits n b r ≤ n ∧
        n < (isqrt_bits n b r + 1) * (isqrt_bits n b r + 1)
  | 0, r, h1, h2 => by
    simpa [isqrt_bits] using And.intro h1 h2
  | b + 1, r, h1, h2 => by
    rw [isqrt_bits]
    cases hc : decide ((r + 2 ^ b) * (r + 2 ^ b) ≤ n) with
    | true =>
      have hle : (r + 2 ^ b) * (r + 2 ^ b) ≤ n := of_decide_eq_true hc
      refine isqrt_bits_spec n b (r + 2 ^ b) hle ?_
      have : r + 2 ^ b + 2 ^ b = r + 2 ^ (b + 1) := by rw [pow_succ]; omega
      rw [this]
      exact h2
    | false =>
      have hlt : ¬ (r + 2 ^ b) * (r + 2 ^ b) ≤ n := of_decide_eq_false hc
      exact isqrt_bits_spec n b r h1 (not_le.mp hlt)

/-- The integer square root is the largest `r` with `r * r <= n`. -/
theorem isqrt_spec (n : Nat) : isqrt n * isqrt n ≤ n ∧ n < (isqrt n + 1) * (isqrt n + 1) := by
  unfold isqrt
  refine isqrt_bits_spec n _ 0 (Nat.zero_le _) ?_
  rw [Nat.zero_add, ← pow_add]
  by_cases h0 : n = 0
  · subst h0
    exact Nat.pos_pow_of_pos _ (by decide)
  · obtain ⟨_, h2⟩ := leading_bit_spec n h0
    refine lt_of_lt_of_le h2 (Nat.pow_le_pow_right (by decide) ?_)
    omega

theorem pow2_eq_zpow (e : Int) : pow2 e = (2 : ℚ) ^ e := by
  rcases le_or_lt 0 e with h | h
  · obtain ⟨k, rfl⟩ := Int.eq_ofNat_of_zero_le h
    rw [pow2_natCast]
    push_cast
    rw [zpow_natCast]
  · obtain ⟨k, rfl⟩ := Int.exists_eq_neg_ofNat (le_of_lt h)
    rw [pow2_neg_natCast]
    push_cast
    rw [zpow_neg, zpow_natCast, one_div]

/-- The exponent of a positive rational `a` is the `e` with
`2^e <= a < 2^(e+1)`. -/
theorem ilog2_spec (a : ℚ) (ha : 0 < a) : pow2 (ilog2 a) ≤ a ∧ a < pow2 (ilog2 a + 1) := by
  have hnum : 0 < a.num := Rat.num_pos.mpr ha
  have hn0 : a.num.natAbs ≠ 0 := by omega
  have hd0 : a.den ≠ 0 := a.den_nz
  obtain ⟨n1, n2⟩ := leading_bit_spec a.num.natAbs hn0
  obtain ⟨d1, d2⟩ := leading_bit_spec a.den hd0
  have hden : (0 : ℚ) < (a.den : ℚ) := by exact_mod_cast Nat.pos_of_ne_zero hd0
  have hnumq : ((a.num.natAbs : ℕ) : ℚ) = (a.num : ℚ) := by
    rw [← Int.cast_natCast, Int.natAbs_of_nonneg (le_of_lt hnum)]
  have hmul : a * (a.den : ℚ) = ((a.num.natAbs : ℕ) : ℚ) := by
    rw [hnumq]
    exact Rat.mul_den_eq_num a
  unfold ilog2
  simp only [pow2_eq_zpow]
  generalize leading_bit a.num.natAbs = ln at n1 n2
  generalize leading_bit a.den = ld at d1 d2
  generalize a.num.natAbs = N at n1 n2 hmul
  generalize a.den = D at d1 d2 hden hmul
  have n1q : ((2 : ℚ) ^ ln) ≤ (N : ℚ) := by exact_mod_cast n1
  have n2q : (N : ℚ) < (2 : ℚ) ^ (ln + 1) := by exact_mod_cast n2
  have d1q : ((2 : ℚ) ^ ld) ≤ (D : ℚ) := by exact_mod_cast d1
  have d2q : (D : ℚ) < (2 : ℚ) ^ (ld + 1) := by exact_mod_cast d2
  have two_ne : (2 : ℚ) ≠ 0 := by norm_num
  have hlow : (2 : ℚ) ^ ((ln : Int) - (ld : Int) - 1) ≤ a := by
    have e : (2 : ℚ) ^ ((ln : Int) - (ld : Int) - 1) * (2 : ℚ) ^ (ld + 1) = (2 : ℚ) ^ ln := by
      rw [← zpow_natCast, ← zpow_natCast, ← zpow_add₀ two_ne]
      congr 1
      push_cast
      ring
    have hp : (0 : ℚ) ≤ (2 : ℚ) ^ ((ln : Int) - (ld : Int) - 1) :=
      le_of_lt (zpow_pos (by norm_num) _)
    have h : (2 : ℚ) ^ ((ln : Int) - (ld : Int) - 1) * (D : ℚ) ≤ a * (D : ℚ) := by
      calc (2 : ℚ) ^ ((ln : Int) - (ld : Int) - 1) * (D : ℚ)
          ≤ (2 : ℚ) ^ ((ln : Int) - (ld : Int) - 1) * (2 : ℚ) ^ (ld + 1) :=
            mul_le_mul_of_nonneg_left (le_of_lt d2q) hp
        _ = (2 : ℚ) ^ ln := e
        _ ≤ (N : ℚ) := n1q
        _ = a * (D : ℚ) := hmul.symm
    exact le_of_mul_le_mul_right h hden
  have hhigh : a < (2 : ℚ) ^ ((ln : Int) - (ld : Int) + 1) := by
    have e : (2 : ℚ) ^ ((ln : Int) - (ld : Int) + 1) * (2 : ℚ) ^ ld = (2 : ℚ) ^ (ln + 1) := by
      rw [← zpow_natCast, ← zpow_natCast, ← zpow_add₀ two_ne]
      congr 1
      push_cast
      ring
    have hp : (0 : ℚ) < (2 : ℚ) ^ ((ln : Int) - (ld : Int) + 1) := zpow_pos (by norm_num) _
    have h : a * (D : ℚ) < (2 : ℚ) ^ ((ln : Int) - (ld : Int) + 1) * (D : ℚ) := by
      calc a * (D : ℚ) = (N : ℚ) := hmul
        _ < (2 : ℚ) ^ (ln + 1) := n2q
        _ = (2 : ℚ) ^ ((ln : Int) - (ld : Int) + 1) * (2 : ℚ) ^ ld := e.symm
        _ ≤ (2 : ℚ) ^ ((ln : Int) - (ld : Int) + 1) * (D : ℚ) :=
          mul_le_mul_of_nonneg_left d1q (le_of_lt hp)
    exact lt_of_mul_lt_mul_right h (le_of_lt hden)
  split
  · rename_i hlt
    refine ⟨hlow, ?_⟩
    rw [sub_add_cancel]
    exact hlt
  · rename_i hge
    exact ⟨not_lt.mp hge, hhigh⟩

theorem pow2_pos (e : Int) : 0 < pow2 e := by
  rw [pow2_eq_zpow]
  exact zpow_pos (by norm_num) e

/-- Rounding to an integer moves a value by at most one half. -/
theorem round_half_even_spec (m : ℚ) : |(round_half_even m : ℚ) - m| ≤ 1 / 2 := by
  have h1 : ((Rat.floor m : Int) : ℚ) ≤ m := Int.floor_le m
  have h2 : m < ((Rat.floor m : Int) : ℚ) + 1 := Int.lt_floor_add_one m
  unfold round_half_even
  simp only
  split_ifs with ha hb hc
  · rw [abs_le]
    constructor <;> linarith
  · rw [abs_le]
    push_cast
    constructor <;> linarith
  · rw [abs_le]
    constructor <;> linarith
  · rw [abs_le]
    push_cast
    constructor <;> linarith

/-- A finite result of `round_double` is a multiple of the spacing
`2^(e - 52)` of the doubles at the exponent `e` of `q` (at least -1022), and it
lies within half of that spacing of `q`. -/
theorem round_double_spec (q r : ℚ) (hq : q ≠ 0) (h : round_double q = Double.finite r) :
    (∃ n : Int, r = (n : ℚ) * pow2 (max (ilog2 |q|) (-1022) - 52)) ∧
      |r - q| ≤ pow2 (max (ilog2 |q|) (-1022) - 52) / 2 := by
  have hu := pow2_pos (max (ilog2 |q|) (-1022) - 52)
  have hs := round_half_even_spec (|q| / pow2 (max (ilog2 |q|) (-1022) - 52))
  simp only [round_double, hq, if_false] at h
  generalize pow2 (max (ilog2 |q|) (-1022) - 52) = u at hu hs h ⊢
  generalize round_half_even (|q| / u) = n at hs h
  have habs : abs ((n : ℚ) * u - abs q) ≤ u / 2 := by
    have e : (n : ℚ) * u - abs q = ((n : ℚ) - abs q / u) * u := by
      field_simp
    rw [e, abs_mul, abs_of_pos hu]
    calc abs ((n : ℚ) - abs q / u) * u ≤ 1 / 2 * u :=
          mul_le_mul_of_nonneg_right hs (le_of_lt hu)
      _ = u / 2 := by ring
  split_ifs at h with hbig hneg
  · simp only [Double.finite.injEq] at h
    refine ⟨⟨-n, by rw [← h]; push_cast; ring⟩, ?_⟩
    rw [← h]
    have e : -((n : ℚ) * u) - q = -((n : ℚ) * u - abs q) := by
      rw [abs_of_neg hneg]
      ring
    rw [e, abs_neg]
    exact habs
  · simp only [Double.finite.injEq] at h
    refine ⟨⟨n, by rw [← h]⟩, ?_⟩
    rw [← h]
    have e : (n : ℚ) * u - q = (n : ℚ) * u - abs q := by
      rw [abs_of_nonneg (not_lt.mp hneg)]
    rw [e]
    exact habs

/-- The result of `sqrt_round` is a multiple of the spacing `u` of the doubles
at the exponent of the root, and `q` lies between the squares of the two
midpoints next to it: the result is a multiple of `u` nearest to the root of
`q`. -/
theorem sqrt_round_spec (q : ℚ) (hq : 0 < q) :
    (∃ n : Nat, sqrt_round q = (n : ℚ) * pow2 (ilog2 q / 2 - 52)) ∧
      q ≤ (sqrt_round q + pow2 (ilog2 q / 2 - 52) / 2) ^ 2 ∧
      (sqrt_round q ≤ pow2 (ilog2 q / 2 - 52) / 2 ∨
        (sqrt_round q - pow2 (ilog2 q / 2 - 52) / 2) ^ 2 ≤ q) := by
  have hu := pow2_pos (ilog2 q / 2 - 52)
  unfold sqrt_round
  simp only
  generalize pow2 (ilog2 q / 2 - 52) = u at hu ⊢
  have ht : 0 < q / (u * u) := div_pos hq (mul_pos hu hu)
  have hqt : q = q / (u * u) * u ^ 2 := by
    rw [pow_two, div_mul_cancel₀ q (ne_of_gt (mul_pos hu hu))]
  generalize q / (u * u) = t at ht hqt ⊢
  have hfl : 0 ≤ Rat.floor t := Int.floor_nonneg.mpr (le_of_lt ht)
  obtain ⟨s1, s2⟩ := isqrt_spec (Rat.floor t).toNat
  have hF1 : (((Rat.floor t).toNat : Nat) : ℚ) ≤ t := by
    have : (((Rat.floor t).toNat : Nat) : Int) = Rat.floor t := Int.toNat_of_nonneg hfl
    have h1 : ((Rat.floor t : Int) : ℚ) ≤ t := Int.floor_le t
    rw [← this] at h1
    exact_mod_cast h1
  have hF2 : t < (((Rat.floor t).toNat : Nat) : ℚ) + 1 := by
    have : (((Rat.floor t).toNat : Nat) : Int) = Rat.floor t := Int.toNat_of_nonneg hfl
    have h1 : t < ((Rat.floor t : Int) : ℚ) + 1 := Int.lt_floor_add_one t
    rw [← this] at h1
    exact_mod_cast h1
  generalize (Rat.floor t).toNat = F at s1 s2 hF1 hF2
  generalize isqrt F = f at s1 s2
  have s1q : (f : ℚ) * f ≤ t := le_trans (by exact_mod_cast s1) hF1
  have s2q : t < ((f : ℚ) + 1) * (f + 1) := by
    have : F + 1 ≤ (f + 1) * (f + 1) := s2
    have h3 : ((F : ℚ) + 1) ≤ ((f : ℚ) + 1) * (f + 1) := by exact_mod_cast this
    exact lt_of_lt_of_le hF2 h3
  have hf0 : (0 : ℚ) ≤ (f : ℚ) := Nat.cast_nonneg f
  have key : ∀ n : Nat, t ≤ ((n : ℚ) + 1 / 2) ^ 2 →
      ((n : ℚ) ≤ 1 / 2 ∨ ((n : ℚ) - 1 / 2) ^ 2 ≤ t) →
      (∃ k : Nat, (n : ℚ) * u = (k : ℚ) * u) ∧ q ≤ ((n : ℚ) * u + u / 2) ^ 2 ∧
        ((n : ℚ) * u ≤ u / 2 ∨ ((n : ℚ) * u - u / 2) ^ 2 ≤ q) := by
    intro n h1 h2
    refine ⟨⟨n, rfl⟩, ?_, ?_⟩
    · rw [hqt]
      have e : ((n : ℚ) * u + u / 2) ^ 2 = ((n : ℚ) + 1 / 2) ^ 2 * u ^ 2 := by ring
      rw [e]
      exact mul_le_mul_of_nonneg_right h1 (sq_nonneg u)
    · rcases h2 with h2 | h2
      · left
        calc (n : ℚ) * u ≤ 1 / 2 * u := mul_le_mul_of_nonneg_right h2 (le_of_lt hu)
          _ = u / 2 := by ring
      · right
        rw [hqt]
        have e : ((n : ℚ) * u - u / 2) ^ 2 = ((n : ℚ) - 1 / 2) ^ 2 * u ^ 2 := by ring
        rw [e]
        exact mul_le_mul_of_nonneg_right h2 (sq_nonneg u)
  have lowf : (f : ℚ) ≤ 1 / 2 ∨ ((f : ℚ) - 1 / 2) ^ 2 ≤ t := by
    by_cases hf : (f : ℚ) ≤ 1 / 2
    · exact Or.inl hf
    · right
      push_neg at hf
      nlinarith
  have highf1 : t ≤ (((f + 1 : Nat) : ℚ) + 1 / 2) ^ 2 := by
    push_cast
    nlinarith
  split_ifs with ha hb hc
  · exact key f (by nlinarith) lowf
  · exact key (f + 1) highf1 (Or.inr (by push_cast; nlinarith))
  · exact key f (by nlinarith [not_lt.mp hb]) lowf
  · exact key (f + 1) highf1 (Or.inr (by push_cast; nlinarith [not_lt.mp ha]))

theorem pow2_lt_iff (a b : Int) : pow2 a < pow2 b ↔ a < b := by
  rw [pow2_eq_zpow, pow2_eq_zpow]
  exact zpow_lt_zpow_iff_right₀ (by norm_num)

theorem pow2_add (a b : Int) : pow2 (a + b) = pow2 a * pow2 b := by
  rw [pow2_eq_zpow, pow2_eq_zpow, pow2_eq_zpow]
  exact zpow_add₀ (by norm_num) a b

theorem ilog2_sq (r : ℚ) (hr : 0 < r) : ilog2 (r * r) / 2 = ilog2 r := by
  obtain ⟨a1, a2⟩ := ilog2_spec r hr
  obtain ⟨b1, b2⟩ := ilog2_spec (r * r) (mul_pos hr hr)
  have hp := pow2_pos (ilog2 r)
  have c1 : pow2 (ilog2 r + ilog2 r) ≤ r * r := by
    rw [pow2_add]
    exact mul_le_mul a1 a1 (le_of_lt hp) (le_of_lt hr)
  have c2 : r * r < pow2 (ilog2 r + 1 + (ilog2 r + 1)) := by
    rw [pow2_add]
    exact mul_lt_mul'' a2 a2 (le_of_lt hr) (le_of_lt hr)
  have d1 : ilog2 r + ilog2 r < ilog2 (r * r) + 1 :=
    (pow2_lt_iff _ _).mp (lt_of_le_of_lt c1 b2)
  have d2 : ilog2 (r * r) < ilog2 r + 1 + (ilog2 r + 1) :=
    (pow2_lt_iff _ _).mp (lt_of_le_of_lt b1 c2)
  omega

/-- The square root of the square of a positive double is that double. -/
theorem fsqrt_square (r : ℚ) (hr : 0 < r) (hrep : round_double r = Double.finite r) :
    fsqrt (Double.finite (r * r)) = Double.finite r := by
  have hq : 0 < r * r := mul_pos hr hr
  have h1 : ¬ r * r < 0 := not_lt.mpr (le_of_lt hq)
  have h2 : r * r ≠ 0 := ne_of_gt hq
  simp only [fsqrt, h1, h2, if_false]
  congr 1
  obtain ⟨⟨n, hn⟩, s1, s2⟩ := sqrt_round_spec (r * r) hq
  rw [ilog2_sq r hr] at hn s1 s2
  obtain ⟨⟨m, hm⟩, _⟩ := round_double_spec r r (ne_of_gt hr) hrep
  rw [abs_of_pos hr] at hm
  have hu := pow2_pos (ilog2 r - 52)
  have hdiv : ∃ k : Int, r = (k : ℚ) * pow2 (ilog2 r - 52) := by
    rcases le_or_lt (-1022) (ilog2 r) with hle | hlt
    · rw [max_eq_left hle] at hm
      exact ⟨m, hm⟩
    · rw [max_eq_right (le_of_lt hlt)] at hm
      obtain ⟨d, hd⟩ := Int.eq_ofNat_of_zero_le (show (0 : Int) ≤ -1022 - ilog2 r by omega)
      refine ⟨m * 2 ^ d, ?_⟩
      have e : pow2 (-1022 - 52) = pow2 (d : Int) * pow2 (ilog2 r - 52) := by
        rw [← pow2_add]
        congr 1
        omega
      refine hm.trans ?_
      rw [e, pow2_natCast]
      push_cast
      ring
  obtain ⟨k, hk⟩ := hdiv
  generalize pow2 (ilog2 r - 52) = u at hu hn s1 s2 hk
  generalize sqrt_round (r * r) = s at hn s1 s2 ⊢
  have hs0 : 0 ≤ s := by
    rw [hn]
    exact mul_nonneg (Nat.cast_nonneg n) (le_of_lt hu)
  have u1 : r ≤ s + u / 2 := by
    have hsq : r ^ 2 ≤ (s + u / 2) ^ 2 := by
      rw [pow_two r]
      exact s1
    have hnn : 0 ≤ s + u / 2 := by linarith
    exact (abs_le_of_sq_le_sq' hsq hnn).2
  have u2 : s - u / 2 ≤ r := by
    rcases s2 with s2 | s2
    · linarith
    · by_cases hneg : s - u / 2 ≤ 0
      · linarith
      · push_neg at hneg
        have hsq : (s - u / 2) ^ 2 ≤ r ^ 2 := by
          rw [pow_two r]
          exact s2
        exact (abs_le_of_sq_le_sq' hsq (le_of_lt hr)).2
  have e1 : ((n : ℚ) - (k : ℚ)) * u ≤ u / 2 := by
    have : (n : ℚ) * u - (k : ℚ) * u ≤ u / 2 := by rw [← hn, ← hk]; linarith
    linarith
  have e2 : -(u / 2) ≤ ((n : ℚ) - (k : ℚ)) * u := by
    have : -(u / 2) ≤ (n : ℚ) * u - (k : ℚ) * u := by rw [← hn, ← hk]; linarith
    linarith
  have f1 : ((n : ℚ) - (k : ℚ)) ≤ 1 / 2 := by
    by_contra hc
    push_neg at hc
    have := mul_lt_mul_of_pos_right hc hu
    linarith
  have f2 : -(1 / 2 : ℚ) ≤ ((n : ℚ) - (k : ℚ)) := by
    by_contra hc
    push_neg at hc
    have := mul_lt_mul_of_pos_right hc hu
    linarith
  have g : (n : Int) = k := by
    have g1 : ((n : Int) : ℚ) - (k : ℚ) < 1 := by push_cast; linarith
    have g2 : (-1 : ℚ) < ((n : Int) : ℚ) - (k : ℚ) := by push_cast; linarith
    have g3 : (n : Int) - k < 1 := by exact_mod_cast g1
    have g4 : -1 < (n : Int) - k := by exact_mod_cast g2
    omega
  rw [hn, hk, ← g]
  push_cast
  rfl

/-- Known values of double arithmetic, as a C program computes them: `0.1`,
`0.1 + 0.2`, `sqrt(2.0)`, `sqrt` of the least positive double, the two roundings
next to `DBL_MAX`, `DBL_MAX + DBL_MAX`, the ties `2^53 + 1` and `2^-1074 / 2`
(to even), `3 * 2^-1074 / 2`, and the invalid operations `inf - inf` and
`0 * inf`. -/
theorem double_known_values :
    round_double (1 / 10) = Double.finite (7205759403792794 / 2 ^ 56) ∧
      fadd (round_double (1 / 10)) (round_double (2 / 10)) =
        Double.finite (5404319552844596 / 2 ^ 54) ∧
      fsqrt (Double.finite 2) = Double.finite (6369051672525773 / 2 ^ 52) ∧
      fsqrt (Double.finite (1 / 2 ^ 1074)) = Double.finite (1 / 2 ^ 537) ∧
      round_double (2 ^ 1024 - 2 ^ 970 - 1) = Double.finite ((2 ^ 53 - 1) * 2 ^ 971) ∧
      round_double (2 ^ 1024 - 2 ^ 970) = Double.inf false ∧
      fadd (Double.finite ((2 ^ 53 - 1) * 2 ^ 971)) (Double.finite ((2 ^ 53 - 1) * 2 ^ 971)) =
        Double.inf false ∧
      fadd (Double.finite (2 ^ 53)) (Double.finite 1) = Double.finite (2 ^ 53) ∧
      fadd (Double.finite (2 ^ 53)) (Double.finite 3) = Double.finite (2 ^ 53 + 4) ∧
      fdiv (Double.finite (1 / 2 ^ 1074)) (Double.finite 2) = Double.finite 0 ∧
      fdiv (Double.finite (3 / 2 ^ 1074)) (Double.finite 2) = Double.finite (2 / 2 ^ 1074) ∧
      fsub (Double.inf false) (Double.inf false) = Double.nan ∧
      fmul (Double.finite 0) (Double.inf false) = Double.nan ∧
      fgt Double.nan (Double.finite 0) = false := by
  decide!

/-! ## Standard deviation on doubles -/

theorem sum_squared_diff_double_append (data : List Int) (mean : Double) :
    ∀ (rest pre : List Int) (acc : Double), data = pre ++ rest →
      sum_squared_diff_double data mean rest.length pre.length acc =
        rest.foldl (fun s x => fadd s (fmul (fsub (of_int x) mean) (fsub (of_int x) mean))) acc
  | [], _, _, _ => rfl
  | x :: xs, pre, acc, h => by
    have hget : data.getD pre.length 0 = x := by
      rw [h]
      exact getD_append_cons pre x xs
    have ih := sum_squared_diff_double_append data mean xs (pre ++ [x])
      (fadd acc (fmul (fsub (of_int x) mean) (fsub (of_int x) mean))) (by simp [h])
    simp only [List.length_append, List.length_singleton] at ih
    simp only [List.length_cons, sum_squared_diff_double, hget, ih, List.foldl_cons]

theorem calculate_std_dev_double_eq (data : List Int) (mean : Double) :
    calculate_std_dev_double data data.length mean =
      fsqrt (fdiv (squared_diff_sum mean data) (of_int data.length)) := by
  have h := sum_squared_diff_double_append data mean data [] (Double.finite 0) rfl
  simp only [List.length_nil] at h
  simp only [calculate_std_dev_double, Int.toNat_ofNat, h, squared_diff_sum]

theorem sqrt_round_nonneg (q : ℚ) : 0 ≤ sqrt_round q := by
  unfold sqrt_round
  exact mul_nonneg (Nat.cast_nonneg _) (pow2_nonneg _)

theorem fsqrt_not_negative (v : Double) : fgt (Double.finite 0) (fsqrt v) = false := by
  cases v with
  | finite a =>
    simp only [fsqrt]
    split_ifs
    · rfl
    · simp [fgt]
    · simp only [fgt, decide_eq_false_iff_not, not_lt]
      exact sqrt_round_nonneg a
  | inf n => cases n <;> rfl
  | nan => rfl

theorem fadd_finite (a b : ℚ) :
    fadd (Double.finite a) (Double.finite b) = round_double (a + b) := rfl

theorem fmul_finite (a b : ℚ) :
    fmul (Double.finite a) (Double.finite b) = round_double (a * b) := rfl

theorem fsub_finite (a b : ℚ) :
    fsub (Double.finite a) (Double.finite b) = round_double (a - b) := by
  simp only [fsub, fneg, fadd, sub_eq_add_neg]

theorem squared_diff_sum_exact (m : ℚ) :
    ∀ (data : List Int) (s : ℚ), (∀ x ∈ data, -2147483648 ≤ x ∧ x ≤ 2147483647) →
      exact_sum m data s = true →
      data.foldl (fun s x => fadd s (fmul (fsub (of_int x) (Double.finite m))
          (fsub (of_int x) (Double.finite m)))) (Double.finite s) =
        Double.finite (s + (data.map (fun x : Int => ((x : ℚ) - m) * ((x : ℚ) - m))).sum)
  | [], s, _, _ => by simp
  | x :: xs, s, hint, h => by
    simp only [exact_sum, Bool.and_eq_true, decide_eq_true_eq] at h
    obtain ⟨⟨⟨h1, h2⟩, h3⟩, h4⟩ := h
    have hx : of_int x = Double.finite (x : ℚ) := by
      have := hint x (List.mem_cons_self x xs)
      exact of_int_exact x ⟨by omega, by omega⟩
    have hsub : fsub (Double.finite (x : ℚ)) (Double.finite m) = Double.finite ((x : ℚ) - m) := by
      rw [fsub_finite, h1]
    have ih := squared_diff_sum_exact m xs (s + ((x : ℚ) - m) * ((x : ℚ) - m))
      (fun y hy => hint y (List.mem_cons_of_mem x hy)) h4
    rw [List.foldl_cons, hx, hsub, fmul_finite, h2, fadd_finite, h3, ih, List.map_cons,
      List.sum_cons, add_assoc]

/-- C8, amended: for every non-empty array of length `N` and every mean,
`calculate_std_dev` returns the population formula evaluated on doubles: the
square root of the quotient by `N` (not `N - 1`) of the sum of the squared
differences, each difference, square, sum and the quotient rounded to the
nearest double; the result is never negative; whenever the array holds `int`
values and no difference, square, sum or the quotient rounds, it is the square
root of the exact sum of the `(x - m)^2` divided by `N`, and it is exactly the
population standard deviation `r` when that is a double; on
`[2,4,4,4,5,5,7,9]` with mean 5.0 it is exactly 2.0. -/
theorem calculate_std_dev_rounded (data : List Int) (mean : Double) (hne : data ≠ []) :
    calculate_std_dev_double data data.length mean =
        fsqrt (fdiv (squared_diff_sum mean data) (of_int data.length)) ∧
      fgt (Double.finite 0) (calculate_std_dev_double data data.length mean) = false ∧
      (∀ m : ℚ, mean = Double.finite m →
        (∀ x ∈ data, -2147483648 ≤ x ∧ x ≤ 2147483647) → data.length ≤ 2147483647 →
        exact_sum m data 0 = true →
        round_double ((data.map (fun x : Int => ((x : ℚ) - m) * ((x : ℚ) - m))).sum /
            (data.length : ℚ)) =
          Double.finite ((data.map (fun x : Int => ((x : ℚ) - m) * ((x : ℚ) - m))).sum /
            (data.length : ℚ)) →
        calculate_std_dev_double data data.length mean =
            fsqrt (Double.finite ((data.map (fun x : Int => ((x : ℚ) - m) * ((x : ℚ) - m))).sum /
              (data.length : ℚ))) ∧
          ∀ r : ℚ, 0 ≤ r → round_double r = Double.finite r →
            (data.map (fun x : Int => ((x : ℚ) - m) * ((x : ℚ) - m))).sum / (data.length : ℚ) =
              r * r →
            calculate_std_dev_double data data.length mean = Double.finite r) ∧
      calculate_std_dev_double [2, 4, 4, 4, 5, 5, 7, 9] 8 (Double.finite 5) = Double.finite 2 := by
  refine ⟨calculate_std_dev_double_eq data mean, ?_, ?_, by decide!⟩
  · rw [calculate_std_dev_double_eq]
    exact fsqrt_not_negative _
  · intro m hm hint hlen hexact hquot
    have hsum := squared_diff_sum_exact m data 0 hint hexact
    have hN : of_int (data.length : Int) = Double.finite ((data.length : Int) : ℚ) :=
      of_int_exact _ ⟨by omega, by omega⟩
    have hN0 : ((data.length : Int) : ℚ) ≠ 0 := by
      have : 0 < data.length := List.length_pos.mpr hne
      exact_mod_cast Nat.pos_iff_ne_zero.mp this
    have hres : calculate_std_dev_double data data.length mean =
        fsqrt (Double.finite ((data.map (fun x : Int => ((x : ℚ) - m) * ((x : ℚ) - m))).sum /
          (data.length : ℚ))) := by
      rw [calculate_std_dev_double_eq, hm]
      simp only [squared_diff_sum, hsum, hN, zero_add, fdiv, hN0, if_false]
      rw [show ((data.length : Int) : ℚ) = (data.length : ℚ) from by push_cast; rfl, hquot]
    refine ⟨hres, fun r hr0 hrep hsq => ?_⟩
    rw [hres, hsq]
    rcases eq_or_lt_of_le hr0 with h0 | hpos
    · rw [← h0]
      simp [fsqrt]
    · exact fsqrt_square r hpos hrep

theorem calculate_std_dev_rounded_witness :
    ([2, 4, 4, 4, 5, 5, 7, 9] : List Int) ≠ [] ∧
      exact_sum 5 [2, 4, 4, 4, 5, 5, 7, 9] 0 = true ∧
      round_double 2 = Double.finite 2 ∧
      calculate_std_dev_double [2, 4, 4, 4, 5, 5, 7, 9]
        ([2, 4, 4, 4, 5, 5, 7, 9] : List Int).length (Double.finite 5) = Double.finite 2 ∧
      fgt (Double.finite 0) (calculate_std_dev_double [2, 4, 4, 4, 5, 5, 7, 9]
        ([2, 4, 4, 4, 5, 5, 7, 9] : List Int).length (Double.finite 5)) = false :=
  ⟨by decide, by decide!, by decide!, by decide!,
    (calculate_std_dev_rounded [2, 4, 4, 4, 5, 5, 7, 9] (Double.finite 5) (by decide)).2.1⟩

/-- C8 as stated fails: the population standard deviation of `[0]` about the
mean `2^600` is `2^600`, a double, and `calculate_std_dev` returns `+inf`,
because the square `2^1200` overflows; and the population standard deviation
of `[0, 0, 0]` about the mean `1.0 / 64 + 0.1` is that mean, and
`calculate_std_dev` returns the next double above it. -/
theorem std_dev_overflows_and_rounds :
    round_double (2 ^ 600) = Double.finite (2 ^ 600) ∧
      (((0 : ℚ) - 2 ^ 600) * ((0 : ℚ) - 2 ^ 600)) / 1 = 2 ^ 600 * 2 ^ 600 ∧
      calculate_std_dev_double [0] 1 (Double.finite (2 ^ 600)) = Double.inf false ∧
      fadd (fdiv (Double.finite 1) (Double.finite 64)) (round_double (1 / 10)) =
        Double.finite demo_mean ∧
      ((((0 : ℚ) - demo_mean) * ((0 : ℚ) - demo_mean)) * 3) / 3 = demo_mean * demo_mean ∧
      calculate_std_dev_double [0, 0, 0] 3 (Double.finite demo_mean) =
        Double.finite (demo_mean + 1 / 2 ^ 56) := by
  decide!

/-! ## Error handling -/

/-- C9, amended: `dequeue` on an empty queue returns the customer
`{-1, -1, -1}` and leaves the queue (front, rear, size, and the heap cells)
unchanged. -/
theorem dequeue_on_empty_returns_sentinel (q : Queue) (h : is_empty q = true) :
    (dequeue q).1 = ⟨-1, -1, -1⟩ ∧ (dequeue q).2.front = q.front ∧
      (dequeue q).2.rear = q.rear ∧ (dequeue q).2.size = q.size ∧ (dequeue q).2 = q := by
  have hf : q.front = none := by simpa [is_empty] using h
  simp [dequeue, hf]

theorem dequeue_on_empty_returns_sentinel_witness :
    is_empty create_queue = true ∧
      ((dequeue create_queue).1 = ⟨-1, -1, -1⟩ ∧
        (dequeue create_queue).2.front = create_queue.front ∧
        (dequeue create_queue).2.rear = create_queue.rear ∧
        (dequeue create_queue).2.size = create_queue.size ∧
        (dequeue create_queue).2 = create_queue) :=
  ⟨rfl, dequeue_on_empty_returns_sentinel create_queue rfl⟩

/-- C9, counterexample to failing with an error: `dequeue` on the empty queue
does return a customer, `{-1, -1, -1}`, and what it returns signals no error,
since a dequeue that succeeds (on the queue that holds the customer
`{-1, -1, -1}`) returns the same value. -/
theorem empty_dequeue_signals_no_error :
    is_empty create_queue = true ∧
      (dequeue create_queue).1 = ⟨-1, -1, -1⟩ ∧
      is_empty (enqueue create_queue ⟨-1, -1, -1⟩) = false ∧
      (dequeue (enqueue create_queue ⟨-1, -1, -1⟩)).1 = (dequeue create_queue).1 := by
  decide

/-- C10: `main` rejects every `lambda <= 0` with exit code 1 and without
calling `run_simulation` (whatever the fuel and the draws), and for every
`lambda > 0` it calls `run_simulation` with one teller and returns 0 when the
simulation finishes. -/
theorem main_validates_lambda {F : Type} [LinearOrderedField F] (exp : F → F)
    (RAND_MAX : Nat) (rand : Nat → Nat) (fuel : Nat) (lambda : F) :
    (lambda ≤ 0 →
        main exp RAND_MAX rand fuel lambda = some { exit_code := 1, simulation := none }) ∧
      (0 < lambda →
        main exp RAND_MAX rand fuel lambda =
          (run_simulation exp RAND_MAX rand fuel lambda 1).map
            (fun st => { exit_code := 0, simulation := some st })) := by
  constructor
  · intro h
    simp [main, h]
  · intro h
    have : ¬ lambda ≤ 0 := not_le.mpr h
    simp only [main, this, if_false]
    cases run_simulation exp RAND_MAX rand fuel lambda 1 <;> rfl

theorem main_validates_lambda_witness :
    ((-1 : ℚ) ≤ 0 ∧
        main demo_exp 32767 demo_rand 0 (-1) = some { exit_code := 1, simulation := none }) ∧
      ((0 : ℚ) < 1 ∧
        main demo_exp 32767 demo_rand 10 1 =
          some { exit_code := 0, simulation := some demo_final }) :=
  ⟨⟨by norm_num, (main_validates_lambda demo_exp 32767 demo_rand 0 (-1)).1 (by norm_num)⟩,
    ⟨zero_lt_one, by
      rw [(main_validates_lambda demo_exp 32767 demo_rand 10 1).2 zero_lt_one, demo_run_eq]
      rfl⟩⟩

/-! ## Teller count -/

theorem toNat_of_nonpos {n : Int} (h : n ≤ 0) : n.toNat = 0 := by
  omega

theorem serve_minute_no_tellers (rand : Nat → Nat) {n : Int} (h : n ≤ 0) (minute : Int)
    (st : SimState) : serve_minute rand n minute st = track_max st := by
  simp only [serve_minute, update_tellers, toNat_of_nonpos h, update_tellers_loop, serve_loop]

theorem drain_tick_no_tellers (rand : Nat → Nat) {n : Int} (h : n ≤ 0) (st : SimState) :
    drain_tick rand n st = { st with extra_time := st.extra_time + 1 } := by
  simp only [drain_tick, update_tellers, toNat_of_nonpos h, update_tellers_loop,
    drain_serve_loop]

theorem arrivals_loop_served (minute : Int) :
    ∀ (k : Nat) (st : SimState),
      (arrivals_loop minute k st).total_customers_served = st.total_customers_served ∧
        (arrivals_loop minute k st).wait_times = st.wait_times
  | 0, _ => ⟨rfl, rfl⟩
  | k + 1, st => by
    rw [arrivals_loop]
    exact arrivals_loop_served minute k _

theorem track_max_served (st : SimState) :
    (track_max st).total_customers_served = st.total_customers_served ∧
      (track_max st).wait_times = st.wait_times := by
  unfold track_max
  split <;> exact ⟨rfl, rfl⟩

theorem horizon_tick_no_tellers {F : Type} [LinearOrderedField F] (exp : F → F)
    (RAND_MAX : Nat) (rand : Nat → Nat) (fuel : Nat) (lambda : F) {n : Int} (h : n ≤ 0)
    (minute : Int) (st : SimState) :
    horizon_tick exp RAND_MAX rand fuel lambda n minute st =
      (arrive exp RAND_MAX rand fuel lambda minute st).map track_max := by
  unfold horizon_tick
  cases arrive exp RAND_MAX rand fuel lambda minute st with
  | none => rfl
  | some st1 => simp [serve_minute_no_tellers rand h]

theorem main_loop_no_tellers {F : Type} [LinearOrderedField F] (exp : F → F)
    (RAND_MAX : Nat) (rand : Nat → Nat) (fuel : Nat) (lambda : F) {n : Int} (h : n ≤ 0) :
    ∀ (k : Nat) (minute : Int) (st st1 : SimState),
      main_loop exp RAND_MAX rand fuel lambda n k minute st = some st1 →
      st1.total_customers_served = st.total_customers_served ∧ st1.wait_times = st.wait_times
  | 0, _, st, st1, hs => by
    simp only [main_loop, Option.some.injEq] at hs
    subst hs
    exact ⟨rfl, rfl⟩
  | k + 1, minute, st, st1, hs => by
    rw [main_loop, horizon_tick_no_tellers exp RAND_MAX rand fuel lambda h] at hs
    unfold arrive at hs
    cases hg : generate_arrivals exp RAND_MAX rand fuel lambda st.rng with
    | none => simp [hg] at hs
    | some res =>
      obtain ⟨arrivals, rng1⟩ := res
      simp only [hg, Option.map_some'] at hs
      obtain ⟨h1, h2⟩ := main_loop_no_tellers exp RAND_MAX rand fuel lambda h k _ _ _ hs
      obtain ⟨h3, h4⟩ := track_max_served
        (arrivals_loop minute arrivals.toNat { st with rng := rng1 })
      obtain ⟨h5, h6⟩ := arrivals_loop_served minute arrivals.toNat { st with rng := rng1 }
      exact ⟨h1.trans (h3.trans h5), h2.trans (h4.trans h6)⟩

theorem drain_iter_no_tellers (rand : Nat → Nat) {n : Int} (h : n ≤ 0) :
    ∀ (j : Nat) (st st1 : SimState), drain_iter rand n j st = some st1 →
      st1.total_customers_served = st.total_customers_served ∧ st1.wait_times = st.wait_times
  | 0, st, st1, hs => by
    simp only [drain_iter, Option.some.injEq] at hs
    subst hs
    exact ⟨rfl, rfl⟩
  | j + 1, st, st1, hs => by
    rw [drain_iter] at hs
    split at hs
    · rw [drain_tick_no_tellers rand h] at hs
      have := drain_iter_no_tellers rand h j { st with extra_time := st.extra_time + 1 } st1 hs
      exact ⟨this.1, this.2⟩
    · cases hs

/-- C11, amended: `run_simulation` does not check `num_tellers`.  For
`num_tellers <= 0` every minute of the main loop still samples the arrivals and
enqueues them (the minute is the arrival step followed by the update of the
maximum queue size), and at every tick boundary no customer has been served:
`total_customers_served` is 0, the wait-time array is empty, and the queue
holds every customer that arrived. -/
theorem no_teller_count_check {F : Type} [LinearOrderedField F] (exp : F → F)
    (RAND_MAX : Nat) (rand : Nat → Nat) (fuel : Nat) (lambda : F) (num_tellers : Int)
    (hn : num_tellers ≤ 0) :
    (∀ minute st,
        horizon_tick exp RAND_MAX rand fuel lambda num_tellers minute st =
          (arrive exp RAND_MAX rand fuel lambda minute st).map track_max) ∧
      (∀ k st, tick_boundary exp RAND_MAX rand fuel lambda num_tellers k = some st →
        st.total_customers_served = 0 ∧ st.wait_times = [] ∧
          st.customer_queue.size = st.total_customers_arrived) := by
  refine ⟨horizon_tick_no_tellers exp RAND_MAX rand fuel lambda hn, ?_⟩
  intro k st hk
  have hserved : st.total_customers_served = 0 ∧ st.wait_times = [] := by
    unfold tick_boundary at hk
    split at hk
    · exact main_loop_no_tellers exp RAND_MAX rand fuel lambda hn k 0 _ _ hk
    · unfold horizon_end at hk
      cases h480 : main_loop exp RAND_MAX rand fuel lambda num_tellers 480 0
          (init_state num_tellers) with
      | none => simp [h480] at hk
      | some s480 =>
        simp only [h480] at hk
        obtain ⟨h1, h2⟩ := drain_iter_no_tellers rand hn _ _ _ hk
        obtain ⟨h3, h4⟩ := main_loop_no_tellers exp RAND_MAX rand fuel lambda hn 480 0 _ _ h480
        exact ⟨h1.trans h3, h2.trans h4⟩
  obtain ⟨now, hinv⟩ := inv_tick_boundary hk
  obtain ⟨cs, h1, _, h3⟩ := hinv.queue
  refine ⟨hserved.1, hserved.2, ?_⟩
  rw [holds_size h1, h3, hserved.1]
  simp

theorem no_teller_count_check_witness :
    (0 : Int) ≤ 0 ∧
      tick_boundary demo_exp 32767 demo_rand_early 10 1 0 1 = some demo_no_teller_tick ∧
      (demo_no_teller_tick.total_customers_served = 0 ∧ demo_no_teller_tick.wait_times = [] ∧
        demo_no_teller_tick.customer_queue.size = demo_no_teller_tick.total_customers_arrived) :=
  ⟨le_refl _, by decide!,
    (no_teller_count_check demo_exp 32767 demo_rand_early 10 1 0 (le_refl _)).2 1
      demo_no_teller_tick (by decide!)⟩

/-- C11, counterexample to the rejection of `num_tellers <= 0`: with
`num_tellers = 0` the first minute of the main loop is executed; it samples the
arrivals (three draws are consumed) and enqueues two customers. -/
theorem zero_tellers_runs_first_minute :
    tick_boundary demo_exp 32767 demo_rand_early 10 1 0 1 = some demo_no_teller_tick ∧
      demo_no_teller_tick.rng = 3 ∧ demo_no_teller_tick.total_customers_arrived = 2 ∧
      demo_no_teller_tick.customer_queue.size = 2 ∧
      is_empty demo_no_teller_tick.customer_queue = false := by
  decide!

/-! ## FIFO refinement -/

theorem walk_of_lseg {heap : List (Option QueueNode)} :
    ∀ (l : List (Nat × Customer)) (n : Nat) (p : Option Nat), lseg heap p l none →
      l.length ≤ n → walk heap n p = l.map Prod.snd
  | [], n, p, h, _ => by
    have hp : p = none := h
    subst hp
    cases n <;> rfl
  | (a, c) :: rest, 0, _, _, hn => by simp at hn
  | (a, c) :: rest, n + 1, p, h, hn => by
    obtain ⟨hp, nxt, ha, hrest⟩ := h
    subst hp
    have hload := load_of_getD ha
    simp only [walk, hload, List.map_cons]
    rw [walk_of_lseg rest n nxt hrest (by simpa using hn)]

theorem represents_length_le {q : Queue} {l : List (Nat × Customer)} (h : Represents q l) :
    l.length ≤ q.heap.length := by
  obtain ⟨hl, hnd, _, _⟩ := h
  have hsub : l.map Prod.fst ⊆ List.range q.heap.length := fun a ha =>
    List.mem_range.mpr (lseg_addr_lt hl a ha)
  have := (List.subperm_of_subset hnd hsub).length_le
  simpa using this

theorem holds_contents {q : Queue} {cs : List Customer} (h : Holds q cs) : contents q = cs := by
  obtain ⟨l, hl, hcs⟩ := h
  rw [← hcs]
  exact walk_of_lseg l _ _ hl.1 (represents_length_le hl)

theorem dequeue_of_empty_queue (q : Queue) (h : is_empty q = true) :
    (dequeue q).2 = q := by
  have hf : q.front = none := by simpa [is_empty] using h
  simp [dequeue, hf]

theorem holds_dequeue_any {q : Queue} {cs : List Customer} (h : Holds q cs) :
    Holds (dequeue q).2 cs.tail := by
  cases he : is_empty q with
  | true =>
    have hcs := (holds_is_empty h).mp he
    have hq := (dequeue_of_empty_queue q he)
    rw [hq, hcs]
    rw [hcs] at h
    exact h
  | false =>
    obtain ⟨c, cs1, hcs, _, h2⟩ := holds_dequeue h he
    rw [hcs]
    exact h2

theorem holds_apply_ops :
    ∀ (ops : List QueueOp) (q : Queue) (cs : List Customer), Holds q cs →
      Holds (apply_ops q ops) (fifo_ops cs ops)
  | [], _, _, h => h
  | QueueOp.enq c :: ops, q, cs, h => by
    simp only [apply_ops, fifo_ops, List.foldl_cons]
    exact holds_apply_ops ops _ _ (holds_enqueue h c)
  | QueueOp.deq :: ops, q, cs, h => by
    simp only [apply_ops, fifo_ops, List.foldl_cons]
    exact holds_apply_ops ops _ _ (holds_dequeue_any h)

/-- C12: the linked-list queue refines a FIFO list.  After every sequence of
`enqueue` and `dequeue` operations applied to `create_queue`, the customers
read from the front along the `next` pointers are those of the FIFO list after
the same operations (the enqueued customers not yet dequeued, in insertion
order); `size` is their number; `is_empty` holds exactly when `size` is 0;
`enqueue` appends at the tail and adds 1 to `size`; and `dequeue` on a
non-empty queue returns the oldest customer, leaves the others in order and
subtracts 1 from `size`. -/
theorem queue_refines_fifo (ops : List QueueOp) :
    contents (apply_ops create_queue ops) = fifo_ops [] ops ∧
      (apply_ops create_queue ops).size = ((fifo_ops [] ops).length : Int) ∧
      (is_empty (apply_ops create_queue ops) = true ↔ (apply_ops create_queue ops).size = 0) ∧
      (∀ c, contents (enqueue (apply_ops create_queue ops) c) = fifo_ops [] ops ++ [c] ∧
        (enqueue (apply_ops create_queue ops) c).size = (apply_ops create_queue ops).size + 1) ∧
      (∀ c rest, fifo_ops [] ops = c :: rest →
        (dequeue (apply_ops create_queue ops)).1 = c ∧
          contents (dequeue (apply_ops create_queue ops)).2 = rest ∧
          (dequeue (apply_ops create_queue ops)).2.size =
            (apply_ops create_queue ops).size - 1) := by
  have h := holds_apply_ops ops create_queue [] holds_create_queue
  have hsize := holds_size h
  refine ⟨holds_contents h, hsize, ?_, ?_, ?_⟩
  · rw [holds_is_empty h, hsize]
    constructor
    · intro e
      rw [e]
      rfl
    · intro e
      exact List.length_eq_zero.mp (by exact_mod_cast e)
  · intro c
    exact ⟨holds_contents (holds_enqueue h c), enqueue_size _ c⟩
  · intro c rest hcs
    have hne : is_empty (apply_ops create_queue ops) = false := by
      cases he : is_empty (apply_ops create_queue ops) with
      | false => rfl
      | true =>
        rw [(holds_is_empty h).mp he] at hcs
        cases hcs
    obtain ⟨c1, cs1, hcs1, hd1, hd2⟩ := holds_dequeue h hne
    rw [hcs] at hcs1
    cases hcs1
    exact ⟨hd1, holds_contents hd2, dequeue_size hne⟩

/-! ## Recommendation -/

theorem recommendation_of_mean {F : Type} [LinearOrderedField F] (mean : F) :
    ((if mean > 10 then Recommendation.understaffed
        else if mean > 5 then Recommendation.moderate
        else Recommendation.adequate) = Recommendation.understaffed ↔ mean > 10) ∧
      ((if mean > 10 then Recommendation.understaffed
        else if mean > 5 then Recommendation.moderate
        else Recommendation.adequate) = Recommendation.moderate ↔ 5 < mean ∧ mean ≤ 10) ∧
      ((if mean > 10 then Recommendation.understaffed
        else if mean > 5 then Recommendation.moderate
        else Recommendation.adequate) = Recommendation.adequate ↔ mean ≤ 5) := by
  by_cases h10 : mean > 10
  · have h5 : mean > 5 := lt_trans (by norm_num) h10
    rw [if_pos h10]
    exact ⟨⟨fun _ => h10, fun _ => rfl⟩,
      ⟨(fun h => by cases h), fun h => absurd h10 (not_lt.mpr h.2)⟩,
      ⟨(fun h => by cases h), fun h => absurd h5 (not_lt.mpr h)⟩⟩
  · by_cases h5 : mean > 5
    · rw [if_neg h10, if_pos h5]
      exact ⟨⟨(fun h => by cases h), fun h => absurd h h10⟩,
        ⟨fun _ => ⟨h5, not_lt.mp h10⟩, fun _ => rfl⟩,
        ⟨(fun h => by cases h), fun h => absurd h5 (not_lt.mpr h)⟩⟩
    · rw [if_neg h10, if_neg h5]
      exact ⟨⟨(fun h => by cases h), fun h => absurd h h10⟩,
        ⟨(fun h => by cases h), fun h => absurd h.1 h5⟩,
        ⟨fun _ => not_lt.mp h5, fun _ => rfl⟩⟩

/-- C13: `calculate_statistics` chooses its recommendation from the mean
alone, understaffed iff `mean > 10`, moderate iff `5 < mean <= 10`, adequate
iff `mean <= 5`, and prints the extreme-wait warning iff the maximum wait is
`> 30`; the two are independent, every pair of a recommendation and a warning
flag is produced by some non-empty array of non-negative wait times. -/
theorem recommendation_thresholds {F : Type} [LinearOrderedField F]
    (qsort : List Int → (Int → Int → Int) → List Int) (sqrt : F → F) (wait_times : List Int)
    (count : Int) :
    ((calculate_statistics qsort sqrt wait_times count).mean = calculate_mean wait_times count ∧
      (calculate_statistics qsort sqrt wait_times count).max_wait = find_max wait_times count) ∧
      (((calculate_statistics qsort sqrt wait_times count).recommendation =
          Recommendation.understaffed ↔
          (calculate_mean wait_times count : F) > 10) ∧
        ((calculate_statistics qsort sqrt wait_times count).recommendation =
          Recommendation.moderate ↔
          5 < (calculate_mean wait_times count : F) ∧ (calculate_mean wait_times count : F) ≤ 10) ∧
        ((calculate_statistics qsort sqrt wait_times count).recommendation =
          Recommendation.adequate ↔
          (calculate_mean wait_times count : F) ≤ 5)) ∧
      ((calculate_statistics qsort sqrt wait_times count).extreme_wait = true ↔
        find_max wait_times count > 30) ∧
      (∀ (tier : Recommendation) (flag : Bool), ∃ data : List Int,
        data ≠ [] ∧ (∀ w ∈ data, 0 ≤ w) ∧
          (calculate_statistics demo_qsort (fun x : ℚ => x) data data.length).recommendation =
            tier ∧
          (calculate_statistics demo_qsort (fun x : ℚ => x) data data.length).extreme_wait =
            flag) := by
  refine ⟨⟨rfl, rfl⟩, recommendation_of_mean _, ?_, ?_⟩
  · simp [calculate_statistics]
  · intro tier flag
    cases tier <;> cases flag
    · exact ⟨[20], by decide, by decide, by decide!, by decide!⟩
    · exact ⟨[40], by decide, by decide, by decide!, by decide!⟩
    · exact ⟨[7], by decide, by decide, by decide!, by decide!⟩
    · exact ⟨[31, 0, 0, 0], by decide, by decide, by decide!, by decide!⟩
    · exact ⟨[0], by decide, by decide, by decide!, by decide!⟩
    · exact ⟨[31, 0, 0, 0, 0, 0, 0, 0, 0, 0, 0], by decide, by decide, by decide!, by decide!⟩

/-! ## Service durations -/

theorem getD_set_int (l : List Int) {t : Nat} (v : Int) (h : t < l.length) :
    (l.set t v).getD t 0 = v := by
  simp [List.getD_eq_getElem?_getD, List.getElem?_set_self, h]

theorem serve_teller_timer (rand : Nat → Nat) (minute : Int) (t : Nat) (st : SimState)
    (hidle : st.teller_busy.getD t 0 = 0) (hq : is_empty st.customer_queue = false)
    (ht : t < st.teller_busy.length) :
    (serve_teller rand minute t st).teller_busy.getD t 0 = 2 + ((rand st.rng : Int) % 3) := by
  unfold serve_teller
  rw [if_pos ⟨hidle, hq⟩]
  exact getD_set_int _ _ ht

/-- C14: at both assignment sites (main loop and drain loop), a teller that
takes a customer gets the timer `2 + (r % 3)` for the draw `r` made there; this
value is 2, 3 or 4, and each of 2, 3 and 4 is the value assigned for some
draw. -/
theorem service_duration_range (rand : Nat → Nat) (minute : Int) (t : Nat) (st : SimState)
    (hidle : st.teller_busy.getD t 0 = 0) (hq : is_empty st.customer_queue = false)
    (ht : t < st.teller_busy.length) :
    ((serve_teller rand minute t st).teller_busy.getD t 0 = 2 + ((rand st.rng : Int) % 3) ∧
      (drain_serve_teller rand t st).teller_busy.getD t 0 = 2 + ((rand st.rng : Int) % 3)) ∧
      (2 + ((rand st.rng : Int) % 3) = 2 ∨ 2 + ((rand st.rng : Int) % 3) = 3 ∨
        2 + ((rand st.rng : Int) % 3) = 4) ∧
      (∀ v : Int, v = 2 ∨ v = 3 ∨ v = 4 → ∃ r : Nat, 2 + ((r : Int) % 3) = v ∧
        (serve_teller (fun _ => r) minute t st).teller_busy.getD t 0 = v ∧
        (drain_serve_teller (fun _ => r) t st).teller_busy.getD t 0 = v) := by
  refine ⟨⟨serve_teller_timer rand minute t st hidle hq ht, ?_⟩, by omega, ?_⟩
  · rw [drain_serve_teller_eq]
    exact serve_teller_timer rand _ t st hidle hq ht
  · intro v hv
    have key : ∀ r : Nat, 2 + ((r : Int) % 3) = v →
        (serve_teller (fun _ => r) minute t st).teller_busy.getD t 0 = v ∧
          (drain_serve_teller (fun _ => r) t st).teller_busy.getD t 0 = v := by
      intro r hr
      constructor
      · rw [serve_teller_timer (fun _ => r) minute t st hidle hq ht]
        exact hr
      · rw [drain_serve_teller_eq, serve_teller_timer (fun _ => r) _ t st hidle hq ht]
        exact hr
    rcases hv with rfl | rfl | rfl
    · exact ⟨0, by decide, key 0 (by decide)⟩
    · exact ⟨1, by decide, key 1 (by decide)⟩
    · exact ⟨2, by decide, key 2 (by decide)⟩

theorem service_duration_range_witness :
    demo_waiting.teller_busy.getD 0 0 = 0 ∧ is_empty demo_waiting.customer_queue = false ∧
      0 < demo_waiting.teller_busy.length ∧
      (serve_teller (fun _ => 7) 0 0 demo_waiting).teller_busy.getD 0 0 = 3 ∧
      (drain_serve_teller (fun _ => 7) 0 demo_waiting).teller_busy.getD 0 0 = 3 :=
  ⟨by decide, by decide, by decide,
    (service_duration_range (fun _ => 7) 0 0 demo_waiting (by decide) (by decide)
      (by decide)).1⟩

/-! ## Arrival sampling -/

theorem generate_arrivals_double_loop_spec (RAND_MAX : Nat) (rand : Nat → Nat) (L : Double)
    (rng : Nat) :
    ∀ (fuel k : Nat) (k1 : Int) (rng1 : Nat),
      generate_arrivals_double_loop RAND_MAX rand L fuel (double_product RAND_MAX rand rng k)
          (k : Int) (rng + k) = some (k1, rng1) →
      ∃ m : Nat, k1 = (m : Int) ∧ k < m ∧ rng1 = rng + m ∧
        fgt (double_product RAND_MAX rand rng m) L = false ∧
        ∀ j, k < j → j < m → fgt (double_product RAND_MAX rand rng j) L = true
  | 0, k, k1, rng1, h => by simp [generate_arrivals_double_loop] at h
  | fuel + 1, k, k1, rng1, h => by
    have hp : fmul (double_product RAND_MAX rand rng k)
        (fdiv (of_int (rand (rng + k))) (of_int RAND_MAX)) =
        double_product RAND_MAX rand rng (k + 1) := rfl
    rw [generate_arrivals_double_loop] at h
    simp only [hp] at h
    split at h
    · rename_i hgt
      have hcast : ((k : Int) + 1) = ((k + 1 : Nat) : Int) := by push_cast; rfl
      rw [hcast, Nat.add_assoc] at h
      obtain ⟨m, h1, h2, h3, h4, h5⟩ :=
        generate_arrivals_double_loop_spec RAND_MAX rand L rng fuel (k + 1) k1 rng1 h
      refine ⟨m, h1, by omega, h3, h4, ?_⟩
      intro j hj1 hj2
      rcases Nat.eq_or_lt_of_le (Nat.succ_le_of_lt hj1) with heq | hlt
      · rw [← heq]
        exact hgt
      · exact h5 j hlt hj2
    · rename_i hle
      simp only [Option.some.injEq, Prod.mk.injEq] at h
      refine ⟨k + 1, ?_, by omega, ?_, by simpa using hle, ?_⟩
      · rw [← h.1]
        push_cast
        rfl
      · rw [← h.2, Nat.add_assoc]
      · intro j hj1 hj2
        omega

theorem generate_arrivals_double_loop_stops (RAND_MAX : Nat) (rand : Nat → Nat) (L : Double)
    (rng m : Nat) (hm : fgt (double_product RAND_MAX rand rng (m + 1)) L = false) :
    ∀ (fuel k : Nat), k ≤ m → m < k + fuel →
      ∃ r, generate_arrivals_double_loop RAND_MAX rand L fuel
        (double_product RAND_MAX rand rng k) (k : Int) (rng + k) = some r
  | 0, k, h1, h2 => by omega
  | fuel + 1, k, h1, h2 => by
    have hp : fmul (double_product RAND_MAX rand rng k)
        (fdiv (of_int (rand (rng + k))) (of_int RAND_MAX)) =
        double_product RAND_MAX rand rng (k + 1) := rfl
    rw [generate_arrivals_double_loop]
    simp only [hp]
    split
    · rename_i hgt
      have hne : k ≠ m := by
        intro e
        rw [e, hm] at hgt
        exact Bool.noConfusion hgt
      have hcast : ((k : Int) + 1) = ((k + 1 : Nat) : Int) := by push_cast; rfl
      rw [hcast, Nat.add_assoc]
      exact generate_arrivals_double_loop_stops RAND_MAX rand L rng m hm fuel (k + 1)
        (by omega) (by omega)
    · exact ⟨_, rfl⟩

/-- C15, amended: for `lambda > 0`, whenever the loop of `generate_arrivals`
stops, the returned count `n` is `>= 0`, it has consumed `n + 1` draws, and `n`
is the least count for which the running product of `n + 1` draws as the code
computes it on doubles (each quotient `rand() / RAND_MAX` and each product
rounded to the nearest double) is not above the double `exp(-lambda)`: the
rounded product of the first `j` draws is above it for every `1 <= j <= n`.
The loop stops, with enough iterations allowed, as soon as some rounded
product is not above `exp(-lambda)`. -/
theorem generate_arrivals_rounded_least (exp : Double → Double) (RAND_MAX : Nat)
    (rand : Nat → Nat) (fuel : Nat) (lambda : Double) (rng : Nat) (n : Int) (rng1 : Nat)
    (_hl : fgt lambda (Double.finite 0) = true)
    (h : generate_arrivals_double exp RAND_MAX rand fuel lambda rng = some (n, rng1)) :
    0 ≤ n ∧ rng1 = rng + n.toNat + 1 ∧
      fgt (double_product RAND_MAX rand rng (n.toNat + 1)) (exp (fneg lambda)) = false ∧
      (∀ j, 1 ≤ j → j ≤ n.toNat →
        fgt (double_product RAND_MAX rand rng j) (exp (fneg lambda)) = true) ∧
      (∀ m : Nat, fgt (double_product RAND_MAX rand rng (m + 1)) (exp (fneg lambda)) = false →
        n.toNat ≤ m) ∧
      (∀ m fuel1 : Nat,
        fgt (double_product RAND_MAX rand rng (m + 1)) (exp (fneg lambda)) = false → m < fuel1 →
        ∃ r, generate_arrivals_double exp RAND_MAX rand fuel1 lambda rng = some r) := by
  unfold generate_arrivals_double at h
  cases hloop : generate_arrivals_double_loop RAND_MAX rand (exp (fneg lambda)) fuel
      (Double.finite 1) 0 rng with
  | none => simp [hloop] at h
  | some res =>
    obtain ⟨k1, r1⟩ := res
    simp only [hloop, Option.some.injEq, Prod.mk.injEq] at h
    have hstart : generate_arrivals_double_loop RAND_MAX rand (exp (fneg lambda)) fuel
        (double_product RAND_MAX rand rng 0) ((0 : Nat) : Int) (rng + 0) = some (k1, r1) := hloop
    obtain ⟨m, h1, h2, h3, h4, h5⟩ :=
      generate_arrivals_double_loop_spec RAND_MAX rand (exp (fneg lambda)) rng fuel 0 k1 r1 hstart
    have hn : n = (m : Int) - 1 := by rw [← h.1, h1]
    have hnat : n.toNat + 1 = m := by omega
    refine ⟨by omega, ?_, ?_, ?_, ?_, ?_⟩
    · rw [← h.2, h3]
      omega
    · rw [hnat]
      exact h4
    · intro j hj1 hj2
      exact h5 j (by omega) (by omega)
    · intro m1 hm1
      by_contra hlt
      have := h5 (m1 + 1) (by omega) (by omega)
      rw [hm1] at this
      exact Bool.noConfusion this
    · intro m1 fuel1 hm1 hf
      obtain ⟨r, hr⟩ := generate_arrivals_double_loop_stops RAND_MAX rand (exp (fneg lambda)) rng
        m1 hm1 fuel1 0 (Nat.zero_le _) (by omega)
      have hr1 : generate_arrivals_double_loop RAND_MAX rand (exp (fneg lambda)) fuel1
          (Double.finite 1) 0 rng = some r := hr
      unfold generate_arrivals_double
      simp only [hr1]
      exact ⟨_, rfl⟩

theorem generate_arrivals_rounded_least_witness :
    fgt (Double.finite 1) (Double.finite 0) = true ∧
      generate_arrivals_double demo_exp_double 32767 demo_rand 10 (Double.finite 1) 479 =
        some (3, 483) ∧
      fgt (double_product 32767 demo_rand 479 ((3 : Int).toNat + 1))
        (demo_exp_double (fneg (Double.finite 1))) = false ∧
      (∀ j, 1 ≤ j → j ≤ (3 : Int).toNat →
        fgt (double_product 32767 demo_rand 479 j) (demo_exp_double (fneg (Double.finite 1))) =
          true) :=
  ⟨by decide!, by decide!,
    (generate_arrivals_rounded_least demo_exp_double 32767 demo_rand 10 (Double.finite 1) 479 3
      483 (by decide!) (by decide!)).2.2.1,
    (generate_arrivals_rounded_least demo_exp_double 32767 demo_rand 10 (Double.finite 1) 479 3
      483 (by decide!) (by decide!)).2.2.2.1⟩

theorem exp_neg_800_lt : Real.exp (-800) < 1 / 2 ^ 1085 := by
  have h1 : Real.exp (-800) = 1 / Real.exp 1 ^ 800 := by
    rw [Real.exp_neg, ← Real.exp_nat_mul]
    norm_num
  have h2 : (2.7 : ℝ) < Real.exp 1 := lt_trans (by norm_num) Real.exp_one_gt_d9
  have h3 : (2 : ℝ) ^ 1085 < Real.exp 1 ^ 800 := by
    calc (2 : ℝ) ^ 1085 < (2.7 : ℝ) ^ 800 := by norm_num
      _ < Real.exp 1 ^ 800 := pow_lt_pow_left₀ h2 (by norm_num) (by decide)
  rw [h1]
  exact one_div_lt_one_div_of_lt (by positivity) h3

/-- C15 as stated fails: with `lambda = 800`, where `exp(-lambda)` underflows
to 0, `RAND_MAX = 2147483647` and every `rand()` equal to 1, each draw is the
double `(2^31 + 1) / 2^62`, the running product underflows to 0 at the 35th
draw and `generate_arrivals` returns 34, although the product of these 35
draws is above `e^(-800)`: the loop stopped before the product of the draws
was at or below `e^(-lambda)`.  (`e^(-800)` is below `2^-1075`, half of the
least positive double, so that `exp` returns 0.) -/
theorem generate_arrivals_underflow :
    generate_arrivals_double exp_underflow 2147483647 (fun _ => 1) 40 (Double.finite 800) 0 =
        some (34, 35) ∧
      exp_underflow (fneg (Double.finite 800)) = Double.finite 0 ∧
      Real.exp (-800) < 1 / 2 ^ 1075 ∧
      fdiv (of_int 1) (of_int 2147483647) = Double.finite draw_of_one ∧
      0 ≤ draw_of_one ∧ draw_of_one ≤ 1 ∧
      Real.exp (-800) < ((draw_of_one ^ 35 : ℚ) : ℝ) := by
  refine ⟨by decide!, by decide!, ?_, by decide!, by decide!, by decide!, ?_⟩
  · refine lt_trans exp_neg_800_lt ?_
    exact one_div_lt_one_div_of_lt (by positivity)
      (pow_lt_pow_right₀ (by norm_num) (by norm_num))
  refine lt_trans exp_neg_800_lt ?_
  have h1 : (1 : ℚ) / 2 ^ 31 < draw_of_one := by
    unfold draw_of_one
    norm_num
  have h2 : ((1 : ℚ) / 2 ^ 31) ^ 35 < draw_of_one ^ 35 :=
    pow_lt_pow_left₀ h1 (by positivity) (by decide)
  have h3 : ((1 : ℚ) / 2 ^ 31) ^ 35 = 1 / 2 ^ 1085 := by
    rw [one_div_pow, ← pow_mul]
  rw [h3] at h2
  have h4 : (((1 : ℚ) / 2 ^ 1085 : ℚ) : ℝ) < ((draw_of_one ^ 35 : ℚ) : ℝ) :=
    Rat.cast_lt.mpr h2
  have h5 : (((1 : ℚ) / 2 ^ 1085 : ℚ) : ℝ) = 1 / 2 ^ 1085 := by
    push_cast
    rfl
  rw [h5] at h4
  exact h4

/-! ## Assignments -/

theorem drain_serve_teller_events_eq (rand : Nat → Nat) (t : Nat) (st : SimState) :
    drain_serve_teller_events rand t st =
      serve_teller_events rand (480 + st.extra_time) t st := rfl

theorem drain_serve_loop_events_eq (rand : Nat → Nat) :
    ∀ (n t : Nat) (st : SimState),
      drain_serve_loop_events rand n t st =
        serve_loop_events rand (480 + st.extra_time) n t st
  | 0, _, _ => rfl
  | n + 1, t, st => by
    rw [drain_serve_loop_events, drain_serve_loop_events_eq rand n (t + 1),
      drain_serve_teller_events_eq, drain_serve_teller_eq, serve_teller_extra_time,
      serve_loop_events]

theorem serve_teller_of_empty (rand : Nat → Nat) (minute : Int) (t : Nat) (st : SimState)
    (h : is_empty st.customer_queue = true) :
    serve_teller rand minute t st = st ∧ serve_teller_events rand minute t st = [] := by
  unfold serve_teller serve_teller_events
  have : ¬ (st.teller_busy.getD t 0 = 0 ∧ is_empty st.customer_queue = false) := by
    rw [h]
    simp
  rw [if_neg this, if_neg this]
  exact ⟨rfl, rfl⟩

theorem serve_loop_events_of_empty (rand : Nat → Nat) (minute : Int) :
    ∀ (n t : Nat) (st : SimState), is_empty st.customer_queue = true →
      serve_loop_events rand minute n t st = []
  | 0, _, _, _ => rfl
  | n + 1, t, st, h => by
    obtain ⟨h1, h2⟩ := serve_teller_of_empty rand minute t st h
    rw [serve_loop_events, h1, h2, serve_loop_events_of_empty rand minute n (t + 1) st h]
    rfl

theorem serve_teller_timer_ne (rand : Nat → Nat) (minute : Int) {t t1 : Nat} (st : SimState)
    (h : t ≠ t1) :
    (serve_teller rand minute t st).teller_busy.getD t1 0 = st.teller_busy.getD t1 0 := by
  unfold serve_teller
  split
  · simp only [record_wait]
    simp [List.getD_eq_getElem?_getD, List.getElem?_set_ne h]
  · rfl

theorem serve_teller_events_teller (rand : Nat → Nat) (minute : Int) (t : Nat) (st : SimState)
    (a : Assignment) (ha : a ∈ serve_teller_events rand minute t st) :
    a.teller = t ∧ a.queue_before = st.customer_queue ∧ st.teller_busy.getD t 0 = 0 ∧
      is_empty st.customer_queue = false ∧
      a.customer = { (dequeue st.customer_queue).1 with
        service_start_time := minute
        wait_time := minute - (dequeue st.customer_queue).1.arrival_time } ∧
      a.service_time = 2 + ((rand st.rng : Int) % 3) := by
  unfold serve_teller_events at ha
  split at ha
  · rename_i hc
    rw [List.mem_singleton] at ha
    subst ha
    exact ⟨rfl, rfl, hc.1, hc.2, rfl, rfl⟩
  · cases ha

theorem serve_loop_events_teller (rand : Nat → Nat) (minute : Int) :
    ∀ (n t : Nat) (st : SimState) (a : Assignment),
      a ∈ serve_loop_events rand minute n t st →
      t ≤ a.teller ∧ a.teller < t + n ∧ st.teller_busy.getD a.teller 0 = 0 ∧
        is_empty a.queue_before = false
  | 0, _, _, _, ha => by cases ha
  | n + 1, t, st, a, ha => by
    rw [serve_loop_events, List.mem_append] at ha
    rcases ha with ha | ha
    · obtain ⟨h1, h2, h3, h4, _, _⟩ := serve_teller_events_teller rand minute t st a ha
      rw [h1, h2]
      exact ⟨le_refl _, by omega, h3, h4⟩
    · obtain ⟨h1, h2, h3, h4⟩ := serve_loop_events_teller rand minute n (t + 1) _ a ha
      rw [serve_teller_timer_ne rand minute st (by omega)] at h3
      exact ⟨by omega, by omega, h3, h4⟩

theorem serve_loop_events_sorted (rand : Nat → Nat) (minute : Int) :
    ∀ (n t : Nat) (st : SimState),
      ((serve_loop_events rand minute n t st).map Assignment.teller).Pairwise (fun a b => a < b)
  | 0, _, _ => List.Pairwise.nil
  | n + 1, t, st => by
    rw [serve_loop_events, List.map_append, List.pairwise_append]
    refine ⟨?_, serve_loop_events_sorted rand minute n (t + 1) _, ?_⟩
    · unfold serve_teller_events
      split <;> simp
    · intro x hx y hy
      obtain ⟨a, ha, rfl⟩ := List.mem_map.mp hx
      obtain ⟨b, hb, rfl⟩ := List.mem_map.mp hy
      have h1 := (serve_teller_events_teller rand minute t st a ha).1
      have h2 := (serve_loop_events_teller rand minute n (t + 1) _ b hb).1
      omega

theorem serve_loop_events_lower (rand : Nat → Nat) (minute : Int) :
    ∀ (n t : Nat) (st : SimState) (a : Assignment),
      a ∈ serve_loop_events rand minute n t st →
      ∀ t1, t ≤ t1 → t1 < a.teller → st.teller_busy.getD t1 0 = 0 →
        ∃ b ∈ serve_loop_events rand minute n t st, b.teller = t1
  | 0, _, _, _, ha => by cases ha
  | n + 1, t, st, a, ha => by
    intro t1 ht1 hlt hidle
    rw [serve_loop_events, List.mem_append] at ha
    have harest : a ∈ serve_loop_events rand minute n (t + 1) (serve_teller rand minute t st) := by
      rcases ha with ha | ha
      · have := (serve_teller_events_teller rand minute t st a ha).1
        omega
      · exact ha
    rcases Nat.eq_or_lt_of_le ht1 with heq | hgt
    · subst heq
      have hne : is_empty st.customer_queue = false := by
        cases he : is_empty st.customer_queue with
        | false => rfl
        | true =>
          rw [(serve_teller_of_empty rand minute t st he).1,
            serve_loop_events_of_empty rand minute n (t + 1) st he] at harest
          cases harest
      have hex : ∃ b, b ∈ serve_teller_events rand minute t st ∧ b.teller = t := by
        unfold serve_teller_events
        rw [if_pos ⟨hidle, hne⟩]
        exact ⟨_, List.mem_singleton.mpr rfl, rfl⟩
      obtain ⟨b, hb, hbt⟩ := hex
      refine ⟨b, ?_, hbt⟩
      rw [serve_loop_events, List.mem_append]
      exact Or.inl hb
    · have hidle1 : (serve_teller rand minute t st).teller_busy.getD t1 0 = 0 := by
        rw [serve_teller_timer_ne rand minute st (by omega)]
        exact hidle
      obtain ⟨b, hb, hbt⟩ :=
        serve_loop_events_lower rand minute n (t + 1) _ a harest t1 (by omega) hlt hidle1
      refine ⟨b, ?_, hbt⟩
      rw [serve_loop_events, List.mem_append]
      exact Or.inr hb

theorem serve_teller_served (rand : Nat → Nat) (minute : Int) (t : Nat) (st : SimState)
    (hc : st.teller_busy.getD t 0 = 0 ∧ is_empty st.customer_queue = false) :
    (serve_teller rand minute t st).customer_queue = (dequeue st.customer_queue).2 ∧
      (serve_teller rand minute t st).wait_times =
        st.wait_times ++ [minute - (dequeue st.customer_queue).1.arrival_time] ∧
      (serve_teller rand minute t st).total_customers_served = st.total_customers_served + 1 ∧
      (serve_teller rand minute t st).teller_busy =
        st.teller_busy.set t (2 + ((rand st.rng : Int) % 3)) := by
  unfold serve_teller
  rw [if_pos hc]
  exact ⟨rfl, rfl, rfl, rfl⟩

theorem serve_teller_not_served (rand : Nat → Nat) (minute : Int) (t : Nat) (st : SimState)
    (hc : ¬ (st.teller_busy.getD t 0 = 0 ∧ is_empty st.customer_queue = false)) :
    serve_teller rand minute t st = st ∧ serve_teller_events rand minute t st = [] := by
  unfold serve_teller serve_teller_events
  rw [if_neg hc, if_neg hc]
  exact ⟨rfl, rfl⟩

theorem serve_loop_events_queue (rand : Nat → Nat) (minute : Int) :
    ∀ (n t : Nat) (st : SimState) (cs : List Customer), Holds st.customer_queue cs →
      (serve_loop_events rand minute n t st).map (fun a => (dequeue a.queue_before).1) =
          cs.take (serve_loop_events rand minute n t st).length ∧
        Holds (serve_loop rand minute n t st).customer_queue
          (cs.drop (serve_loop_events rand minute n t st).length) ∧
        (serve_loop rand minute n t st).wait_times =
          st.wait_times ++
            (serve_loop_events rand minute n t st).map (fun a => a.customer.wait_time) ∧
        (serve_loop rand minute n t st).total_customers_served =
          st.total_customers_served + (serve_loop_events rand minute n t st).length
  | 0, _, st, cs, h => by
    simp only [serve_loop_events, serve_loop, List.map_nil, List.length_nil, List.take_zero,
      List.drop_zero, List.append_nil, Nat.cast_zero, add_zero]
    exact ⟨trivial, h, trivial, trivial⟩
  | n + 1, t, st, cs, h => by
    by_cases hc : st.teller_busy.getD t 0 = 0 ∧ is_empty st.customer_queue = false
    · obtain ⟨c, cs1, hcs, hd1, hd2⟩ := holds_dequeue h hc.2
      obtain ⟨hq, hw, hs, _⟩ := serve_teller_served rand minute t st hc
      have hev : serve_teller_events rand minute t st =
          [{ teller := t
             queue_before := st.customer_queue
             customer :=
              { (dequeue st.customer_queue).1 with
                service_start_time := minute
                wait_time := minute - (dequeue st.customer_queue).1.arrival_time }
             service_time := 2 + ((rand st.rng : Int) % 3) }] := by
        unfold serve_teller_events
        rw [if_pos hc]
      rw [← hq] at hd2
      obtain ⟨i1, i2, i3, i4⟩ := serve_loop_events_queue rand minute n (t + 1) _ cs1 hd2
      rw [serve_loop_events, serve_loop, hev, hcs]
      simp only [List.singleton_append, List.map_cons, List.length_cons, List.take_succ_cons,
        List.drop_succ_cons]
      refine ⟨?_, i2, ?_, ?_⟩
      · rw [i1, hd1]
      · rw [i3, hw]
        simp
      · rw [i4, hs]
        push_cast
        ring
    · obtain ⟨h1, h2⟩ := serve_teller_not_served rand minute t st hc
      rw [serve_loop_events, serve_loop, h1, h2]
      exact serve_loop_events_queue rand minute n (t + 1) st cs h

theorem queueNonneg_of_queue_eq {st st1 : SimState}
    (h : st1.customer_queue = st.customer_queue) (hq : QueueNonneg st) : QueueNonneg st1 := by
  obtain ⟨cs, h1, h2⟩ := hq
  exact ⟨cs, by rw [h]; exact h1, h2⟩

theorem queueNonneg_init (n : Int) : QueueNonneg (init_state n) :=
  ⟨[], holds_create_queue, by simp⟩

theorem queueNonneg_arrivals_loop {minute : Int} (hm : 0 ≤ minute) :
    ∀ (k : Nat) {st : SimState}, QueueNonneg st → QueueNonneg (arrivals_loop minute k st)
  | 0, _, h => h
  | k + 1, st, h => by
    obtain ⟨cs, h1, h2⟩ := h
    refine queueNonneg_arrivals_loop hm k ⟨cs ++ [⟨minute, -1, 0⟩], holds_enqueue h1 _, ?_⟩
    intro c hc
    rcases List.mem_append.mp hc with hc | hc
    · exact h2 c hc
    · rw [List.mem_singleton.mp hc]
      exact hm

theorem track_max_queue (st : SimState) : (track_max st).customer_queue = st.customer_queue := by
  unfold track_max
  split <;> rfl

theorem queueNonneg_serve_teller (rand : Nat → Nat) (minute : Int) (t : Nat) {st : SimState}
    (h : QueueNonneg st) : QueueNonneg (serve_teller rand minute t st) := by
  by_cases hc : st.teller_busy.getD t 0 = 0 ∧ is_empty st.customer_queue = false
  · obtain ⟨cs, h1, h2⟩ := h
    obtain ⟨c, cs1, hcs, _, hd2⟩ := holds_dequeue h1 hc.2
    refine ⟨cs1, ?_, fun x hx => h2 x (by rw [hcs]; exact List.mem_cons_of_mem _ hx)⟩
    rw [(serve_teller_served rand minute t st hc).1]
    exact hd2
  · rw [(serve_teller_not_served rand minute t st hc).1]
    exact h

theorem queueNonneg_serve_loop (rand : Nat → Nat) (minute : Int) :
    ∀ (n t : Nat) {st : SimState}, QueueNonneg st → QueueNonneg (serve_loop rand minute n t st)
  | 0, _, _, h => h
  | n + 1, t, _, h =>
    queueNonneg_serve_loop rand minute n (t + 1) (queueNonneg_serve_teller rand minute t h)

theorem queueNonneg_arrive {F : Type} [LinearOrderedField F] {exp : F → F} {RAND_MAX : Nat}
    {rand : Nat → Nat} {fuel : Nat} {lambda : F} {minute : Int} {st st1 : SimState}
    (hm : 0 ≤ minute) (h : QueueNonneg st)
    (hs : arrive exp RAND_MAX rand fuel lambda minute st = some st1) : QueueNonneg st1 := by
  unfold arrive at hs
  split at hs
  · cases hs
  · cases hs
    exact queueNonneg_arrivals_loop hm _ (queueNonneg_of_queue_eq rfl h)

theorem queueNonneg_main_loop {F : Type} [LinearOrderedField F] {exp : F → F}
    {RAND_MAX : Nat} {rand : Nat → Nat} {fuel : Nat} {lambda : F} {n : Int} :
    ∀ (k : Nat) {minute : Int} {st st1 : SimState}, 0 ≤ minute → QueueNonneg st →
      main_loop exp RAND_MAX rand fuel lambda n k minute st = some st1 → QueueNonneg st1
  | 0, _, st, st1, _, h, hs => by
    simp only [main_loop, Option.some.injEq] at hs
    subst hs
    exact h
  | k + 1, minute, st, st1, hm, h, hs => by
    rw [main_loop] at hs
    unfold horizon_tick at hs
    cases ha : arrive exp RAND_MAX rand fuel lambda minute st with
    | none => simp [ha] at hs
    | some s1 =>
      simp only [ha] at hs
      refine queueNonneg_main_loop k (by omega) ?_ hs
      unfold serve_minute
      exact queueNonneg_serve_loop rand minute _ _
        (queueNonneg_of_queue_eq (track_max_queue s1) (queueNonneg_arrive hm h ha))

theorem queueNonneg_drain_iter (rand : Nat → Nat) (n : Int) :
    ∀ (j : Nat) {st st1 : SimState}, QueueNonneg st → drain_iter rand n j st = some st1 →
      QueueNonneg st1
  | 0, st, st1, h, hs => by
    simp only [drain_iter, Option.some.injEq] at hs
    subst hs
    exact h
  | j + 1, st, st1, h, hs => by
    rw [drain_iter] at hs
    split at hs
    · refine queueNonneg_drain_iter rand n j ?_ hs
      simp only [drain_tick, drain_serve_loop_eq]
      exact queueNonneg_serve_loop rand _ _ _ (queueNonneg_of_queue_eq rfl h)
    · cases hs

theorem queueNonneg_tick_boundary {F : Type} [LinearOrderedField F] {exp : F → F}
    {RAND_MAX : Nat} {rand : Nat → Nat} {fuel : Nat} {lambda : F} {n : Int} {k : Nat}
    {st : SimState} (h : tick_boundary exp RAND_MAX rand fuel lambda n k = some st) :
    QueueNonneg st := by
  unfold tick_boundary at h
  split at h
  · exact queueNonneg_main_loop k (le_refl (0 : Int)) (queueNonneg_init n) h
  · unfold horizon_end at h
    cases h480 : main_loop exp RAND_MAX rand fuel lambda n 480 0 (init_state n) with
    | none => simp [h480] at h
    | some s480 =>
      simp only [h480] at h
      have h1 : QueueNonneg s480 :=
        queueNonneg_main_loop 480 (le_refl (0 : Int)) (queueNonneg_init n) h480
      have h2 : QueueNonneg { s480 with extra_time := 0 } := queueNonneg_of_queue_eq rfl h1
      exact queueNonneg_drain_iter rand n _ h2 h

/-! ## Ticks -/

theorem arrivals_loop_extra_time (minute : Int) :
    ∀ (k : Nat) (st : SimState), (arrivals_loop minute k st).extra_time = st.extra_time
  | 0, _ => rfl
  | k + 1, st => by rw [arrivals_loop, arrivals_loop_extra_time minute k]

theorem track_max_extra_time (st : SimState) : (track_max st).extra_time = st.extra_time := by
  unfold track_max
  split <;> rfl

theorem horizon_tick_extra_time {F : Type} [LinearOrderedField F] {exp : F → F}
    {RAND_MAX : Nat} {rand : Nat → Nat} {fuel : Nat} {lambda : F} {n : Int} {minute : Int}
    {st st1 : SimState}
    (hs : horizon_tick exp RAND_MAX rand fuel lambda n minute st = some st1) :
    st1.extra_time = st.extra_time := by
  unfold horizon_tick arrive at hs
  cases hg : generate_arrivals exp RAND_MAX rand fuel lambda st.rng with
  | none => simp [hg] at hs
  | some res =>
    obtain ⟨arrivals, rng1⟩ := res
    simp only [hg, Option.some.injEq] at hs
    rw [← hs]
    simp only [serve_minute, serve_loop_extra_time, track_max_extra_time,
      arrivals_loop_extra_time]

theorem main_loop_extra_time {F : Type} [LinearOrderedField F] {exp : F → F}
    {RAND_MAX : Nat} {rand : Nat → Nat} {fuel : Nat} {lambda : F} {n : Int} :
    ∀ (k : Nat) {minute : Int} {st st1 : SimState},
      main_loop exp RAND_MAX rand fuel lambda n k minute st = some st1 →
      st1.extra_time = st.extra_time
  | 0, _, st, st1, hs => by
    simp only [main_loop, Option.some.injEq] at hs
    rw [hs]
  | k + 1, minute, st, st1, hs => by
    rw [main_loop] at hs
    cases ht : horizon_tick exp RAND_MAX rand fuel lambda n minute st with
    | none => simp [ht] at hs
    | some s1 =>
      simp only [ht] at hs
      rw [main_loop_extra_time k hs, horizon_tick_extra_time ht]

theorem horizon_end_eq_boundary {F : Type} [LinearOrderedField F] (exp : F → F)
    (RAND_MAX : Nat) (rand : Nat → Nat) (fuel : Nat) (lambda : F) (n : Int) :
    horizon_end exp RAND_MAX rand fuel lambda n =
      horizon_boundary exp RAND_MAX rand fuel lambda n 480 := by
  unfold horizon_end horizon_boundary
  cases h : main_loop exp RAND_MAX rand fuel lambda n 480 0 (init_state n) with
  | none => rfl
  | some st =>
    have he : st.extra_time = 0 := main_loop_extra_time 480 h
    cases st
    simp only at he
    subst he
    rfl

theorem drain_iter_succ (rand : Nat → Nat) (n : Int) :
    ∀ (j : Nat) (st : SimState),
      drain_iter rand n (j + 1) st =
        (drain_iter rand n j st).bind
          (fun s => if drain_cond n s then some (drain_tick rand n s) else none)
  | 0, st => by
    simp only [drain_iter, Option.some_bind]
  | j + 1, st => by
    rw [drain_iter]
    split
    · rw [drain_iter_succ rand n j]
      conv_rhs => rw [drain_iter]
      rename_i hc
      rw [if_pos hc]
    · rename_i hc
      conv_rhs => rw [drain_iter]
      rw [if_neg hc]
      rfl

theorem drain_iter_extra_time (rand : Nat → Nat) (n : Int) :
    ∀ (j : Nat) {st st1 : SimState}, drain_iter rand n j st = some st1 →
      st1.extra_time = st.extra_time + j
  | 0, st, st1, hs => by
    simp only [drain_iter, Option.some.injEq] at hs
    rw [hs]
    simp
  | j + 1, st, st1, hs => by
    rw [drain_iter] at hs
    split at hs
    · rw [drain_iter_extra_time rand n j hs, drain_tick_extra_time]
      push_cast
      ring
    · cases hs

theorem horizon_boundary_succ {F : Type} [LinearOrderedField F] (exp : F → F)
    (RAND_MAX : Nat) (rand : Nat → Nat) (fuel : Nat) (lambda : F) (n : Int) (k : Nat) :
    horizon_boundary exp RAND_MAX rand fuel lambda n (k + 1) =
      (horizon_boundary exp RAND_MAX rand fuel lambda n k).bind
        (horizon_tick exp RAND_MAX rand fuel lambda n (k : Int)) := by
  unfold horizon_boundary
  rw [main_loop_succ, zero_add]

theorem tick_boundary_succ {F : Type} [LinearOrderedField F] (exp : F → F)
    (RAND_MAX : Nat) (rand : Nat → Nat) (fuel : Nat) (lambda : F) (n : Int) (k : Nat) :
    tick_boundary exp RAND_MAX rand fuel lambda n (k + 1) =
      tick_assign_end exp RAND_MAX rand fuel lambda n k := by
  by_cases hk : k < 480
  · have hb : tick_boundary exp RAND_MAX rand fuel lambda n (k + 1) =
        horizon_boundary exp RAND_MAX rand fuel lambda n (k + 1) := by
      unfold tick_boundary
      by_cases hk1 : k + 1 < 480
      · rw [if_pos hk1]
      · have h480 : k + 1 = 480 := by omega
        rw [if_neg hk1, h480, horizon_end_eq_boundary]
        cases horizon_boundary exp RAND_MAX rand fuel lambda n 480 <;> rfl
    rw [hb, horizon_boundary_succ]
    unfold tick_assign_end tick_assign_state
    rw [if_pos hk]
    cases horizon_boundary exp RAND_MAX rand fuel lambda n k with
    | none => rfl
    | some st =>
      simp only [Option.some_bind, horizon_tick]
      cases arrive exp RAND_MAX rand fuel lambda (k : Int) st with
      | none => rfl
      | some st1 =>
        simp only [if_pos hk]
        rfl
  · have hk1 : ¬ k + 1 < 480 := by omega
    have hsub : k + 1 - 480 = (k - 480) + 1 := by omega
    unfold tick_assign_end tick_assign_state
    rw [if_neg hk]
    unfold tick_boundary
    rw [if_neg hk, if_neg hk1, hsub]
    cases horizon_end exp RAND_MAX rand fuel lambda n with
    | none => rfl
    | some st0 =>
      simp only [drain_iter_succ]
      cases drain_iter rand n (k - 480) st0 with
      | none => rfl
      | some st =>
        simp only [Option.some_bind]
        by_cases hc : drain_cond n st = true
        · simp only [if_pos hc, if_neg hk]
          rfl
        · simp only [if_neg hc]

theorem tick_assign_state_inv {F : Type} [LinearOrderedField F] {exp : F → F}
    {RAND_MAX : Nat} {rand : Nat → Nat} {fuel : Nat} {lambda : F} {n : Int} {k : Nat}
    {st2 : SimState}
    (h : tick_assign_state exp RAND_MAX rand fuel lambda n k = some st2) :
    QueueNonneg st2 ∧
      (k < 480 → Inv n (k : Int) st2) ∧
      (480 ≤ k → Inv n (480 + st2.extra_time) st2 ∧ st2.extra_time = (k : Int) - 480 + 1) := by
  unfold tick_assign_state at h
  split at h
  · rename_i hk
    cases hb : horizon_boundary exp RAND_MAX rand fuel lambda n k with
    | none => simp [hb] at h
    | some st =>
      simp only [hb] at h
      cases ha : arrive exp RAND_MAX rand fuel lambda (k : Int) st with
      | none => simp [ha] at h
      | some st1 =>
        simp only [ha, Option.some.injEq] at h
        subst h
        have hq0 : QueueNonneg st :=
          queueNonneg_main_loop k (le_refl (0 : Int)) (queueNonneg_init n) hb
        have hq1 := queueNonneg_arrive (Int.natCast_nonneg k) hq0 ha
        have hi0 : Inv n (0 + (k : Int)) st := inv_main_loop k (inv_init n 0) hb
        rw [zero_add] at hi0
        have hi1 := inv_arrive hi0 ha
        refine ⟨queueNonneg_of_queue_eq (track_max_queue st1) hq1, fun _ => ?_,
          fun h480 => absurd hk (by omega)⟩
        exact inv_update_tellers (inv_track_max hi1)
  · rename_i hk
    cases hb : tick_boundary exp RAND_MAX rand fuel lambda n k with
    | none => simp [hb] at h
    | some st =>
      simp only [hb] at h
      split at h
      · simp only [Option.some.injEq] at h
        subst h
        have hq := queueNonneg_tick_boundary hb
        have hb1 := hb
        unfold tick_boundary at hb1
        rw [if_neg hk] at hb1
        cases h0 : horizon_end exp RAND_MAX rand fuel lambda n with
        | none => simp [h0] at hb1
        | some st0 =>
          simp only [h0] at hb1
          have hi := inv_drain_iter rand _ (inv_horizon_end h0) hb1
          have he := drain_iter_extra_time rand n _ hb1
          have he0 : st0.extra_time = 0 := by
            unfold horizon_end at h0
            split at h0
            · cases h0
            · cases h0
              rfl
          refine ⟨queueNonneg_of_queue_eq rfl hq, fun h1 => absurd h1 hk, fun _ => ⟨?_, ?_⟩⟩
          · have h1 : Inv n (480 + (st.extra_time + 1))
                { st with extra_time := st.extra_time + 1 } :=
              (show Inv n (480 + st.extra_time) { st with extra_time := st.extra_time + 1 } from
                ⟨hi.queue, hi.count, hi.length, hi.waits, hi.tellers, hi.tlen⟩).mono (by omega)
            exact inv_update_tellers h1
          · simp only [he, he0]
            omega
      · cases h

theorem tick_events_spec {F : Type} [LinearOrderedField F] {exp : F → F}
    {RAND_MAX : Nat} {rand : Nat → Nat} {fuel : Nat} {lambda : F} {n : Int} {k : Nat}
    {evs : List Assignment}
    (h : tick_events exp RAND_MAX rand fuel lambda n k = some evs) :
    ∃ st2 now, tick_assign_state exp RAND_MAX rand fuel lambda n k = some st2 ∧
      evs = serve_loop_events rand now n.toNat 0 st2 ∧
      tick_boundary exp RAND_MAX rand fuel lambda n (k + 1) =
        some (serve_loop rand now n.toNat 0 st2) ∧
      (k < 480 → now = (k : Int)) ∧ (480 ≤ k → now = 480 + st2.extra_time) := by
  unfold tick_events at h
  cases h2 : tick_assign_state exp RAND_MAX rand fuel lambda n k with
  | none => simp [h2] at h
  | some st2 =>
    simp only [h2] at h
    rw [tick_boundary_succ]
    unfold tick_assign_end
    simp only [h2]
    by_cases hk : k < 480
    · rw [if_pos hk] at h ⊢
      simp only [Option.some.injEq] at h
      exact ⟨st2, (k : Int), rfl, h.symm, rfl, fun _ => rfl, fun h480 => absurd hk (by omega)⟩
    · rw [if_neg hk] at h ⊢
      simp only [Option.some.injEq] at h
      refine ⟨st2, 480 + st2.extra_time, rfl, ?_, ?_, fun h1 => absurd h1 hk, fun _ => rfl⟩
      · rw [← h, drain_serve_loop_events_eq]
      · rw [drain_serve_loop_eq]

theorem serve_loop_events_customer (rand : Nat → Nat) (now : Int) :
    ∀ (n t : Nat) (st : SimState) (a : Assignment),
      a ∈ serve_loop_events rand now n t st →
      a.customer.arrival_time = (dequeue a.queue_before).1.arrival_time ∧
        a.customer.service_start_time = now ∧
        a.customer.wait_time = now - (dequeue a.queue_before).1.arrival_time
  | 0, _, _, _, ha => by cases ha
  | n + 1, t, st, a, ha => by
    rw [serve_loop_events, List.mem_append] at ha
    rcases ha with ha | ha
    · obtain ⟨_, h2, _, _, h5, _⟩ := serve_teller_events_teller rand now t st a ha
      rw [h5, h2]
      exact ⟨rfl, rfl, rfl⟩
    · exact serve_loop_events_customer rand now n (t + 1) _ a ha

theorem serve_loop_timer_lt (rand : Nat → Nat) (now : Int) :
    ∀ (n t : Nat) (st : SimState) (t1 : Nat), t1 < t →
      (serve_loop rand now n t st).teller_busy.getD t1 0 = st.teller_busy.getD t1 0
  | 0, _, _, _, _ => rfl
  | n + 1, t, st, t1, h => by
    rw [serve_loop, serve_loop_timer_lt rand now n (t + 1) _ t1 (by omega),
      serve_teller_timer_ne rand now st (by omega)]

theorem serve_teller_timers_length (rand : Nat → Nat) (now : Int) (t : Nat) (st : SimState) :
    (serve_teller rand now t st).teller_busy.length = st.teller_busy.length := by
  unfold serve_teller
  split
  · simp [record_wait]
  · rfl

theorem serve_loop_events_timer (rand : Nat → Nat) (now : Int) :
    ∀ (n t : Nat) (st : SimState) (a : Assignment),
      a ∈ serve_loop_events rand now n t st → t + n ≤ st.teller_busy.length →
      (serve_loop rand now n t st).teller_busy.getD a.teller 0 = a.service_time
  | 0, _, _, _, ha, _ => by cases ha
  | n + 1, t, st, a, ha, hlen => by
    rw [serve_loop_events, List.mem_append] at ha
    rw [serve_loop]
    rcases ha with ha | ha
    · obtain ⟨h1, _, h3, h4, _, h6⟩ := serve_teller_events_teller rand now t st a ha
      rw [h1, h6, serve_loop_timer_lt rand now n (t + 1) _ t (by omega)]
      exact serve_teller_timer rand now t st h3 h4 (by omega)
    · exact serve_loop_events_timer rand now n (t + 1) _ a ha
        (by rw [serve_teller_timers_length]; omega)

theorem free_queue_calls_nonempty :
    ∀ (fuel : Nat) (q q1 : Queue), q1 ∈ free_queue_calls fuel q → is_empty q1 = false
  | 0, _, _, h => by cases h
  | fuel + 1, q, q1, h => by
    rw [free_queue_calls] at h
    split at h
    · rename_i hq
      rcases List.mem_cons.mp h with h | h
      · rw [h]
        exact hq
      · exact free_queue_calls_nonempty fuel _ q1 h
    · cases h

theorem free_queue_terminates :
    ∀ (cs : List Customer) (q : Queue), Holds q cs →
      ∃ q1, free_queue_loop cs.length q = some q1 ∧ is_empty q1 = true ∧
        (free_queue_calls cs.length q).length = cs.length
  | [], q, h => by
    have he := (holds_is_empty h).mpr rfl
    refine ⟨q, ?_, he, rfl⟩
    simp [free_queue_loop, he]
  | c :: cs1, q, h => by
    have hne : is_empty q = false := by
      cases he : is_empty q with
      | false => rfl
      | true => exact absurd ((holds_is_empty h).mp he) (by simp)
    obtain ⟨c1, cs2, hcs, _, hd⟩ := holds_dequeue h hne
    cases hcs
    obtain ⟨q1, h1, h2, h3⟩ := free_queue_terminates cs1 _ hd
    refine ⟨q1, ?_, h2, ?_⟩
    · simp only [List.length_cons, free_queue_loop, hne, if_true]
      exact h1
    · simp only [List.length_cons, free_queue_calls, hne, if_true, h3]

/-- C16: in every tick of `run_simulation` (main loop or drain loop, any
`lambda`, any `num_tellers`, any draws) every call of `dequeue` is made on a
queue whose front is not `NULL`, and the customer it returns is a queued
customer with arrival time `>= 0`, not the sentinel `{-1, -1, -1}`; the wait
times stored in the tick are those of these customers, and `-1` is not in the
dataset.  The loop of `free_queue` calls `dequeue` on non-empty queues only,
and on a well-formed queue it ends with the queue empty after one call per
stored customer. -/
theorem dequeue_guarded {F : Type} [LinearOrderedField F] (exp : F → F) (RAND_MAX : Nat)
    (rand : Nat → Nat) (fuel : Nat) (lambda : F) (num_tellers : Int) (k : Nat)
    (evs : List Assignment) (a : Assignment)
    (h : tick_events exp RAND_MAX rand fuel lambda num_tellers k = some evs) (ha : a ∈ evs) :
    (is_empty a.queue_before = false ∧ a.queue_before.front ≠ none ∧
        (dequeue a.queue_before).1 ≠ ⟨-1, -1, -1⟩ ∧
        0 ≤ (dequeue a.queue_before).1.arrival_time) ∧
      (∃ st2 st, tick_assign_state exp RAND_MAX rand fuel lambda num_tellers k = some st2 ∧
        tick_boundary exp RAND_MAX rand fuel lambda num_tellers (k + 1) = some st ∧
        st.wait_times = st2.wait_times ++ evs.map (fun e => e.customer.wait_time) ∧
        (-1 : Int) ∉ st.wait_times) ∧
      (∀ (fuel1 : Nat) (q q1 : Queue), q1 ∈ free_queue_calls fuel1 q → is_empty q1 = false) ∧
      (∀ (q : Queue) (cs : List Customer), Holds q cs →
        ∃ q1, free_queue_loop cs.length q = some q1 ∧ is_empty q1 = true ∧
          (free_queue_calls cs.length q).length = cs.length) := by
  obtain ⟨st2, now, h2, hev, hb, _, _⟩ := tick_events_spec h
  obtain ⟨hq, _, _⟩ := tick_assign_state_inv h2
  obtain ⟨cs, hcs, hnn⟩ := hq
  obtain ⟨hpre, _, hw, _⟩ := serve_loop_events_queue rand now num_tellers.toNat 0 st2 cs hcs
  rw [← hev] at hpre hw
  have hne : is_empty a.queue_before = false := by
    rw [hev] at ha
    exact (serve_loop_events_teller rand now _ _ _ a ha).2.2.2
  have hmem : (dequeue a.queue_before).1 ∈ cs := by
    have : (dequeue a.queue_before).1 ∈ evs.map (fun e => (dequeue e.queue_before).1) :=
      List.mem_map.mpr ⟨a, ha, rfl⟩
    rw [hpre] at this
    exact List.mem_of_mem_take this
  have hpos := hnn _ hmem
  refine ⟨⟨hne, ?_, ?_, hpos⟩, ⟨st2, _, h2, hb, hw, ?_⟩, free_queue_calls_nonempty,
    fun q cs1 hq1 => free_queue_terminates cs1 q hq1⟩
  · intro hf
    simp [is_empty, hf] at hne
  · intro hs
    rw [hs] at hpos
    exact absurd hpos (by decide)
  · intro hm
    obtain ⟨now1, hinv⟩ := inv_tick_boundary hb
    exact absurd (hinv.waits _ hm) (by decide)

theorem dequeue_guarded_witness :
    tick_events demo_exp 32767 demo_rand_early 10 1 2 0 = some demo_events_0 ∧
      (is_empty demo_queue_2 = false ∧ demo_queue_2.front ≠ none ∧
        (dequeue demo_queue_2).1 ≠ ⟨-1, -1, -1⟩ ∧ 0 ≤ (dequeue demo_queue_2).1.arrival_time) :=
  ⟨by decide!,
    (dequeue_guarded demo_exp 32767 demo_rand_early 10 1 2 0 demo_events_0
      ⟨0, demo_queue_2, ⟨0, 0, 0⟩, 2⟩ (by decide!) (by decide)).1⟩

/-- C17: a customer dequeued in minute `k` of the main loop gets the service
start time `k` and the wait time `k - arrival_time`; a customer dequeued in a
drain iteration gets the service start time `480 + e` and the wait time
`(480 + e) - arrival_time`, where `e` is the value of `extra_time` during the
assignment loop of that iteration (the number of drain iterations begun); the
wait times stored in the tick are these wait times, in order. -/
theorem recorded_service_times {F : Type} [LinearOrderedField F] (exp : F → F)
    (RAND_MAX : Nat) (rand : Nat → Nat) (fuel : Nat) (lambda : F) (num_tellers : Int) (k : Nat)
    (evs : List Assignment) (a : Assignment)
    (h : tick_events exp RAND_MAX rand fuel lambda num_tellers k = some evs) (ha : a ∈ evs) :
    a.customer.arrival_time = (dequeue a.queue_before).1.arrival_time ∧
      (k < 480 → a.customer.service_start_time = (k : Int) ∧
        a.customer.wait_time = (k : Int) - a.customer.arrival_time) ∧
      (∃ st2 st, tick_assign_state exp RAND_MAX rand fuel lambda num_tellers k = some st2 ∧
        tick_boundary exp RAND_MAX rand fuel lambda num_tellers (k + 1) = some st ∧
        st.wait_times = st2.wait_times ++ evs.map (fun e => e.customer.wait_time) ∧
        st.extra_time = st2.extra_time ∧
        (480 ≤ k → st2.extra_time = (k : Int) - 480 + 1 ∧
          a.customer.service_start_time = 480 + st2.extra_time ∧
          a.customer.wait_time = (480 + st2.extra_time) - a.customer.arrival_time)) := by
  obtain ⟨st2, now, h2, hev, hb, hlt, hge⟩ := tick_events_spec h
  obtain ⟨hq, _, hdrain⟩ := tick_assign_state_inv h2
  obtain ⟨cs, hcs, _⟩ := hq
  obtain ⟨_, _, hw, _⟩ := serve_loop_events_queue rand now num_tellers.toNat 0 st2 cs hcs
  rw [← hev] at hw
  rw [hev] at ha
  obtain ⟨h1, h3, h4⟩ := serve_loop_events_customer rand now _ _ _ a ha
  refine ⟨h1, fun hk => ?_, st2, _, h2, hb, hw, serve_loop_extra_time _ _ _ _ _, fun hk => ?_⟩
  · rw [h3, h4, h1, hlt hk]
    exact ⟨rfl, rfl⟩
  · rw [h3, h4, h1, hge hk]
    exact ⟨(hdrain hk).2, rfl, rfl⟩

theorem demo_events_481_eq :
    tick_assign_state demo_exp 32767 demo_rand 10 1 1 481 = some demo_assign_481 ∧
      tick_events demo_exp 32767 demo_rand 10 1 1 481 = some [demo_event_481] := by
  have hb := demo_boundary_eq 1 { demo_horizon_end with teller_busy := [1], extra_time := 1 }
    (by decide)
  have h2 : tick_assign_state demo_exp 32767 demo_rand 10 1 1 481 = some demo_assign_481 := by
    rw [tick_assign_state, if_neg (by decide), hb]
    decide
  refine ⟨h2, ?_⟩
  rw [tick_events, h2]
  decide

theorem recorded_service_times_witness :
    tick_events demo_exp 32767 demo_rand 10 1 1 481 = some [demo_event_481] ∧
      demo_event_481 ∈ [demo_event_481] ∧
      demo_event_481.customer.arrival_time =
        (dequeue demo_event_481.queue_before).1.arrival_time :=
  ⟨demo_events_481_eq.2, List.mem_singleton.mpr rfl,
    (recorded_service_times demo_exp 32767 demo_rand 10 1 1 481 [demo_event_481]
      demo_event_481 demo_events_481_eq.2 (List.mem_singleton.mpr rfl)).1⟩

/-- C18: in every tick (main loop or drain loop) the assignments are made in
ascending teller order: the tellers that take a customer have strictly
increasing indices, each was idle after the decrement of the tick, every lower
teller that was idle after the decrement took a customer too, the customers
taken are the first customers of the queue in queue order (so a customer nearer
the head goes to a lower teller), and each such teller ends the tick with the
service time it drew. -/
theorem assignment_order {F : Type} [LinearOrderedField F] (exp : F → F) (RAND_MAX : Nat)
    (rand : Nat → Nat) (fuel : Nat) (lambda : F) (num_tellers : Int) (k : Nat) (st2 : SimState)
    (evs : List Assignment)
    (h2 : tick_assign_state exp RAND_MAX rand fuel lambda num_tellers k = some st2)
    (h : tick_events exp RAND_MAX rand fuel lambda num_tellers k = some evs) :
    (evs.map Assignment.teller).Pairwise (fun t1 t2 => t1 < t2) ∧
      (∀ a ∈ evs, a.teller < num_tellers.toNat ∧ st2.teller_busy.getD a.teller 0 = 0) ∧
      (∀ a ∈ evs, ∀ t1, t1 < a.teller → st2.teller_busy.getD t1 0 = 0 →
        ∃ b ∈ evs, b.teller = t1) ∧
      (∃ cs, Holds st2.customer_queue cs ∧
        evs.map (fun e => (dequeue e.queue_before).1) = cs.take evs.length) ∧
      (∃ st, tick_boundary exp RAND_MAX rand fuel lambda num_tellers (k + 1) = some st ∧
        ∀ a ∈ evs, st.teller_busy.getD a.teller 0 = a.service_time) := by
  obtain ⟨st2a, now, h2a, hev, hb, _, _⟩ := tick_events_spec h
  rw [h2] at h2a
  cases h2a
  obtain ⟨hq, hlt, hge⟩ := tick_assign_state_inv h2
  obtain ⟨cs, hcs, _⟩ := hq
  have hlen : st2.teller_busy.length = num_tellers.toNat := by
    by_cases hk : k < 480
    · exact (hlt hk).tlen
    · exact (hge (by omega)).1.tlen
  obtain ⟨hpre, _, _, _⟩ := serve_loop_events_queue rand now num_tellers.toNat 0 st2 cs hcs
  rw [hev]
  refine ⟨serve_loop_events_sorted rand now _ _ _, ?_, ?_, ⟨cs, hcs, hpre⟩, _, hb, ?_⟩
  · intro a ha
    obtain ⟨_, h1, h3, _⟩ := serve_loop_events_teller rand now _ _ _ a ha
    exact ⟨by omega, h3⟩
  · intro a ha t1 ht1 hidle
    exact serve_loop_events_lower rand now _ _ _ a ha t1 (Nat.zero_le _) ht1 hidle
  · intro a ha
    exact serve_loop_events_timer rand now _ _ _ a ha (by omega)

theorem assignment_order_witness :
    tick_assign_state demo_exp 32767 demo_rand_early 10 1 2 0 = some demo_assign_0 ∧
      tick_events demo_exp 32767 demo_rand_early 10 1 2 0 = some demo_events_0 ∧
      (demo_events_0.map Assignment.teller).Pairwise (fun t1 t2 => t1 < t2) :=
  ⟨by decide!, by decide!,
    (assignment_order demo_exp 32767 demo_rand_early 10 1 2 0 demo_assign_0 demo_events_0
      (by decide!) (by decide!)).1⟩

/-! ## Work conservation -/

theorem getD_nonneg_of_inv {n now : Int} {st : SimState} (h : Inv n now st) (i : Nat) :
    0 ≤ st.teller_busy.getD i 0 := by
  rw [List.getD_eq_getElem?_getD]
  cases hi : st.teller_busy[i]? with
  | none => exact le_refl _
  | some b => exact h.tellers b (List.getElem?_mem hi)

theorem serve_loop_conserves {n now : Int} (rand : Nat → Nat) :
    ∀ (m t : Nat) (st : SimState), Inv n now st → t + m ≤ st.teller_busy.length →
      (is_empty st.customer_queue = true ∨ ∀ i, i < t → 0 < st.teller_busy.getD i 0) →
      (is_empty (serve_loop rand now m t st).customer_queue = true ∨
        ∀ i, i < t + m → 0 < (serve_loop rand now m t st).teller_busy.getD i 0)
  | 0, _, _, _, _, h => h
  | m + 1, t, st, hinv, hlen, h => by
    rw [serve_loop]
    have hlen1 : t + 1 + m ≤ (serve_teller rand now t st).teller_busy.length := by
      rw [serve_teller_timers_length]
      omega
    have hstep : is_empty (serve_teller rand now t st).customer_queue = true ∨
        ∀ i, i < t + 1 → 0 < (serve_teller rand now t st).teller_busy.getD i 0 := by
      cases he : is_empty st.customer_queue with
      | true =>
        left
        rw [(serve_teller_of_empty rand now t st he).1]
        exact he
      | false =>
        right
        have hprev : ∀ i, i < t → 0 < st.teller_busy.getD i 0 := by
          rcases h with h | h
          · rw [he] at h
            cases h
          · exact h
        intro i hi
        rcases Nat.eq_or_lt_of_le (Nat.le_of_lt_succ hi) with heq | hlt
        · subst heq
          by_cases hidle : st.teller_busy.getD i 0 = 0
          · rw [serve_teller_timer rand now i st hidle he (by omega)]
            have := (service_time_bounds (rand st.rng)).1
            omega
          · rw [(serve_teller_not_served rand now i st (fun hc => hidle hc.1)).1]
            have := getD_nonneg_of_inv hinv i
            omega
        · rw [serve_teller_timer_ne rand now st (by omega)]
          exact hprev i hlt
    have := serve_loop_conserves rand m (t + 1) _ (inv_serve_teller rand t hinv) hlen1 hstep
    rcases this with h1 | h1
    · exact Or.inl h1
    · right
      intro i hi
      exact h1 i (by omega)

/-- C20: work conservation.  At every tick boundary of `run_simulation`, in
the main loop and in the drain loop and for every `num_tellers`, either the
queue is empty or every teller's timer is `> 0`. -/
theorem work_conservation {F : Type} [LinearOrderedField F] (exp : F → F) (RAND_MAX : Nat)
    (rand : Nat → Nat) (fuel : Nat) (lambda : F) (num_tellers : Int) (k : Nat) (st : SimState)
    (h : tick_boundary exp RAND_MAX rand fuel lambda num_tellers k = some st) :
    is_empty st.customer_queue = true ∨
      ((∀ b ∈ st.teller_busy, 0 < b) ∧
        ∀ t, t < num_tellers.toNat → 0 < st.teller_busy.getD t 0) := by
  cases k with
  | zero =>
    left
    simp only [tick_boundary, horizon_boundary, main_loop, Nat.zero_lt_succ, if_true,
      Nat.ofNat_pos, Option.some.injEq] at h
    rw [← h]
    rfl
  | succ k =>
    rw [tick_boundary_succ] at h
    unfold tick_assign_end at h
    cases h2 : tick_assign_state exp RAND_MAX rand fuel lambda num_tellers k with
    | none => simp [h2] at h
    | some st2 =>
      simp only [h2] at h
      obtain ⟨_, hlt, hge⟩ := tick_assign_state_inv h2
      have key : ∀ now, Inv num_tellers now st2 →
          st = serve_loop rand now num_tellers.toNat 0 st2 →
          is_empty st.customer_queue = true ∨
            ((∀ b ∈ st.teller_busy, 0 < b) ∧
              ∀ t, t < num_tellers.toNat → 0 < st.teller_busy.getD t 0) := by
        intro now hinv hst
        have hlen := hinv.tlen
        have hc := serve_loop_conserves rand num_tellers.toNat 0 st2 hinv (by omega)
          (Or.inr (fun i hi => absurd hi (Nat.not_lt_zero i)))
        rw [← hst, zero_add] at hc
        rcases hc with hc | hc
        · exact Or.inl hc
        · right
          refine ⟨?_, hc⟩
          intro b hb
          obtain ⟨i, hi, hbi⟩ := List.getElem_of_mem hb
          have hlen2 : st.teller_busy.length = num_tellers.toNat := by
            rw [hst]
            exact (inv_serve_loop rand _ _ hinv).tlen
          have := hc i (by omega)
          rw [List.getD_eq_getElem _ _ hi, hbi] at this
          exact this
      by_cases hk : k < 480
      · rw [if_pos hk] at h
        simp only [Option.some.injEq] at h
        exact key _ (hlt hk) h.symm
      · rw [if_neg hk] at h
        simp only [Option.some.injEq] at h
        rw [drain_serve_loop_eq] at h
        exact key _ (hge (by omega)).1 h.symm

theorem work_conservation_witness :
    tick_boundary demo_exp 32767 demo_rand 10 1 1 483 = some demo_drain_3 ∧
      (is_empty demo_drain_3.customer_queue = true ∨
        ((∀ b ∈ demo_drain_3.teller_busy, 0 < b) ∧
          ∀ t, t < (1 : Int).toNat → 0 < demo_drain_3.teller_busy.getD t 0)) :=
  ⟨demo_boundary_eq 3 demo_drain_3 (by decide),
    work_conservation demo_exp 32767 demo_rand 10 1 1 483 demo_drain_3
      (demo_boundary_eq 3 demo_drain_3 (by decide))⟩

/-! ## Service capacity of the main loop -/

theorem service_cap_dec {k b : Int} (hk : 0 ≤ k) (hb : 0 ≤ b) :
    service_cap k b ≤ service_cap (k + 1) (dec_timer b) := by
  unfold service_cap dec_timer
  split_ifs <;> omega

theorem service_cap_serve {k v : Int} (hk : 0 ≤ k) (hv : 2 ≤ v) :
    service_cap (k + 1) 0 + 1 ≤ service_cap (k + 1) v := by
  unfold service_cap
  split_ifs <;> omega

theorem service_cap_le (b : Int) : service_cap 480 b ≤ 240 := by
  unfold service_cap
  split_ifs <;> omega

theorem sum_map_le_sum_map (f g : Int → Int) :
    ∀ l : List Int, (∀ b ∈ l, f b ≤ g b) → (l.map f).sum ≤ (l.map g).sum
  | [], _ => le_refl _
  | x :: xs, h => by
    have h1 := h x (by simp)
    have h2 := sum_map_le_sum_map f g xs (fun b hb => h b (by simp [hb]))
    simp only [List.map_cons, List.sum_cons]
    omega

theorem sum_map_set (f : Int → Int) :
    ∀ (l : List Int) (t : Nat) (v : Int), t < l.length →
      ((l.set t v).map f).sum = (l.map f).sum - f (l.getD t 0) + f v
  | [], _, _, h => by simp at h
  | x :: xs, 0, v, _ => by
    simp only [List.set_cons_zero, List.map_cons, List.sum_cons, List.getD_cons_zero]
    omega
  | x :: xs, t + 1, v, h => by
    have := sum_map_set f xs t v (by simpa using h)
    simp only [List.set_cons_succ, List.map_cons, List.sum_cons, List.getD_cons_succ, this]
    omega

theorem sum_map_le_mul (f : Int → Int) (c : Int) :
    ∀ l : List Int, (∀ b ∈ l, f b ≤ c) → (l.map f).sum ≤ c * l.length
  | [], _ => by simp
  | x :: xs, h => by
    have h1 := h x (by simp)
    have h2 := sum_map_le_mul f c xs (fun b hb => h b (by simp [hb]))
    simp only [List.map_cons, List.sum_cons, List.length_cons]
    push_cast
    rw [mul_add, mul_one]
    omega

theorem serve_teller_cap (rand : Nat → Nat) (now : Int) {k : Int} (hk : 0 ≤ k) (t : Nat)
    (st : SimState) (ht : t < st.teller_busy.length)
    (h : st.total_customers_served ≤ (st.teller_busy.map (service_cap (k + 1))).sum) :
    (serve_teller rand now t st).total_customers_served ≤
      ((serve_teller rand now t st).teller_busy.map (service_cap (k + 1))).sum := by
  by_cases hc : st.teller_busy.getD t 0 = 0 ∧ is_empty st.customer_queue = false
  · obtain ⟨_, _, hs, htb⟩ := serve_teller_served rand now t st hc
    rw [hs, htb, sum_map_set _ _ _ _ ht, hc.1]
    have := service_cap_serve hk (service_time_bounds (rand st.rng)).1
    omega
  · rw [(serve_teller_not_served rand now t st hc).1]
    exact h

theorem serve_loop_cap (rand : Nat → Nat) (now : Int) {k : Int} (hk : 0 ≤ k) :
    ∀ (m t : Nat) (st : SimState), t + m ≤ st.teller_busy.length →
      st.total_customers_served ≤ (st.teller_busy.map (service_cap (k + 1))).sum →
      (serve_loop rand now m t st).total_customers_served ≤
        ((serve_loop rand now m t st).teller_busy.map (service_cap (k + 1))).sum
  | 0, _, _, _, h => h
  | m + 1, t, st, hlen, h => by
    rw [serve_loop]
    exact serve_loop_cap rand now hk m (t + 1) _
      (by rw [serve_teller_timers_length]; omega)
      (serve_teller_cap rand now hk t st (by omega) h)

theorem arrivals_loop_tellers (minute : Int) :
    ∀ (k : Nat) (st : SimState), (arrivals_loop minute k st).teller_busy = st.teller_busy
  | 0, _ => rfl
  | k + 1, st => by rw [arrivals_loop, arrivals_loop_tellers minute k]

theorem arrive_served {F : Type} [LinearOrderedField F] {exp : F → F} {RAND_MAX : Nat}
    {rand : Nat → Nat} {fuel : Nat} {lambda : F} {minute : Int} {st st1 : SimState}
    (hs : arrive exp RAND_MAX rand fuel lambda minute st = some st1) :
    st1.total_customers_served = st.total_customers_served ∧
      st1.teller_busy = st.teller_busy := by
  unfold arrive at hs
  split at hs
  · cases hs
  · cases hs
    exact ⟨(arrivals_loop_served minute _ _).1, arrivals_loop_tellers minute _ _⟩

theorem track_max_tellers (st : SimState) :
    (track_max st).teller_busy = st.teller_busy ∧
      (track_max st).total_customers_served = st.total_customers_served := by
  unfold track_max
  split <;> exact ⟨rfl, rfl⟩

theorem horizon_boundary_cap {F : Type} [LinearOrderedField F] (exp : F → F) (RAND_MAX : Nat)
    (rand : Nat → Nat) (fuel : Nat) (lambda : F) (n : Int) :
    ∀ (k : Nat) (st : SimState),
      horizon_boundary exp RAND_MAX rand fuel lambda n k = some st →
      st.total_customers_served ≤ (st.teller_busy.map (service_cap (k : Int))).sum
  | 0, st, h => by
    simp only [horizon_boundary, main_loop, Option.some.injEq] at h
    rw [← h]
    have : ∀ m : Nat, ((List.replicate m (0 : Int)).map (service_cap ((0 : Nat) : Int))).sum = 0 := by
      intro m
      induction m with
      | zero => rfl
      | succ m ih =>
        rw [List.replicate_succ, List.map_cons, List.sum_cons, ih]
        decide
    simp only [init_state, this]
    exact le_refl _
  | k + 1, st, h => by
    rw [horizon_boundary_succ] at h
    cases hb : horizon_boundary exp RAND_MAX rand fuel lambda n k with
    | none => simp [hb] at h
    | some s0 =>
      simp only [hb, Option.some_bind, horizon_tick] at h
      cases ha : arrive exp RAND_MAX rand fuel lambda (k : Int) s0 with
      | none => simp [ha] at h
      | some s1 =>
        simp only [ha, Option.some.injEq] at h
        have ih := horizon_boundary_cap exp RAND_MAX rand fuel lambda n k s0 hb
        have hinv0 : Inv n (0 + (k : Int)) s0 := inv_main_loop k (inv_init n 0) hb
        obtain ⟨hs1, ht1⟩ := arrive_served ha
        obtain ⟨ht2, hs2⟩ := track_max_tellers s1
        have hk : (0 : Int) ≤ (k : Int) := Int.natCast_nonneg k
        have hmap : update_tellers n (track_max s1).teller_busy =
            s0.teller_busy.map dec_timer := by
          rw [ht2, ht1]
          exact update_tellers_eq_map hinv0.tlen
        have hstart : ({ track_max s1 with
              teller_busy := update_tellers n (track_max s1).teller_busy } :
                SimState).total_customers_served ≤
            (({ track_max s1 with
              teller_busy := update_tellers n (track_max s1).teller_busy } :
                SimState).teller_busy.map (service_cap ((k : Int) + 1))).sum := by
          show (track_max s1).total_customers_served ≤
            ((update_tellers n (track_max s1).teller_busy).map (service_cap ((k : Int) + 1))).sum
          rw [hmap, hs2, hs1, List.map_map]
          refine le_trans ih (sum_map_le_sum_map _ _ _ ?_)
          intro b hb1
          exact service_cap_dec hk (hinv0.tellers b hb1)
        have hlen : 0 + n.toNat ≤ ({ track_max s1 with
              teller_busy := update_tellers n (track_max s1).teller_busy } :
                SimState).teller_busy.length := by
          show 0 + n.toNat ≤ (update_tellers n (track_max s1).teller_busy).length
          rw [hmap, List.length_map, hinv0.tlen]
          omega
        have := serve_loop_cap rand (k : Int) hk n.toNat 0 _ hlen hstart
        rw [← h]
        simpa [serve_minute] using this

theorem serve_teller_arrived (rand : Nat → Nat) (now : Int) (t : Nat) (st : SimState) :
    (serve_teller rand now t st).total_customers_arrived = st.total_customers_arrived := by
  unfold serve_teller
  split <;> rfl

theorem serve_loop_arrived (rand : Nat → Nat) (now : Int) :
    ∀ (m t : Nat) (st : SimState),
      (serve_loop rand now m t st).total_customers_arrived = st.total_customers_arrived
  | 0, _, _ => rfl
  | m + 1, t, st => by
    rw [serve_loop, serve_loop_arrived rand now m (t + 1), serve_teller_arrived]

theorem drain_iter_arrived (rand : Nat → Nat) (n : Int) :
    ∀ (j : Nat) {st st1 : SimState}, drain_iter rand n j st = some st1 →
      st1.total_customers_arrived = st.total_customers_arrived
  | 0, st, st1, hs => by
    simp only [drain_iter, Option.some.injEq] at hs
    rw [hs]
  | j + 1, st, st1, hs => by
    rw [drain_iter] at hs
    split at hs
    · rw [drain_iter_arrived rand n j hs]
      simp only [drain_tick, drain_serve_loop_eq, serve_loop_arrived]
    · cases hs

/-- C19: with at least one teller, at most `240 * num_tellers` customers are
served during the 480 minutes of the main loop; hence when more than
`240 * num_tellers` customers have arrived the queue is not empty at the end of
the main loop, and every finishing drain loop, so every finishing run, ends
with `extra_time > 0` and the same number of arrivals. -/
theorem horizon_service_bound {F : Type} [LinearOrderedField F] (exp : F → F)
    (RAND_MAX : Nat) (rand : Nat → Nat) (fuel : Nat) (lambda : F) (num_tellers : Int)
    (st0 : SimState) (hn : 1 ≤ num_tellers)
    (h : horizon_end exp RAND_MAX rand fuel lambda num_tellers = some st0) :
    st0.total_customers_served ≤ 240 * num_tellers ∧
      (st0.total_customers_arrived > 240 * num_tellers →
        is_empty st0.customer_queue = false ∧
        (∀ (draws : Nat → Nat) (fuel1 : Nat) (r : SimState),
          drain_loop draws num_tellers fuel1 st0 = some r →
          0 < r.extra_time ∧ r.total_customers_arrived = st0.total_customers_arrived)) ∧
      (∀ r, run_simulation exp RAND_MAX rand fuel lambda num_tellers = some r →
        r.total_customers_arrived > 240 * num_tellers → 0 < r.extra_time) := by
  have hinv := inv_horizon_end h
  have hb := h
  rw [horizon_end_eq_boundary] at hb
  have hcap := horizon_boundary_cap exp RAND_MAX rand fuel lambda num_tellers 480 st0 hb
  have hbound : st0.total_customers_served ≤ 240 * num_tellers := by
    have h1 := sum_map_le_mul (service_cap ((480 : Nat) : Int)) 240 st0.teller_busy
      (fun b _ => service_cap_le b)
    rw [hinv.tlen] at h1
    have h2 : ((num_tellers.toNat : Nat) : Int) = num_tellers := Int.toNat_of_nonneg (by omega)
    rw [h2] at h1
    exact le_trans hcap h1
  have he0 : st0.extra_time = 0 := by
    unfold horizon_end at h
    split at h
    · cases h
    · cases h
      rfl
  have hdrain : st0.total_customers_arrived > 240 * num_tellers →
      is_empty st0.customer_queue = false ∧
      (∀ (draws : Nat → Nat) (fuel1 : Nat) (r : SimState),
        drain_loop draws num_tellers fuel1 st0 = some r →
        0 < r.extra_time ∧ r.total_customers_arrived = st0.total_customers_arrived) := by
    intro harr
    obtain ⟨cs, h1, _, h3⟩ := hinv.queue
    have hne : is_empty st0.customer_queue = false := by
      cases hq : is_empty st0.customer_queue with
      | false => rfl
      | true =>
        have hcs := (holds_is_empty h1).mp hq
        rw [hcs] at h3
        simp only [List.length_nil, Nat.cast_zero, add_zero] at h3
        omega
    refine ⟨hne, ?_⟩
    intro draws fuel1 r hr
    obtain ⟨j, _, hj, hc⟩ := drain_loop_iter draws num_tellers fuel1 hr
    have hext := drain_iter_extra_time draws num_tellers j hj
    have harrd := drain_iter_arrived draws num_tellers j hj
    refine ⟨?_, harrd⟩
    cases j with
    | zero =>
      simp only [drain_iter, Option.some.injEq] at hj
      rw [← hj] at hc
      simp [drain_cond, hne] at hc
    | succ j =>
      rw [hext, he0]
      push_cast
      omega
  refine ⟨hbound, hdrain, ?_⟩
  intro r hr harr
  unfold run_simulation at hr
  rw [h] at hr
  simp only at hr
  obtain ⟨j, _, hj, _⟩ := drain_loop_iter rand num_tellers fuel hr
  have harrd := drain_iter_arrived rand num_tellers j hj
  rw [harrd] at harr
  exact ((hdrain harr).2 rand fuel r hr).1

theorem demo_heavy_end_eq :
    horizon_end demo_exp 32767 demo_rand_heavy 300 1 1 = some demo_heavy_end := by
  decide!

theorem horizon_service_bound_witness :
    (1 : Int) ≤ 1 ∧ horizon_end demo_exp 32767 demo_rand_heavy 300 1 1 = some demo_heavy_end ∧
      demo_heavy_end.total_customers_served ≤ 240 * 1 ∧
      demo_heavy_end.total_customers_arrived > 240 * 1 ∧
      is_empty demo_heavy_end.customer_queue = false :=
  ⟨le_refl _, demo_heavy_end_eq,
    (horizon_service_bound demo_exp 32767 demo_rand_heavy 300 1 1 demo_heavy_end (le_refl _)
      demo_heavy_end_eq).1,
    by decide,
    ((horizon_service_bound demo_exp 32767 demo_rand_heavy 300 1 1 demo_heavy_end (le_refl _)
      demo_heavy_end_eq).2.1 (by decide)).1⟩

end BankSimulator
